import Mathlib

/-!
The regular simplex mesh of hypermesh

A shallow embedding of `include/hypermesh/regular_simplex_mesh.hh`.

Conventions of the embedding:

* `std::vector<int>` is `List Int`; C++ `int` arithmetic is modelled on `Int`
  (signed overflow is undefined behaviour in the source and is not modelled).
* `std::vector<T>::operator<` is `std::lexicographical_compare`, embedded as `lex_lt`.
* `std::set<T>` is a strictly increasing list, `set_insert` is `std::set::insert`.
* `std::sort` is embedded as an insertion sort on the same comparison.
* `std::next_permutation` is embedded by the textbook algorithm (rightmost ascent,
  rightmost larger element, swap, reverse the suffix).
* loops carry an explicit fuel that is proved sufficient.
* reads outside a vector, past its end or at a negative index (undefined behaviour in the
  source), read `0` / `[]`.
-/

namespace hypermesh

/-! ## Standard-library primitives -/

/-- Comparison of `int`: `a < b`. -/
def int_lt (a b : Int) : Bool := decide (a < b)

/-- The algorithm `std::lexicographical_compare`, which is `operator<` of `std::vector`. -/
def lex_lt {α : Type} (lt : α → α → Bool) : List α → List α → Bool
  | [], [] => false
  | [], _ :: _ => true
  | _ :: _, [] => false
  | a :: as, b :: bs =>
    if lt a b then true else if lt b a then false else lex_lt lt as bs

/-- Comparison `operator<` of `std::vector<int>`. -/
def vec_lt : List Int → List Int → Bool := lex_lt int_lt

/-- Comparison `operator<` of `std::vector<std::vector<int>>`. -/
def simplex_lt : List (List Int) → List (List Int) → Bool := lex_lt vec_lt

/-- Comparison `operator<` of `std::tuple<int, std::vector<int>>`. -/
def tuple_lt (a b : Int × List Int) : Bool :=
  if int_lt a.1 b.1 then true else if int_lt b.1 a.1 then false else vec_lt a.2 b.2

/-- Insertion of one element into an ascending range (inner step of the sort). -/
def sort_insert {α : Type} (lt : α → α → Bool) (x : α) : List α → List α
  | [] => [x]
  | y :: ys => if lt y x then y :: sort_insert lt x ys else x :: y :: ys

/-- The algorithm `std::sort` with comparison `lt`. -/
def std_sort {α : Type} (lt : α → α → Bool) : List α → List α
  | [] => []
  | x :: xs => sort_insert lt x (std_sort lt xs)

/-- The operation `std::set::insert`: the set is kept as a strictly ascending list and an
element equivalent to one already present is not inserted. -/
def set_insert {α : Type} (lt : α → α → Bool) (x : α) : List α → List α
  | [] => [x]
  | y :: ys =>
    if lt x y then x :: y :: ys
    else if lt y x then y :: set_insert lt x ys
    else y :: ys

/-- Second half of `std::next_permutation`: in the ascending (reversed) suffix, replace the
first element greater than `x` by `x` and return that element with the new suffix. -/
def swap_first_greater {α : Type} (lt : α → α → Bool) (x : α) : List α → Option (α × List α)
  | [] => none
  | y :: ys =>
    if lt x y then some (y, x :: ys)
    else match swap_first_greater lt x ys with
      | none => none
      | some (z, zs) => some (z, y :: zs)

/-- The step of `std::next_permutation` at an ascent: when the suffix `xs` after `x` has no
ascent and `x < xs[0]`, the rightmost element of `xs` greater than `x` is swapped with `x`
and the suffix is reversed. -/
def next_permutation_at {α : Type} (lt : α → α → Bool) (x : α) (xs : List α) :
    Option (List α) :=
  match xs with
  | [] => none
  | y :: _ =>
    if lt x y then
      match swap_first_greater lt x xs.reverse with
      | some (z, zs) => some (z :: zs)
      | none => none
    else none

/-- The algorithm `std::next_permutation`: `some` of the next permutation in lexicographic
order when there is one (the source call returns `true`), `none` when the range is the last
permutation (the source call returns `false`).  The rightmost ascent `a[i] < a[i+1]` is
located by recursing into the tail first; then the rightmost `a[j] > a[i]` is swapped with
`a[i]` and the suffix after `i` is reversed. -/
def next_permutation {α : Type} (lt : α → α → Bool) : List α → Option (List α)
  | [] => none
  | x :: xs =>
    match next_permutation lt xs with
    | some ys => some (x :: ys)
    | none => next_permutation_at lt x xs

/-- States visited by `do { body } while (std::next_permutation(...))`, starting from `s`;
the loop body runs once per listed state.  `fuel` bounds the number of iterations. -/
def permutation_loop {α : Type} (lt : α → α → Bool) : Nat → List α → List (List α)
  | 0, s => [s]
  | fuel + 1, s =>
    match next_permutation lt s with
    | none => [s]
    | some s1 => s :: permutation_loop lt fuel s1

/-- The algorithm `std::includes` on two sorted ranges. -/
def std_includes {α : Type} (lt : α → α → Bool) : List α → List α → Bool
  | _, [] => true
  | [], _ :: _ => false
  | a :: as, b :: bs =>
    if lt b a then false
    else if lt a b then std_includes lt as (b :: bs)
    else std_includes lt as bs

/-! ## Construction of the tables -/

/-- The call `vertex.insert(vertex.begin()+i, 0)`. -/
def insert_zero (i : Nat) (vertex : List Int) : List Int :=
  vertex.take i ++ 0 :: vertex.drop i

/-- The method `regular_simplex_mesh::subdivide_unit_cube`.  The source recursion has its
base case at `n == 1` and does not terminate for `n < 1`; the embedding returns no simplex
for `n = 0`. -/
def subdivide_unit_cube : Nat → List (List (List Int))
  | 0 => []
  | 1 => [[[0], [1]]]
  | n + 2 =>
    let results0 := subdivide_unit_cube (n + 1)
    (List.range (n + 2)).flatMap fun i =>
      results0.map fun simplex0 =>
        ((List.range (n + 2)).map fun k => insert_zero i (simplex0.getD k [])) ++
          [List.replicate (n + 2) 1]

/-- Test `simplex[j][i] == 0` for some vertex `j` (the inner loop that clears `all_one`). -/
def column_has_zero (simplex : List (List Int)) (i : Nat) : Bool :=
  simplex.any fun v => v.getD i 0 == 0

/-- One iteration of the axis loop of `reduce_unit_simplex`. -/
def reduce_axis (st : List (List Int) × List Int) (i : Nat) : List (List Int) × List Int :=
  if column_has_zero st.1 i then st
  else (st.1.map fun v => v.set i 0, st.2.set i 1)

/-- The method `regular_simplex_mesh::reduce_unit_simplex` of a mesh of dimension `nd`. -/
def reduce_unit_simplex (nd : Nat) (simplex : List (List Int)) : List (List Int) × List Int :=
  (List.range nd).foldl reduce_axis (simplex, List.replicate nd 0)

/-- Body of the `do ... while` loops: drop the last vertex (`resize(size() - 1)`), reduce,
sort the reduced vertex list; returns the sorted reduced simplex and the offset. -/
def reduced_side (nd : Nat) (simplex : List (List Int)) : List (List Int) × List Int :=
  let r := reduce_unit_simplex nd simplex.dropLast
  (std_sort vec_lt r.1, r.2)

/-- The method `regular_simplex_mesh::enumerate_unit_simplices (n, k)` with `k = n - gap`,
for a mesh of dimension `nd`: the recursion of the source goes from `k` to `k + 1` until
`k == n`, that is, it decreases `gap`. -/
def enumerate_unit_simplices_gap (nd n : Nat) : Nat → List (List (List Int))
  | 0 =>
    (subdivide_unit_cube n).foldl
      (fun results simplex => set_insert simplex_lt (std_sort vec_lt simplex) results) []
  | gap + 1 =>
    (enumerate_unit_simplices_gap nd n gap).foldl
      (fun results hyper_simplex =>
        (permutation_loop vec_lt hyper_simplex.length.factorial hyper_simplex).foldl
          (fun results1 p => set_insert simplex_lt (reduced_side nd p).1 results1) results)
      []

/-- The method `regular_simplex_mesh::enumerate_unit_simplices (n, k)` of a mesh of
dimension `nd`; for `k > n` neither branch of the source runs and the result is empty. -/
def enumerate_unit_simplices (nd n k : Nat) : List (List (List Int)) :=
  if k ≤ n then enumerate_unit_simplices_gap nd n (n - k) else []

/-! ## The mesh and its elements -/

/-- The class `regular_simplex_mesh` (its data members). -/
structure regular_simplex_mesh where
  nd_ : Nat
  lb_ : List Int
  ub_ : List Int
  ntypes_ : List Int
  unit_simplices : List (List (List (List Int)))
  unit_simplex_sides : List (List (List (Int × List Int)))
  unit_simplex_side_of : List (List (List (Int × List Int)))
  deriving DecidableEq, Repr

/-- The class `regular_simplex_mesh_element` (its data members, without the reference `m`
to the mesh, which is passed to every method instead). -/
structure regular_simplex_mesh_element where
  corner : List Int
  dim : Nat
  type : Int
  deriving DecidableEq, Repr

namespace regular_simplex_mesh

/-- The accessor `nd()`. -/
def nd (m : regular_simplex_mesh) : Nat := m.nd_

/-- The accessor `ntypes(d)`, that is `ntypes_.at(d)`; the source throws for `d` outside
the vector, the embedding is used for `d ≤ nd()` only. -/
def ntypes (m : regular_simplex_mesh) (d : Nat) : Int := m.ntypes_.getD d 0

/-- The accessor `unit_simplex(d, t)`, that is `unit_simplices[d][t]`. -/
def unit_simplex (m : regular_simplex_mesh) (d : Nat) (t : Int) : List (List Int) :=
  if t < 0 then [] else (m.unit_simplices.getD d []).getD t.toNat []

/-- The accessor `lb(d)`. -/
def lb (m : regular_simplex_mesh) (d : Nat) : Int := m.lb_.getD d 0

/-- The accessor `ub(d)`. -/
def ub (m : regular_simplex_mesh) (d : Nat) : Int := m.ub_.getD d 0

end regular_simplex_mesh

namespace regular_simplex_mesh_element

/-- The method `regular_simplex_mesh_element::operator<`. -/
def lt (a e : regular_simplex_mesh_element) : Bool :=
  if vec_lt a.corner e.corner then true
  else if a.corner = e.corner then decide (a.type < e.type)
  else false

/-- The method `regular_simplex_mesh_element::operator==`. -/
def eq (a e : regular_simplex_mesh_element) : Bool :=
  decide (a.dim = e.dim) && decide (a.type = e.type) && decide (a.corner = e.corner)

/-- The method `regular_simplex_mesh_element::vertices`. -/
def vertices (m : regular_simplex_mesh) (e : regular_simplex_mesh_element) :
    List (List Int) :=
  (m.unit_simplex e.dim e.type).map fun unit_vertex =>
    (List.range m.nd).map fun j => e.corner.getD j 0 + unit_vertex.getD j 0

/-- The method `regular_simplex_mesh_element::valid`. -/
def valid (m : regular_simplex_mesh) (e : regular_simplex_mesh_element) : Bool :=
  if e.type < 0 ∨ e.type ≥ m.ntypes e.dim then false
  else
    (vertices m e).all fun v =>
      (List.range v.length).all fun j =>
        !(decide (v.getD j 0 < m.lb j) || decide (v.getD j 0 > m.ub j))

/-- The method `regular_simplex_mesh_element::increase_corner (d)`, acting on the corner;
`fuel` bounds the depth of the recursion, and `none` stands for an access past the end of
`corner` (every axis has overflowed). -/
def increase_corner (m : regular_simplex_mesh) : Nat → List Int → Nat → Option (List Int)
  | 0, _, _ => none
  | fuel + 1, corner, d =>
    if d < corner.length then
      if corner.getD d 0 + 1 > m.ub d then increase_corner m fuel (corner.set d 0) (d + 1)
      else some (corner.set d (corner.getD d 0 + 1))
    else none

/-- The method `regular_simplex_mesh_element::operator++`. -/
def incr (m : regular_simplex_mesh) (e : regular_simplex_mesh_element) :
    Option regular_simplex_mesh_element :=
  if e.type + 1 ≥ m.ntypes e.dim then
    if e.corner = m.ub_ then some { e with type := e.type + 1 }
    else
      match increase_corner m (e.corner.length + 1) e.corner 0 with
      | some c => some { e with type := 0, corner := c }
      | none => none
  else some { e with type := e.type + 1 }

/-- The element after `k` applications of `operator++`; `none` when one of them runs
past the end of `corner`. -/
def iterate_incr (m : regular_simplex_mesh) :
    Nat → regular_simplex_mesh_element → Option regular_simplex_mesh_element
  | 0, e => some e
  | k + 1, e => (iterate_incr m k e).bind (incr m)

/-- The elements passed by the loop `for (e = first; e != stop; ++e)`, in order; `fuel`
bounds the number of iterations. -/
def elements_between (m : regular_simplex_mesh) (stop : regular_simplex_mesh_element) :
    Nat → regular_simplex_mesh_element → List regular_simplex_mesh_element
  | 0, _ => []
  | fuel + 1, e =>
    if e = stop then []
    else
      e :: match incr m e with
        | some e1 => elements_between m stop fuel e1
        | none => []

/-- The loop `for (i < m.nd()) side.corner[i] += offset[i]`. -/
def add_offset (nd : Nat) (corner offset : List Int) : List Int :=
  (List.range nd).foldl (fun c i => c.set i (c.getD i 0 + offset.getD i 0)) corner

/-- The method `regular_simplex_mesh_element::sides`. -/
def sides (m : regular_simplex_mesh) (e : regular_simplex_mesh_element) :
    List regular_simplex_mesh_element :=
  if e.type < 0 then []
  else
    ((m.unit_simplex_sides.getD e.dim []).getD e.type.toNat []).map fun s =>
      { corner := add_offset m.nd e.corner s.2, dim := e.dim - 1, type := s.1 }

/-- The method `regular_simplex_mesh_element::side_of`. -/
def side_of (m : regular_simplex_mesh) (e : regular_simplex_mesh_element) :
    List regular_simplex_mesh_element :=
  if e.type < 0 then []
  else
    ((m.unit_simplex_side_of.getD e.dim []).getD e.type.toNat []).map fun s =>
      { corner := add_offset m.nd e.corner s.2, dim := e.dim + 1, type := s.1 }

end regular_simplex_mesh_element

namespace regular_simplex_mesh

open regular_simplex_mesh_element

/-- The method `regular_simplex_mesh::enumerate_unit_simplex_sides (k, type)`. -/
def enumerate_unit_simplex_sides (m : regular_simplex_mesh) (k : Nat) (type : Nat) :
    List (Int × List Int) :=
  if k = 0 then []
  else
    let simplex := (m.unit_simplices.getD k []).getD type []
    let k_minus_one_simplices := m.unit_simplices.getD (k - 1) []
    (permutation_loop vec_lt simplex.length.factorial simplex).foldl
      (fun mysides p =>
        let rs := reduced_side m.nd p
        (List.range k_minus_one_simplices.length).foldl
          (fun mysides1 k_minus_one_type =>
            if rs.1 = k_minus_one_simplices.getD k_minus_one_type [] then
              set_insert tuple_lt ((k_minus_one_type : Int), rs.2) mysides1
            else mysides1)
          mysides)
      []

/-- The corner update inside the scan of `enumerate_unit_simplex_side_of`:
`corner[i]++; while (corner[i] > 1) { corner[i] = -1; corner[++i]++; }`, entered with
`corner[i]` already incremented; `none` stands for an access past the end of `corner`. -/
def scan_carry : Nat → List Int → Nat → Option (List Int)
  | 0, _, _ => none
  | fuel + 1, corner, i =>
    if i < corner.length then
      if corner.getD i 0 > 1 then
        if i + 1 < corner.length then
          scan_carry fuel ((corner.set i (-1)).set (i + 1) (corner.getD (i + 1) 0 + 1)) (i + 1)
        else none
      else some corner
    else none

/-- The `while (1)` scan of `enumerate_unit_simplex_side_of`, from the state
`(corner, k_plus_one_simplex_type)`, accumulating the set `my_side_of`; `none` stands for
fuel exhausted or an access past the end of `corner`. -/
def side_of_scan (m : regular_simplex_mesh) (k : Nat) (k_simplex_vertices : List (List Int)) :
    Nat → List Int → Int → List (Int × List Int) → Option (List (Int × List Int))
  | 0, _, _, _ => none
  | fuel + 1, corner, k_plus_one_simplex_type, my_side_of =>
    let k_plus_one_simplex : regular_simplex_mesh_element :=
      { corner := corner, dim := k + 1, type := k_plus_one_simplex_type }
    let my_side_of1 :=
      if std_includes vec_lt (vertices m k_plus_one_simplex) k_simplex_vertices then
        set_insert tuple_lt (k_plus_one_simplex_type, corner) my_side_of
      else my_side_of
    if k_plus_one_simplex_type = m.ntypes (k + 1) - 1 ∧ corner.all (fun i => i == 1) then
      some my_side_of1
    else if k_plus_one_simplex_type = m.ntypes (k + 1) - 1 then
      if 0 < corner.length then
        match scan_carry (corner.length + 1) (corner.set 0 (corner.getD 0 0 + 1)) 0 with
        | some corner1 => side_of_scan m k k_simplex_vertices fuel corner1 0 my_side_of1
        | none => none
      else none
    else
      side_of_scan m k k_simplex_vertices fuel corner (k_plus_one_simplex_type + 1) my_side_of1

/-- The method `regular_simplex_mesh::enumerate_unit_simplex_side_of (k, type)`; `none`
when the scan does not come to its `break`. -/
def enumerate_unit_simplex_side_of (m : regular_simplex_mesh) (k : Nat) (type : Nat) :
    Option (List (Int × List Int)) :=
  if k = m.nd then some []
  else
    let k_simplex : regular_simplex_mesh_element :=
      { corner := List.replicate m.nd 0, dim := k, type := type }
    side_of_scan m k (vertices m k_simplex)
      ((m.ntypes (k + 1)).toNat * 3 ^ m.nd) (List.replicate m.nd (-1)) 0 []

/-- All results of a list of fallible computations, `none` as soon as one of them fails. -/
def collect {α : Type} : List (Option α) → Option (List α)
  | [] => some []
  | none :: _ => none
  | some a :: rest =>
    match collect rest with
    | some as => some (a :: as)
    | none => none

/-- First loop of `initialize_subdivision`: the catalogue `unit_simplices[k]` and its
size `ntypes_[k]` for `k = 0..nd()`. -/
def initialize_simplices (m : regular_simplex_mesh) : regular_simplex_mesh :=
  let simplices := (List.range (m.nd + 1)).map fun k => enumerate_unit_simplices m.nd m.nd k
  { m with unit_simplices := simplices
           ntypes_ := simplices.map fun l => (l.length : Int) }

/-- Second loop of `initialize_subdivision`: the table `unit_simplex_sides`. -/
def initialize_sides (m : regular_simplex_mesh) : regular_simplex_mesh :=
  { m with
    unit_simplex_sides := (List.range (m.nd + 1)).map fun dim =>
      (List.range (m.ntypes dim).toNat).map fun type =>
        m.enumerate_unit_simplex_sides dim type }

/-- Third loop of `initialize_subdivision`: the table `unit_simplex_side_of`; `none` when
one of the `enumerate_unit_simplex_side_of` scans does not come to its end. -/
def initialize_side_of (m : regular_simplex_mesh) : Option regular_simplex_mesh :=
  match collect ((List.range (m.nd + 1)).map fun dim =>
      collect ((List.range (m.ntypes dim).toNat).map fun type =>
        m.enumerate_unit_simplex_side_of dim type)) with
  | some tables => some { m with unit_simplex_side_of := tables }
  | none => none

/-- The method `regular_simplex_mesh::initialize_subdivision`: its three loops in turn. -/
def initialize_subdivision (m : regular_simplex_mesh) : Option regular_simplex_mesh :=
  initialize_side_of (initialize_sides (initialize_simplices m))

/-- The constructor `regular_simplex_mesh (n)`.  For `n < 1` the recursion of
`subdivide_unit_cube` in the source does not terminate: the result is `none`. -/
def create (n : Nat) : Option regular_simplex_mesh :=
  if n = 0 then none
  else
    initialize_subdivision
      { nd_ := n, lb_ := List.replicate n 0, ub_ := List.replicate n 0, ntypes_ := [],
        unit_simplices := [], unit_simplex_sides := [], unit_simplex_side_of := [] }

/-- The call `v.resize(n)` on a `std::vector<int>` (new entries are zero). -/
def resize (v : List Int) (n : Nat) : List Int :=
  v.take n ++ List.replicate (n - v.length) 0

/-- The body shared by `set_lb` and `set_ub`: resize to `nd()`, then copy the common
prefix of `b`. -/
def set_bound (nd : Nat) (old b : List Int) : List Int :=
  let v := resize old nd
  (List.range (min v.length b.length)).foldl (fun v1 i => v1.set i (b.getD i 0)) v

/-- The method `regular_simplex_mesh::set_lb`. -/
def set_lb (m : regular_simplex_mesh) (b : List Int) : regular_simplex_mesh :=
  { m with lb_ := set_bound m.nd m.lb_ b }

/-- The method `regular_simplex_mesh::set_ub`. -/
def set_ub (m : regular_simplex_mesh) (b : List Int) : regular_simplex_mesh :=
  { m with ub_ := set_bound m.nd m.ub_ b }

/-- The method `regular_simplex_mesh::element_begin`. -/
def element_begin (m : regular_simplex_mesh) (d : Nat) : regular_simplex_mesh_element :=
  { corner := m.lb_, dim := d, type := 0 }

/-- The method `regular_simplex_mesh::element_end`. -/
def element_end (m : regular_simplex_mesh) (d : Nat) : regular_simplex_mesh_element :=
  { corner := m.ub_, dim := d, type := m.ntypes d }

/-- Modelled from the spec: the method `n(d)` ("number of elements"), which the class
declares (`int n(int d) const;`) and the source never defines.  The spec gives its
contract: the number of distinct valid Elements reachable by iteration from
`element_begin(d)` to `element_end(d)`.  The iteration is run for at most
`ntypes(d) * prod (ub[i] + 1)` increments, the number of states of the iterator. -/
def n (m : regular_simplex_mesh) (d : Nat) : Nat :=
  ((elements_between m (m.element_end d)
      (m.ntypes d * (m.ub_.map fun u => u + 1).prod).toNat (m.element_begin d)).filter
    fun e => valid m e).dedup.length

end regular_simplex_mesh

/-! ## Auxiliary notions used in the proofs -/

/-- A Boolean comparison that is a strict total order. -/
structure StrictTotal {α : Type} (lt : α → α → Bool) : Prop where
  irrefl : ∀ a, lt a a = false
  trans : ∀ a b c, lt a b = true → lt b c = true → lt a c = true
  tri : ∀ a b, lt a b = false → lt b a = false → a = b

/-- The permutations of `s` that are lexicographically greater than `s`: the states that
a `std::next_permutation` loop started at `s` has still to visit. -/
def perms_above {α : Type} [DecidableEq α] (lt : α → α → Bool) (s : List α) :
    Finset (List α) :=
  s.permutations.toFinset.filter fun q => lex_lt lt s q = true

/-- An `n`-vector with entries 0 or 1. -/
def unit_vertex (n : Nat) (v : List Int) : Prop :=
  v.length = n ∧ ∀ x ∈ v, x = 0 ∨ x = 1

/-- Well-formed `k`-simplex of the unit `n`-cube: `k + 1` distinct 0/1 vertices, with a
vertex of coordinate 0 on every axis. -/
def unit_simplex_wf (n k : Nat) (s : List (List Int)) : Prop :=
  s.length = k + 1 ∧ (∀ v ∈ s, unit_vertex n v) ∧ s.Nodup ∧
    ∀ j, j < n → ∃ v ∈ s, v.getD j 0 = 0

/-- The vector `corner + v` on the first `nd` axes (inner loop of `vertices`). -/
def translate (nd : Nat) (corner v : List Int) : List Int :=
  (List.range nd).map fun j => corner.getD j 0 + v.getD j 0

/-- Vertex `v` after the first `m` iterations of the axis loop of `reduce_unit_simplex`
run on the simplex `s`. -/
def reduce_vertex (s : List (List Int)) (m : Nat) (v : List Int) : List Int :=
  (List.range m).foldl (fun v1 i => if column_has_zero s i then v1 else v1.set i 0) v

/-- The offset after the first `m` iterations of the axis loop of `reduce_unit_simplex`
run on the simplex `s`. -/
def reduce_offset (s : List (List Int)) (nd m : Nat) : List Int :=
  (List.range m).foldl (fun o i => if column_has_zero s i then o else o.set i 1)
    (List.replicate nd 0)

/-- Strictly ascending for a comparison (the state of a sorted range without repetition,
and of a `std::set`). -/
def strictly_sorted {α : Type} (lt : α → α → Bool) (l : List α) : Prop :=
  l.Pairwise fun a b => lt a b = true

/-- Successor of a corner in the little-endian counter over the box `[lo, hi[i]]`: the
common shape of `increase_corner` (with `lo = 0`, `hi = ub`) and of the corner update in
`enumerate_unit_simplex_side_of` (with `lo = -1`, `hi = 1`); `none` when every axis
overflows. -/
def counter_succ (lo : Int) : List Int → List Int → Option (List Int)
  | c :: cs, h :: hi =>
    if c + 1 > h then
      match counter_succ lo cs hi with
      | some cs1 => some (lo :: cs1)
      | none => none
    else some ((c + 1) :: cs)
  | _, _ => none

/-- Position of a corner in the order in which the counter visits the box. -/
def counter_rank (lo : Int) : List Int → List Int → Int
  | c :: cs, h :: hi => (c - lo) + (h - lo + 1) * counter_rank lo cs hi
  | _, _ => 0

/-- Number of corners of the box `[lo, hi[i]]`. -/
def counter_size (lo : Int) : List Int → Int
  | [] => 1
  | h :: hi => (h - lo + 1) * counter_size lo hi

/-- The corner lies in the box: same length as `hi` and `lo ≤ c[i] ≤ hi[i]`. -/
def in_box (lo : Int) : List Int → List Int → Prop
  | [], [] => True
  | c :: cs, h :: hi => lo ≤ c ∧ c ≤ h ∧ in_box lo cs hi
  | _, _ => False

/-- What the constructor establishes for a mesh of dimension `n`: the bounds are zero, the
catalogue of types and the two adjacency tables are the ones computed by the enumeration
methods, and every scan of `enumerate_unit_simplex_side_of` came to its end. -/
structure mesh_spec (n : Nat) (m : regular_simplex_mesh) : Prop where
  nd_eq : m.nd_ = n
  lb_eq : m.lb_ = List.replicate n 0
  ub_eq : m.ub_ = List.replicate n 0
  simplices_eq : ∀ k, k ≤ n → m.unit_simplices.getD k [] = enumerate_unit_simplices n n k
  ntypes_eq : ∀ k, k ≤ n → m.ntypes k = ((enumerate_unit_simplices n n k).length : Int)
  sides_eq : ∀ k t, k ≤ n → t < (enumerate_unit_simplices n n k).length →
    (m.unit_simplex_sides.getD k []).getD t [] = m.enumerate_unit_simplex_sides k t
  side_of_eq : ∀ k t, k ≤ n → t < (enumerate_unit_simplices n n k).length →
    m.enumerate_unit_simplex_side_of k t =
      some ((m.unit_simplex_side_of.getD k []).getD t [])

/-- The mesh of dimension 1 as the constructor builds it (used to instantiate the general
theorems at a concrete mesh). -/
def mesh_one : regular_simplex_mesh :=
  { nd_ := 1, lb_ := [0], ub_ := [0], ntypes_ := [1, 1],
    unit_simplices := [[[[0]]], [[[0], [1]]]],
    unit_simplex_sides := [[[]], [[(0, [0]), (0, [1])]]],
    unit_simplex_side_of := [[[(0, [-1]), (0, [0])]], [[]]] }

/-- The mesh of dimension 2 as the constructor builds it. -/
def mesh_two : regular_simplex_mesh :=
  { nd_ := 2, lb_ := [0, 0], ub_ := [0, 0], ntypes_ := [1, 3, 2],
    unit_simplices := [[[[0, 0]]],
      [[[0, 0], [0, 1]], [[0, 0], [1, 0]], [[0, 0], [1, 1]]],
      [[[0, 0], [0, 1], [1, 1]], [[0, 0], [1, 0], [1, 1]]]],
    unit_simplex_sides := [[[]],
      [[(0, [0, 0]), (0, [0, 1])], [(0, [0, 0]), (0, [1, 0])], [(0, [0, 0]), (0, [1, 1])]],
      [[(0, [0, 0]), (1, [0, 1]), (2, [0, 0])], [(0, [1, 0]), (1, [0, 0]), (2, [0, 0])]]],
    unit_simplex_side_of :=
      [[[(0, [0, -1]), (0, [0, 0]), (1, [-1, 0]), (1, [0, 0]), (2, [-1, -1]), (2, [0, 0])]],
        [[(0, [0, 0]), (1, [-1, 0])], [(0, [0, -1]), (1, [0, 0])], [(0, [0, 0]), (1, [0, 0])]],
        [[], []]] }

/-- One step of a monotone chain of the unit `n`-cube: `w` is `v` with exactly one
coordinate changed from 0 to 1. -/
def kuhn_step (n : Nat) (v w : List Int) : Prop :=
  ∃ j, j < n ∧ v.getD j 0 = 0 ∧ w.getD j 0 = 1 ∧
    ∀ i, i < n → i ≠ j → v.getD i 0 = w.getD i 0

/-! ## Order lemmas for the comparisons -/

theorem StrictTotal.asymm {α : Type} {lt : α → α → Bool} (h : StrictTotal lt) {a b : α}
    (hab : lt a b = true) : lt b a = false := by
  cases hba : lt b a with
  | false => rfl
  | true =>
    have := h.trans a b a hab hba
    rw [h.irrefl a] at this
    exact absurd this (by decide)

theorem int_lt_strictTotal : StrictTotal int_lt where
  irrefl a := by simp [int_lt]
  trans a b c := by simp only [int_lt, decide_eq_true_eq]; omega
  tri a b := by simp only [int_lt, decide_eq_false_iff_not]; omega

theorem lex_lt_irrefl {α : Type} {lt : α → α → Bool} (h : StrictTotal lt) :
    ∀ l : List α, lex_lt lt l l = false
  | [] => rfl
  | a :: as => by simp [lex_lt, h.irrefl a, lex_lt_irrefl h as]

theorem lex_lt_cons {α : Type} {lt : α → α → Bool} (h : StrictTotal lt) (a b : α)
    (as bs : List α) :
    lex_lt lt (a :: as) (b :: bs) = true ↔
      lt a b = true ∨ (a = b ∧ lex_lt lt as bs = true) := by
  simp only [lex_lt]
  by_cases hab : lt a b = true
  · simp [hab]
  · by_cases hba : lt b a = true
    · have hne : a ≠ b := by
        intro e; subst e; rw [h.irrefl a] at hba; exact absurd hba (by decide)
      simp [hab, hba, hne]
    · have e : a = b := h.tri a b (by simpa using hab) (by simpa using hba)
      subst e
      simp [hab]

theorem lex_lt_trans {α : Type} {lt : α → α → Bool} (h : StrictTotal lt) :
    ∀ a b c : List α, lex_lt lt a b = true → lex_lt lt b c = true → lex_lt lt a c = true
  | [], [], _ => by simp [lex_lt]
  | [], _ :: _, [] => by simp [lex_lt]
  | [], _ :: _, _ :: _ => by simp [lex_lt]
  | _ :: _, [], _ => by simp [lex_lt]
  | _ :: _, _ :: _, [] => by simp [lex_lt]
  | a :: as, b :: bs, c :: cs => by
    rw [lex_lt_cons h, lex_lt_cons h, lex_lt_cons h]
    rintro (hab | ⟨rfl, hab⟩) (hbc | ⟨rfl, hbc⟩)
    · exact Or.inl (h.trans _ _ _ hab hbc)
    · exact Or.inl hab
    · exact Or.inl hbc
    · exact Or.inr ⟨rfl, lex_lt_trans h as bs cs hab hbc⟩

theorem lex_lt_tri {α : Type} {lt : α → α → Bool} (h : StrictTotal lt) :
    ∀ a b : List α, lex_lt lt a b = false → lex_lt lt b a = false → a = b
  | [], [] => fun _ _ => rfl
  | [], _ :: _ => by simp [lex_lt]
  | _ :: _, [] => by simp [lex_lt]
  | a :: as, b :: bs => by
    intro h1 h2
    have h1' : ¬ (lex_lt lt (a :: as) (b :: bs) = true) := by simp [h1]
    have h2' : ¬ (lex_lt lt (b :: bs) (a :: as) = true) := by simp [h2]
    rw [lex_lt_cons h] at h1' h2'
    push_neg at h1' h2'
    have e : a = b := h.tri a b (by simpa using h1'.1) (by simpa using h2'.1)
    subst e
    have := lex_lt_tri h as bs (by simpa using h1'.2 rfl) (by simpa using h2'.2 rfl)
    rw [this]

theorem lex_lt_strictTotal {α : Type} {lt : α → α → Bool} (h : StrictTotal lt) :
    StrictTotal (lex_lt lt) :=
  ⟨lex_lt_irrefl h, lex_lt_trans h, lex_lt_tri h⟩

theorem vec_lt_strictTotal : StrictTotal vec_lt := lex_lt_strictTotal int_lt_strictTotal

theorem simplex_lt_strictTotal : StrictTotal simplex_lt := lex_lt_strictTotal vec_lt_strictTotal

theorem tuple_lt_iff (a b : Int × List Int) :
    tuple_lt a b = true ↔ a.1 < b.1 ∨ (a.1 = b.1 ∧ vec_lt a.2 b.2 = true) := by
  unfold tuple_lt int_lt
  by_cases h1 : a.1 < b.1
  · simp [h1]
  · by_cases h2 : b.1 < a.1
    · have : a.1 ≠ b.1 := by omega
      simp [h1, h2, this]
    · have : a.1 = b.1 := by omega
      simp [h1, h2, this]

theorem tuple_lt_strictTotal : StrictTotal tuple_lt where
  irrefl a := by
    have := tuple_lt_iff a a
    cases h : tuple_lt a a with
    | false => rfl
    | true =>
      rw [h] at this
      rcases this.1 rfl with h1 | ⟨_, h2⟩
      · omega
      · rw [vec_lt_strictTotal.irrefl] at h2; exact absurd h2 (by decide)
  trans a b c := by
    rw [tuple_lt_iff, tuple_lt_iff, tuple_lt_iff]
    rintro (h1 | ⟨h1, h2⟩) (h3 | ⟨h3, h4⟩)
    · left; omega
    · left; omega
    · left; omega
    · right; exact ⟨by omega, vec_lt_strictTotal.trans _ _ _ h2 h4⟩
  tri a b := by
    intro h1 h2
    have h1' : ¬ (tuple_lt a b = true) := by simp [h1]
    have h2' : ¬ (tuple_lt b a = true) := by simp [h2]
    rw [tuple_lt_iff] at h1' h2'
    push_neg at h1' h2'
    have e1 : a.1 = b.1 := by omega
    have e2 : a.2 = b.2 :=
      vec_lt_strictTotal.tri _ _ (by simpa using h1'.2 e1) (by simpa using h2'.2 e1.symm)
    exact Prod.ext e1 e2



/-! ## The sort -/

theorem sort_insert_perm {α : Type} (lt : α → α → Bool) (x : α) :
    ∀ l : List α, (sort_insert lt x l).Perm (x :: l)
  | [] => List.Perm.refl _
  | y :: ys => by
    unfold sort_insert
    split
    · exact ((sort_insert_perm lt x ys).cons y).trans (List.Perm.swap x y ys)
    · exact List.Perm.refl _

theorem std_sort_perm {α : Type} (lt : α → α → Bool) :
    ∀ l : List α, (std_sort lt l).Perm l
  | [] => List.Perm.refl _
  | x :: xs => (sort_insert_perm lt x _).trans ((std_sort_perm lt xs).cons x)

theorem mem_std_sort {α : Type} (lt : α → α → Bool) {l : List α} {x : α} :
    x ∈ std_sort lt l ↔ x ∈ l := (std_sort_perm lt l).mem_iff

theorem length_std_sort {α : Type} (lt : α → α → Bool) (l : List α) :
    (std_sort lt l).length = l.length := (std_sort_perm lt l).length_eq

/-- Weakly ascending for `lt`: no later element is smaller than an earlier one. -/
theorem sort_insert_sorted {α : Type} {lt : α → α → Bool} (h : StrictTotal lt) (x : α) :
    ∀ l : List α, l.Pairwise (fun a b => lt b a = false) →
      (sort_insert lt x l).Pairwise (fun a b => lt b a = false)
  | [], _ => by simp [sort_insert]
  | y :: ys, hs => by
    unfold sort_insert
    rw [List.pairwise_cons] at hs
    by_cases hyx : lt y x = true
    · rw [if_pos hyx, List.pairwise_cons]
      refine ⟨?_, sort_insert_sorted h x ys hs.2⟩
      intro z hz
      rcases List.mem_cons.1 ((sort_insert_perm lt x ys).mem_iff.1 hz) with rfl | hz
      · exact h.asymm hyx
      · exact hs.1 z hz
    · rw [if_neg hyx, List.pairwise_cons]
      refine ⟨?_, List.pairwise_cons.2 hs⟩
      intro z hz
      rcases List.mem_cons.1 hz with rfl | hz
      · simpa using hyx
      · -- lt z x would give lt z y ∨ ..., contradiction with y ≤ z
        cases hzx : lt z x with
        | false => rfl
        | true =>
          have hyz := hs.1 z hz
          -- y ≤ z < x, so y < x or y = z
          by_cases hyz' : lt y z = true
          · exact absurd (h.trans _ _ _ hyz' hzx) hyx
          · have : y = z := h.tri y z (by simpa using hyz') hyz
            subst this
            exact absurd hzx hyx

theorem std_sort_sorted {α : Type} {lt : α → α → Bool} (h : StrictTotal lt) :
    ∀ l : List α, (std_sort lt l).Pairwise (fun a b => lt b a = false)
  | [] => List.Pairwise.nil
  | x :: xs => sort_insert_sorted h x _ (std_sort_sorted h xs)

theorem sorted_unique {α : Type} {lt : α → α → Bool} (h : StrictTotal lt) {l1 l2 : List α}
    (hp : l1.Perm l2) (h1 : l1.Pairwise (fun a b => lt b a = false))
    (h2 : l2.Pairwise (fun a b => lt b a = false)) : l1 = l2 := by
  haveI : IsAntisymm α (fun a b => lt b a = false) := ⟨fun a b hab hba => h.tri a b hba hab⟩
  exact List.eq_of_perm_of_sorted hp h1 h2

theorem std_sort_congr {α : Type} {lt : α → α → Bool} (h : StrictTotal lt) {l1 l2 : List α}
    (hp : l1.Perm l2) : std_sort lt l1 = std_sort lt l2 :=
  sorted_unique h (((std_sort_perm lt l1).trans hp).trans (std_sort_perm lt l2).symm)
    (std_sort_sorted h l1) (std_sort_sorted h l2)

theorem std_sort_eq_self {α : Type} {lt : α → α → Bool} (h : StrictTotal lt) {l : List α}
    (hs : l.Pairwise (fun a b => lt b a = false)) : std_sort lt l = l :=
  sorted_unique h (std_sort_perm lt l) (std_sort_sorted h l) hs

theorem pairwise_weak_of_strict {α : Type} {lt : α → α → Bool} (h : StrictTotal lt)
    {l : List α} (hs : l.Pairwise (fun a b => lt a b = true)) :
    l.Pairwise (fun a b => lt b a = false) :=
  hs.imp fun hab => h.asymm hab

theorem pairwise_strict_of_weak {α : Type} {lt : α → α → Bool} (h : StrictTotal lt)
    {l : List α} (hs : l.Pairwise (fun a b => lt b a = false)) (hn : l.Nodup) :
    l.Pairwise (fun a b => lt a b = true) := by
  have := hs.and hn
  refine this.imp ?_
  rintro a b ⟨h1, h2⟩
  cases hab : lt a b with
  | true => rfl
  | false => exact absurd (h.tri a b hab h1) h2

theorem nodup_of_strict {α : Type} {lt : α → α → Bool} (h : StrictTotal lt)
    {l : List α} (hs : l.Pairwise (fun a b => lt a b = true)) : l.Nodup := by
  refine hs.imp ?_
  intro a b hab e
  subst e
  rw [h.irrefl a] at hab
  exact absurd hab (by decide)

/-! ## The ordered set -/

theorem mem_set_insert {α : Type} {lt : α → α → Bool} (h : StrictTotal lt) (x y : α) :
    ∀ s : List α, y ∈ set_insert lt x s ↔ y = x ∨ y ∈ s
  | [] => by simp [set_insert]
  | z :: zs => by
    unfold set_insert
    by_cases h1 : lt x z = true
    · simp [h1]
    · by_cases h2 : lt z x = true
      · rw [if_neg h1, if_pos h2, List.mem_cons, mem_set_insert h x y zs, List.mem_cons]
        tauto
      · have e : x = z := h.tri x z (by simpa using h1) (by simpa using h2)
        subst e
        rw [if_neg h1, if_neg h2]
        simp

theorem set_insert_sorted {α : Type} {lt : α → α → Bool} (h : StrictTotal lt) (x : α) :
    ∀ s : List α, s.Pairwise (fun a b => lt a b = true) →
      (set_insert lt x s).Pairwise (fun a b => lt a b = true)
  | [], _ => by simp [set_insert]
  | z :: zs, hs => by
    unfold set_insert
    have hs' := List.pairwise_cons.1 hs
    by_cases h1 : lt x z = true
    · rw [if_pos h1, List.pairwise_cons]
      refine ⟨?_, hs⟩
      intro w hw
      rcases List.mem_cons.1 hw with rfl | hw
      · exact h1
      · exact h.trans _ _ _ h1 (hs'.1 w hw)
    · by_cases h2 : lt z x = true
      · rw [if_neg h1, if_pos h2, List.pairwise_cons]
        refine ⟨?_, set_insert_sorted h x zs hs'.2⟩
        intro w hw
        rcases (mem_set_insert h x w zs).1 hw with rfl | hw
        · exact h2
        · exact hs'.1 w hw
      · rw [if_neg h1, if_neg h2]
        exact hs

theorem mem_foldl_set_insert {α β : Type} {lt : α → α → Bool} (h : StrictTotal lt)
    (f : β → α) (y : α) :
    ∀ (l : List β) (init : List α),
      y ∈ l.foldl (fun acc b => set_insert lt (f b) acc) init ↔ (∃ b ∈ l, y = f b) ∨ y ∈ init
  | [], init => by simp
  | b :: bs, init => by
    rw [List.foldl_cons, mem_foldl_set_insert h f y bs, mem_set_insert h]
    simp only [List.mem_cons, exists_eq_or_imp]
    constructor
    · rintro (h1 | h1 | h1)
      · exact Or.inl (Or.inr h1)
      · exact Or.inl (Or.inl h1)
      · exact Or.inr h1
    · rintro ((h1 | h1) | h1)
      · exact Or.inr (Or.inl h1)
      · exact Or.inl h1
      · exact Or.inr (Or.inr h1)

theorem foldl_set_insert_sorted {α β : Type} {lt : α → α → Bool} (h : StrictTotal lt)
    (f : β → α) :
    ∀ (l : List β) (init : List α), init.Pairwise (fun a b => lt a b = true) →
      (l.foldl (fun acc b => set_insert lt (f b) acc) init).Pairwise (fun a b => lt a b = true)
  | [], _, hi => hi
  | b :: bs, init, hi => by
    rw [List.foldl_cons]
    exact foldl_set_insert_sorted h f bs _ (set_insert_sorted h _ _ hi)



/-! ## The next permutation -/

theorem swap_first_greater_none {α : Type} {lt : α → α → Bool} (x : α) :
    ∀ r : List α, swap_first_greater lt x r = none → ∀ w ∈ r, lt x w = false
  | [], _ => by simp
  | y :: ys, hn => by
    unfold swap_first_greater at hn
    by_cases hxy : lt x y = true
    · simp [hxy] at hn
    · rw [if_neg hxy] at hn
      cases hr : swap_first_greater lt x ys with
      | some p => rw [hr] at hn; simp at hn
      | none =>
        intro w hw
        rcases List.mem_cons.1 hw with rfl | hw
        · simpa using hxy
        · exact swap_first_greater_none x ys hr w hw

theorem swap_first_greater_some {α : Type} {lt : α → α → Bool} (h : StrictTotal lt) (x : α) :
    ∀ (r : List α) (z : α) (zs : List α), r.Pairwise (fun a b => lt b a = false) →
      swap_first_greater lt x r = some (z, zs) →
      (z :: zs).Perm (x :: r) ∧ lt x z = true ∧ zs.Pairwise (fun a b => lt b a = false) ∧
        ∀ w ∈ r, lt x w = true → lt w z = false
  | [], _, _, _, hs => by simp [swap_first_greater] at hs
  | y :: ys, z, zs, hr, hs => by
    unfold swap_first_greater at hs
    have hr' := List.pairwise_cons.1 hr
    by_cases hxy : lt x y = true
    · rw [if_pos hxy] at hs
      simp only [Option.some.injEq, Prod.mk.injEq] at hs
      obtain ⟨rfl, rfl⟩ := hs
      refine ⟨List.Perm.swap x y ys, hxy, ?_, ?_⟩
      · rw [List.pairwise_cons]
        refine ⟨?_, hr'.2⟩
        intro w hw
        cases hwx : lt w x with
        | false => rfl
        | true =>
          have := h.trans _ _ _ hwx hxy
          rw [hr'.1 w hw] at this
          exact absurd this (by decide)
      · intro w hw _
        rcases List.mem_cons.1 hw with rfl | hw
        · exact h.irrefl _
        · exact hr'.1 w hw
    · rw [if_neg hxy] at hs
      cases hrec : swap_first_greater lt x ys with
      | none => rw [hrec] at hs; simp at hs
      | some p =>
        obtain ⟨z1, zs1⟩ := p
        rw [hrec] at hs
        simp only [Option.some.injEq, Prod.mk.injEq] at hs
        obtain ⟨rfl, rfl⟩ := hs
        obtain ⟨hp, hxz, hzs, hmin⟩ := swap_first_greater_some h x ys z1 zs1 hr'.2 hrec
        refine ⟨?_, hxz, ?_, ?_⟩
        · exact (List.Perm.swap y z1 zs1).trans ((hp.cons y).trans (List.Perm.swap x y ys))
        · rw [List.pairwise_cons]
          refine ⟨?_, hzs⟩
          intro w hw
          have : w ∈ x :: ys := hp.subset (List.mem_cons_of_mem _ hw)
          rcases List.mem_cons.1 this with rfl | hw'
          · simpa using hxy
          · exact hr'.1 w hw'
        · intro w hw hxw
          rcases List.mem_cons.1 hw with rfl | hw
          · exact absurd hxw hxy
          · exact hmin w hw hxw

/-- A weakly descending list is the greatest of its permutations. -/
theorem descending_max {α : Type} {lt : α → α → Bool} (h : StrictTotal lt) :
    ∀ (s p : List α), s.Pairwise (fun a b => lt a b = false) → p.Perm s →
      lex_lt lt s p = false
  | [], p, _, hp => by
    rw [List.perm_nil.1 hp]; rfl
  | x :: xs, [], _, hp => by
    exact absurd (List.perm_nil.1 hp.symm) (by simp)
  | x :: xs, w :: p1, hs, hp => by
    have hs' := List.pairwise_cons.1 hs
    cases hlt : lex_lt lt (x :: xs) (w :: p1) with
    | false => rfl
    | true =>
      rw [lex_lt_cons h] at hlt
      have hw : w ∈ x :: xs := hp.subset (List.mem_cons_self _ _)
      rcases hlt with hxw | ⟨rfl, hrest⟩
      · rcases List.mem_cons.1 hw with rfl | hw
        · rw [h.irrefl] at hxw; exact absurd hxw (by decide)
        · rw [hs'.1 w hw] at hxw; exact absurd hxw (by decide)
      · have := descending_max h xs p1 hs'.2 (List.Perm.cons_inv hp)
        rw [this] at hrest; exact absurd hrest (by decide)

/-- A weakly ascending list is the least of its permutations. -/
theorem ascending_min {α : Type} {lt : α → α → Bool} (h : StrictTotal lt) :
    ∀ (s p : List α), s.Pairwise (fun a b => lt b a = false) → p.Perm s →
      lex_lt lt p s = false
  | [], p, _, hp => by
    rw [List.perm_nil.1 hp]; rfl
  | x :: xs, [], _, hp => by
    exact absurd (List.perm_nil.1 hp.symm) (by simp)
  | x :: xs, w :: p1, hs, hp => by
    have hs' := List.pairwise_cons.1 hs
    cases hlt : lex_lt lt (w :: p1) (x :: xs) with
    | false => rfl
    | true =>
      rw [lex_lt_cons h] at hlt
      have hw : w ∈ x :: xs := hp.subset (List.mem_cons_self _ _)
      rcases hlt with hxw | ⟨rfl, hrest⟩
      · rcases List.mem_cons.1 hw with rfl | hw
        · rw [h.irrefl] at hxw; exact absurd hxw (by decide)
        · rw [hs'.1 w hw] at hxw; exact absurd hxw (by decide)
      · have := ascending_min h xs p1 hs'.2 (List.Perm.cons_inv hp)
        rw [this] at hrest; exact absurd hrest (by decide)

theorem next_permutation_none {α : Type} {lt : α → α → Bool} (h : StrictTotal lt) :
    ∀ s : List α, next_permutation lt s = none → s.Pairwise (fun a b => lt a b = false)
  | [], _ => List.Pairwise.nil
  | x :: xs, hn => by
    unfold next_permutation at hn
    cases hrec : next_permutation lt xs with
    | some ys => rw [hrec] at hn; simp at hn
    | none =>
      rw [hrec] at hn
      have hxs := next_permutation_none h xs hrec
      rw [List.pairwise_cons]
      refine ⟨?_, hxs⟩
      cases xs with
      | nil => simp
      | cons y ys =>
        simp only [next_permutation_at] at hn
        have hxy : lt x y = false := by
          by_cases hxy : lt x y = true
          · rw [if_pos hxy] at hn
            cases hsw : swap_first_greater lt x (y :: ys).reverse with
            | some p => rw [hsw] at hn; simp at hn
            | none =>
              have := swap_first_greater_none x _ hsw y (by simp)
              rw [this] at hxy; exact absurd hxy (by decide)
          · simpa using hxy
        intro w hw
        rcases List.mem_cons.1 hw with rfl | hw
        · exact hxy
        · have hyw := (List.pairwise_cons.1 hxs).1 w hw
          cases hxw : lt x w with
          | false => rfl
          | true =>
            cases hwy : lt w y with
            | true =>
              have := h.trans _ _ _ hxw hwy
              rw [hxy] at this; exact absurd this (by decide)
            | false =>
              have e : y = w := h.tri y w hyw hwy
              subst e
              rw [hxy] at hxw; exact absurd hxw (by decide)

theorem next_permutation_some {α : Type} {lt : α → α → Bool} (h : StrictTotal lt) :
    ∀ (s s1 : List α), next_permutation lt s = some s1 →
      s1.Perm s ∧ lex_lt lt s s1 = true ∧
        ∀ p : List α, p.Perm s → lex_lt lt s p = true → lex_lt lt p s1 = false
  | [], _, hs => by simp [next_permutation] at hs
  | x :: xs, s1, hs => by
    unfold next_permutation at hs
    cases hrec : next_permutation lt xs with
    | some ys =>
      rw [hrec] at hs
      simp only [Option.some.injEq] at hs
      subst hs
      obtain ⟨hp, hlt, hmin⟩ := next_permutation_some h xs ys hrec
      refine ⟨hp.cons x, (lex_lt_cons h _ _ _ _).2 (Or.inr ⟨rfl, hlt⟩), ?_⟩
      intro p hpp hsp
      cases p with
      | nil => exact absurd (List.perm_nil.1 hpp.symm) (by simp)
      | cons w p1 =>
        rw [lex_lt_cons h] at hsp
        cases hlt2 : lex_lt lt (w :: p1) (x :: ys) with
        | false => rfl
        | true =>
          rw [lex_lt_cons h] at hlt2
          rcases hsp with hxw | ⟨rfl, hrest⟩
          · rcases hlt2 with hwx | ⟨rfl, _⟩
            · rw [h.asymm hxw] at hwx; exact absurd hwx (by decide)
            · rw [h.irrefl] at hxw; exact absurd hxw (by decide)
          · rcases hlt2 with hwx | ⟨_, hrest2⟩
            · rw [h.irrefl] at hwx; exact absurd hwx (by decide)
            · have := hmin p1 (List.Perm.cons_inv hpp) hrest
              rw [this] at hrest2; exact absurd hrest2 (by decide)
    | none =>
      rw [hrec] at hs
      have hdesc := next_permutation_none h xs hrec
      cases xs with
      | nil => simp [next_permutation_at] at hs
      | cons y ys =>
        simp only [next_permutation_at] at hs
        by_cases hxy : lt x y = true
        · rw [if_pos hxy] at hs
          cases hsw : swap_first_greater lt x (y :: ys).reverse with
          | none => rw [hsw] at hs; simp at hs
          | some q =>
            obtain ⟨z, zs⟩ := q
            rw [hsw] at hs
            simp only [Option.some.injEq] at hs
            subst hs
            have hasc : (y :: ys).reverse.Pairwise (fun a b => lt b a = false) :=
              List.pairwise_reverse.2 hdesc
            obtain ⟨hp, hxz, hzs, hmin⟩ := swap_first_greater_some h x _ z zs hasc hsw
            have hp2 : (z :: zs).Perm (x :: y :: ys) :=
              hp.trans ((List.reverse_perm (y :: ys)).cons x)
            refine ⟨hp2, (lex_lt_cons h _ _ _ _).2 (Or.inl hxz), ?_⟩
            intro p hpp hsp
            cases p with
            | nil => exact absurd (List.perm_nil.1 hpp.symm) (by simp)
            | cons w p1 =>
              rw [lex_lt_cons h] at hsp
              cases hlt2 : lex_lt lt (w :: p1) (z :: zs) with
              | false => rfl
              | true =>
                rw [lex_lt_cons h] at hlt2
                rcases hsp with hxw | ⟨rfl, hrest⟩
                · have hw : w ∈ x :: y :: ys := hpp.subset (List.mem_cons_self _ _)
                  have hw2 : w ∈ (y :: ys).reverse := by
                    rcases List.mem_cons.1 hw with rfl | hw
                    · rw [h.irrefl] at hxw; exact absurd hxw (by decide)
                    · exact List.mem_reverse.2 hw
                  rcases hlt2 with hwz | ⟨rfl, hrest2⟩
                  · rw [hmin w hw2 hxw] at hwz; exact absurd hwz (by decide)
                  · have hp3 : p1.Perm zs := List.Perm.cons_inv (hpp.trans hp2.symm)
                    rw [ascending_min h zs p1 hzs hp3] at hrest2
                    exact absurd hrest2 (by decide)
                · rw [descending_max h (y :: ys) p1 hdesc (List.Perm.cons_inv hpp)] at hrest
                  exact absurd hrest (by decide)
        · rw [if_neg hxy] at hs; simp at hs



/-! ## The permutation loop -/

theorem mem_perms_above {α : Type} [DecidableEq α] (lt : α → α → Bool) (s q : List α) :
    q ∈ perms_above lt s ↔ q.Perm s ∧ lex_lt lt s q = true := by
  simp [perms_above, List.mem_permutations]

theorem perms_above_card_lt_factorial {α : Type} [DecidableEq α] {lt : α → α → Bool}
    (h : StrictTotal lt) (s : List α) : (perms_above lt s).card < s.length.factorial := by
  have h1 : perms_above lt s ⊂ s.permutations.toFinset := by
    refine Finset.ssubset_iff_subset_ne.2 ⟨Finset.filter_subset _ _, ?_⟩
    intro e
    have hs : s ∈ perms_above lt s := by
      rw [e]; simp [List.mem_permutations]
    have := ((mem_perms_above lt s s).1 hs).2
    rw [lex_lt_irrefl h] at this
    exact absurd this (by decide)
  calc (perms_above lt s).card < s.permutations.toFinset.card := Finset.card_lt_card h1
    _ ≤ s.permutations.length := List.toFinset_card_le _
    _ = s.length.factorial := List.length_permutations s

theorem perms_above_card_next {α : Type} [DecidableEq α] {lt : α → α → Bool}
    (h : StrictTotal lt) {s s1 : List α} (hs : next_permutation lt s = some s1) :
    (perms_above lt s1).card < (perms_above lt s).card := by
  obtain ⟨hp, hlt, _⟩ := next_permutation_some h s s1 hs
  apply Finset.card_lt_card
  refine Finset.ssubset_iff_subset_ne.2 ⟨?_, ?_⟩
  · intro q hq
    rw [mem_perms_above] at hq ⊢
    exact ⟨hq.1.trans hp, lex_lt_trans h _ _ _ hlt hq.2⟩
  · intro e
    have h1 : s1 ∈ perms_above lt s := (mem_perms_above lt s s1).2 ⟨hp, hlt⟩
    rw [← e, mem_perms_above, lex_lt_irrefl h] at h1
    exact absurd h1.2 (by decide)

theorem permutation_loop_sound {α : Type} {lt : α → α → Bool} (h : StrictTotal lt) :
    ∀ (fuel : Nat) (s p : List α), p ∈ permutation_loop lt fuel s → p.Perm s
  | 0, s, p, hp => by
    simp only [permutation_loop, List.mem_singleton] at hp
    rw [hp]
  | fuel + 1, s, p, hp => by
    unfold permutation_loop at hp
    cases hn : next_permutation lt s with
    | none =>
      rw [hn] at hp
      simp only [List.mem_singleton] at hp
      rw [hp]
    | some s1 =>
      rw [hn] at hp
      rcases List.mem_cons.1 hp with rfl | hp
      · exact List.Perm.refl _
      · exact (permutation_loop_sound h fuel s1 p hp).trans (next_permutation_some h s s1 hn).1

theorem permutation_loop_complete {α : Type} [DecidableEq α] {lt : α → α → Bool}
    (h : StrictTotal lt) :
    ∀ (fuel : Nat) (s p : List α), (perms_above lt s).card ≤ fuel → p.Perm s →
      lex_lt lt p s = false → p ∈ permutation_loop lt fuel s
  | 0, s, p, hc, hp, hps => by
    have hsp : lex_lt lt s p = false := by
      cases hsp : lex_lt lt s p with
      | false => rfl
      | true =>
        have : p ∈ perms_above lt s := (mem_perms_above lt s p).2 ⟨hp, hsp⟩
        have hpos : 0 < (perms_above lt s).card := Finset.card_pos.2 ⟨p, this⟩
        omega
    have e : p = s := lex_lt_tri h p s hps hsp
    simp [permutation_loop, e]
  | fuel + 1, s, p, hc, hp, hps => by
    unfold permutation_loop
    cases hn : next_permutation lt s with
    | none =>
      have hsp := descending_max h s p (next_permutation_none h s hn) hp
      have e : p = s := lex_lt_tri h p s hps hsp
      simp [e]
    | some s1 =>
      obtain ⟨hp1, _, hmin⟩ := next_permutation_some h s s1 hn
      cases hsp : lex_lt lt s p with
      | false =>
        have e : p = s := lex_lt_tri h p s hps hsp
        simp [e]
      | true =>
        refine List.mem_cons_of_mem _ ?_
        have hc1 := perms_above_card_next h hn
        exact permutation_loop_complete h fuel s1 p (by omega) (hp.trans hp1.symm) (hmin p hp hsp)

/-- The loop started from an ascending range runs its body on exactly the permutations of
the range. -/
theorem mem_permutation_loop {α : Type} [DecidableEq α] {lt : α → α → Bool}
    (h : StrictTotal lt) (s p : List α) (hs : s.Pairwise (fun a b => lt b a = false)) :
    p ∈ permutation_loop lt s.length.factorial s ↔ p.Perm s :=
  ⟨permutation_loop_sound h _ s p, fun hp =>
    permutation_loop_complete h _ s p (Nat.le_of_lt (perms_above_card_lt_factorial h s)) hp
      (ascending_min h s p hs hp)⟩

/-- The fuel `s.length!` is never exhausted: any larger fuel gives the same run. -/
theorem permutation_loop_fuel {α : Type} [DecidableEq α] {lt : α → α → Bool}
    (h : StrictTotal lt) :
    ∀ (fuel extra : Nat) (s : List α), (perms_above lt s).card ≤ fuel →
      permutation_loop lt (fuel + extra) s = permutation_loop lt fuel s
  | 0, extra, s, hc => by
    cases extra with
    | zero => rfl
    | succ e =>
      rw [Nat.zero_add]
      unfold permutation_loop
      cases hn : next_permutation lt s with
      | none => rfl
      | some s1 =>
        obtain ⟨hp1, hlt, _⟩ := next_permutation_some h s s1 hn
        have : s1 ∈ perms_above lt s := (mem_perms_above lt s s1).2 ⟨hp1, hlt⟩
        have hpos : 0 < (perms_above lt s).card := Finset.card_pos.2 ⟨s1, this⟩
        omega
  | fuel + 1, extra, s, hc => by
    rw [Nat.add_right_comm]
    unfold permutation_loop
    cases hn : next_permutation lt s with
    | none => rfl
    | some s1 =>
      have hc1 := perms_above_card_next h hn
      simp only
      rw [permutation_loop_fuel h fuel extra s1 (by omega)]



/-! ## Vectors -/

theorem getD_set (l : List Int) (i j : Nat) (a : Int) :
    (l.set i a).getD j 0 = if i = j ∧ j < l.length then a else l.getD j 0 := by
  simp only [List.getD_eq_getElem?_getD, List.getElem?_set]
  by_cases hij : i = j
  · subst hij
    by_cases hl : i < l.length
    · simp [hl]
    · simp [hl, List.getElem?_eq_none (Nat.le_of_not_lt hl)]
  · simp [hij]

theorem getD_of_length_le (l : List Int) (j : Nat) (h : l.length ≤ j) : l.getD j 0 = 0 := by
  simp [List.getD_eq_getElem?_getD, List.getElem?_eq_none h]

theorem ext_getD {l1 l2 : List Int} (hl : l1.length = l2.length)
    (h : ∀ j, j < l1.length → l1.getD j 0 = l2.getD j 0) : l1 = l2 := by
  apply List.ext_getElem hl
  intro j h1 h2
  have := h j h1
  rwa [List.getD_eq_getElem _ _ h1, List.getD_eq_getElem _ _ h2] at this

theorem map_range_getD {β : Type} (f : List Int → β) (l : List (List Int)) :
    (List.range l.length).map (fun k => f (l.getD k [])) = l.map f := by
  apply List.ext_getElem (by simp)
  intro j h1 h2
  simp only [List.length_map, List.length_range] at h1
  simp [List.getElem?_eq_getElem h1]

theorem getD_mem_unit {n : Nat} {v : List Int} (hv : unit_vertex n v) (j : Nat) :
    v.getD j 0 = 0 ∨ v.getD j 0 = 1 := by
  by_cases hj : j < v.length
  · rw [List.getD_eq_getElem _ _ hj]
    exact hv.2 _ (List.getElem_mem _)
  · exact Or.inl (getD_of_length_le v j (Nat.le_of_not_lt hj))

theorem unit_vertex_of_getD {n : Nat} {v : List Int} (hl : v.length = n)
    (h : ∀ j, j < n → v.getD j 0 = 0 ∨ v.getD j 0 = 1) : unit_vertex n v := by
  refine ⟨hl, ?_⟩
  intro x hx
  obtain ⟨j, hj, rfl⟩ := List.getElem_of_mem hx
  have := h j (hl ▸ hj)
  rwa [List.getD_eq_getElem _ _ hj] at this

theorem length_translate (nd : Nat) (c v : List Int) : (translate nd c v).length = nd := by
  simp [translate]

theorem getD_translate (nd : Nat) (c v : List Int) (j : Nat) :
    (translate nd c v).getD j 0 = if j < nd then c.getD j 0 + v.getD j 0 else 0 := by
  by_cases hj : j < nd
  · rw [List.getD_eq_getElem _ _ (by simpa [translate] using hj)]
    simp [translate, hj]
  · rw [getD_of_length_le _ _ (by simpa [translate] using hj)]
    simp [hj]

theorem translate_zero (nd : Nat) (v : List Int) (hv : v.length = nd) :
    translate nd (List.replicate nd 0) v = v := by
  apply ext_getD (by simp [translate, hv])
  intro j hj
  rw [length_translate] at hj
  rw [getD_translate, if_pos hj, List.getD_eq_getElem _ _ (by simpa using hj)]
  simp

theorem translate_translate (nd : Nat) (c1 c2 v : List Int) :
    translate nd c1 (translate nd c2 v) = translate nd (translate nd c1 c2) v := by
  apply ext_getD (by simp [length_translate])
  intro j hj
  rw [length_translate] at hj
  simp only [getD_translate, if_pos hj]
  ring

theorem translate_comm (nd : Nat) (c v : List Int) : translate nd c v = translate nd v c := by
  apply ext_getD (by simp [length_translate])
  intro j hj
  rw [length_translate] at hj
  simp only [getD_translate, if_pos hj]
  ring

theorem translate_injective (nd : Nat) (c : List Int) {v w : List Int} (hv : v.length = nd)
    (hw : w.length = nd) (h : translate nd c v = translate nd c w) : v = w := by
  apply ext_getD (by rw [hv, hw])
  intro j hj
  rw [hv] at hj
  have := congrArg (fun l => l.getD j 0) h
  simp only [getD_translate, if_pos hj] at this
  omega

theorem translate_eq_zipWith : ∀ (nd : Nat) (c v : List Int), c.length = nd → v.length = nd →
    translate nd c v = List.zipWith (fun a b => a + b) c v := by
  intro nd c v hc hv
  apply List.ext_getElem (by simp [translate, hc, hv])
  intro j h1 h2
  simp only [length_translate] at h1
  have h3 : j < c.length := hc ▸ h1
  have h4 : j < v.length := hv ▸ h1
  simp [translate, List.getElem?_eq_getElem h3, List.getElem?_eq_getElem h4]

theorem vec_lt_zipWith : ∀ (c v w : List Int), c.length = v.length → c.length = w.length →
    vec_lt (List.zipWith (fun a b => a + b) c v) (List.zipWith (fun a b => a + b) c w) =
      vec_lt v w
  | [], [], [], _, _ => rfl
  | [], [], _ :: _, _, h => by simp at h
  | [], _ :: _, _, h, _ => by simp at h
  | _ :: _, [], _, h, _ => by simp at h
  | _ :: _, _ :: _, [], _, h => by simp at h
  | a :: c, x :: v, y :: w, h1, h2 => by
    have ih := vec_lt_zipWith c v w (by simpa using h1) (by simpa using h2)
    simp only [vec_lt] at ih ⊢
    simp only [List.zipWith_cons_cons, lex_lt, int_lt, ih]
    simp

theorem vec_lt_translate (nd : Nat) (c v w : List Int) (hc : c.length = nd)
    (hv : v.length = nd) (hw : w.length = nd) :
    vec_lt (translate nd c v) (translate nd c w) = vec_lt v w := by
  rw [translate_eq_zipWith nd c v hc hv, translate_eq_zipWith nd c w hc hw]
  exact vec_lt_zipWith c v w (by rw [hc, hv]) (by rw [hc, hw])



/-! ## The subdivision of the unit cube -/

theorem length_insert_zero (i : Nat) (v : List Int) : (insert_zero i v).length = v.length + 1 := by
  simp only [insert_zero, List.length_append, List.length_take, List.length_cons,
    List.length_drop]
  omega

theorem mem_insert_zero (i : Nat) (v : List Int) (x : Int) :
    x ∈ insert_zero i v → x = 0 ∨ x ∈ v := by
  simp only [insert_zero, List.mem_append, List.mem_cons]
  rintro (h | h | h)
  · exact Or.inr (List.mem_of_mem_take h)
  · exact Or.inl h
  · exact Or.inr (List.mem_of_mem_drop h)

theorem zero_mem_insert_zero (i : Nat) (v : List Int) : (0 : Int) ∈ insert_zero i v := by
  simp [insert_zero]

theorem insert_zero_injective (i : Nat) {v w : List Int} (hl : v.length = w.length)
    (h : insert_zero i v = insert_zero i w) : v = w := by
  unfold insert_zero at h
  have h1 := List.append_inj h (by simp [hl])
  have h2 : v.drop i = w.drop i := by simpa using h1.2
  rw [← List.take_append_drop i v, ← List.take_append_drop i w, h1.1, h2]

theorem insert_zero_replicate (i n : Nat) :
    insert_zero i (List.replicate n 0) = List.replicate (n + 1) 0 := by
  apply List.eq_replicate_iff.2
  refine ⟨by simp [length_insert_zero], ?_⟩
  intro x hx
  rcases mem_insert_zero _ _ _ hx with h | h
  · exact h
  · exact List.eq_of_mem_replicate h

theorem subdivide_unit_cube_succ (n : Nat) (s : List (List Int))
    (hlen : ∀ s0 ∈ subdivide_unit_cube (n + 1), s0.length = n + 2) :
    s ∈ subdivide_unit_cube (n + 2) ↔
      ∃ i, i < n + 2 ∧ ∃ s0 ∈ subdivide_unit_cube (n + 1),
        s = s0.map (insert_zero i) ++ [List.replicate (n + 2) 1] := by
  simp only [subdivide_unit_cube, List.mem_flatMap, List.mem_map, List.mem_range]
  constructor
  · rintro ⟨i, hi, s0, hs0, rfl⟩
    refine ⟨i, hi, s0, hs0, ?_⟩
    have := map_range_getD (insert_zero i) s0
    rw [hlen s0 hs0] at this
    rw [this]
  · rintro ⟨i, hi, s0, hs0, rfl⟩
    refine ⟨i, hi, s0, hs0, ?_⟩
    have := map_range_getD (insert_zero i) s0
    rw [hlen s0 hs0] at this
    rw [this]

/-- Every simplex of the subdivision has `n + 1` distinct 0/1 vertices and contains the
origin. -/
theorem subdivide_unit_cube_wf : ∀ (n : Nat) (s : List (List Int)),
    s ∈ subdivide_unit_cube (n + 1) →
      s.length = n + 2 ∧ (∀ v ∈ s, unit_vertex (n + 1) v) ∧ s.Nodup ∧
        List.replicate (n + 1) 0 ∈ s
  | 0, s, hs => by
    simp only [subdivide_unit_cube, List.mem_singleton] at hs
    subst hs
    refine ⟨rfl, ?_, by decide, by decide⟩
    intro v hv
    simp only [List.mem_cons, List.mem_singleton, List.not_mem_nil, or_false] at hv
    rcases hv with rfl | rfl <;> exact ⟨rfl, by simp⟩
  | n + 1, s, hs => by
    have ih := subdivide_unit_cube_wf n
    rw [subdivide_unit_cube_succ n s (fun s0 h0 => (ih s0 h0).1)] at hs
    obtain ⟨i, hi, s0, hs0, rfl⟩ := hs
    obtain ⟨hlen, hunit, hnd, hzero⟩ := ih s0 hs0
    refine ⟨by simp [hlen], ?_, ?_, ?_⟩
    · intro v hv
      rw [List.mem_append, List.mem_map, List.mem_singleton] at hv
      rcases hv with ⟨v0, hv0, rfl⟩ | rfl
      · refine ⟨by rw [length_insert_zero, (hunit v0 hv0).1], ?_⟩
        intro x hx
        rcases mem_insert_zero _ _ _ hx with h | h
        · exact Or.inl h
        · exact (hunit v0 hv0).2 x h
      · exact ⟨by simp, fun x hx => Or.inr (List.eq_of_mem_replicate hx)⟩
    · rw [List.nodup_append]
      refine ⟨?_, List.nodup_singleton _, ?_⟩
      · refine (List.nodup_map_iff_inj_on hnd).2 ?_
        intro v hv w hw hvw
        exact insert_zero_injective i (by rw [(hunit v hv).1, (hunit w hw).1]) hvw
      · intro v hv hv1
        rw [List.mem_singleton] at hv1
        rw [List.mem_map] at hv
        obtain ⟨v0, _, rfl⟩ := hv
        have := zero_mem_insert_zero i v0
        rw [hv1] at this
        have := List.eq_of_mem_replicate this
        omega
    · rw [List.mem_append, List.mem_map]
      exact Or.inl ⟨_, hzero, insert_zero_replicate i (n + 1)⟩

theorem subdivide_unit_cube_ne_nil : ∀ n : Nat, subdivide_unit_cube (n + 1) ≠ []
  | 0 => by simp [subdivide_unit_cube]
  | n + 1 => by
    have ih := subdivide_unit_cube_ne_nil n
    obtain ⟨s0, hs0⟩ := List.exists_mem_of_ne_nil _ ih
    have hl := fun s0 h0 => (subdivide_unit_cube_wf n s0 h0).1
    have : s0.map (insert_zero 0) ++ [List.replicate (n + 2) 1] ∈ subdivide_unit_cube (n + 2) :=
      (subdivide_unit_cube_succ n _ hl).2 ⟨0, by omega, s0, hs0, rfl⟩
    exact List.ne_nil_of_mem this

theorem wf_of_zero_mem {n k : Nat} {s : List (List Int)} (hl : s.length = k + 1)
    (hu : ∀ v ∈ s, unit_vertex n v) (hn : s.Nodup) (hz : List.replicate n 0 ∈ s) :
    unit_simplex_wf n k s := by
  refine ⟨hl, hu, hn, ?_⟩
  intro j hj
  refine ⟨_, hz, ?_⟩
  rw [List.getD_eq_getElem _ _ (by simpa using hj)]
  simp



/-! ## The reduction of a simplex -/

theorem reduce_vertex_succ (s : List (List Int)) (m : Nat) (v : List Int) :
    reduce_vertex s (m + 1) v =
      if column_has_zero s m then reduce_vertex s m v else (reduce_vertex s m v).set m 0 := by
  simp [reduce_vertex, List.range_succ, List.foldl_append]

theorem reduce_offset_succ (s : List (List Int)) (nd m : Nat) :
    reduce_offset s nd (m + 1) =
      if column_has_zero s m then reduce_offset s nd m else (reduce_offset s nd m).set m 1 := by
  simp [reduce_offset, List.range_succ, List.foldl_append]

theorem length_reduce_vertex (s : List (List Int)) (v : List Int) :
    ∀ m, (reduce_vertex s m v).length = v.length
  | 0 => rfl
  | m + 1 => by
    rw [reduce_vertex_succ]
    split <;> simp [length_reduce_vertex s v m]

theorem length_reduce_offset (s : List (List Int)) (nd : Nat) :
    ∀ m, (reduce_offset s nd m).length = nd
  | 0 => by simp [reduce_offset]
  | m + 1 => by
    rw [reduce_offset_succ]
    split <;> simp [length_reduce_offset s nd m]

theorem getD_reduce_vertex (s : List (List Int)) (v : List Int) (j : Nat) :
    ∀ m, (reduce_vertex s m v).getD j 0 =
      if j < m ∧ column_has_zero s j = false then 0 else v.getD j 0
  | 0 => by simp [reduce_vertex]
  | m + 1 => by
    rw [reduce_vertex_succ]
    have ih := getD_reduce_vertex s v j m
    by_cases hz : column_has_zero s m = true
    · rw [if_pos hz, ih]
      by_cases hjm : j = m
      · subst hjm; simp [hz]
      · have : j < m + 1 ↔ j < m := by omega
        simp [this]
    · rw [if_neg hz, getD_set, ih, length_reduce_vertex]
      have hz' : column_has_zero s m = false := by simpa using hz
      by_cases hjm : m = j
      · subst hjm
        by_cases hl : m < v.length
        · simp [hl, hz']
        · simp [-List.getD_eq_getElem?_getD, hl, hz', getD_of_length_le v m (Nat.le_of_not_lt hl)]
      · have : j < m + 1 ↔ j < m := by omega
        simp [hjm, this]

theorem getD_reduce_offset (s : List (List Int)) (nd j : Nat) :
    ∀ m, (reduce_offset s nd m).getD j 0 =
      if j < m ∧ j < nd ∧ column_has_zero s j = false then 1 else 0
  | 0 => by
    simp only [reduce_offset, List.range_zero, List.foldl_nil, Nat.not_lt_zero, false_and,
      if_false]
    by_cases hj : j < nd
    · rw [List.getD_eq_getElem _ _ (by simpa using hj)]; simp
    · exact getD_of_length_le _ _ (by simpa using hj)
  | m + 1 => by
    rw [reduce_offset_succ]
    have ih := getD_reduce_offset s nd j m
    by_cases hz : column_has_zero s m = true
    · rw [if_pos hz, ih]
      by_cases hjm : j = m
      · subst hjm; simp [hz]
      · have : j < m + 1 ↔ j < m := by omega
        simp [this]
    · rw [if_neg hz, getD_set, ih, length_reduce_offset]
      have hz' : column_has_zero s m = false := by simpa using hz
      by_cases hjm : m = j
      · subst hjm
        by_cases hl : m < nd
        · simp [hl, hz']
        · simp [hl]
      · have : j < m + 1 ↔ j < m := by omega
        simp [hjm, this]

theorem column_has_zero_map_reduce (s : List (List Int)) (m : Nat) :
    column_has_zero (s.map (reduce_vertex s m)) m = column_has_zero s m := by
  simp only [column_has_zero, List.any_map]
  congr 1
  funext v
  simp [-List.getD_eq_getElem?_getD, getD_reduce_vertex]

theorem reduce_fold (nd : Nat) (s : List (List Int)) :
    ∀ m, (List.range m).foldl reduce_axis (s, List.replicate nd 0) =
      (s.map (reduce_vertex s m), reduce_offset s nd m)
  | 0 => by
    have : reduce_vertex s 0 = id := by funext v; simp [reduce_vertex]
    simp [this, reduce_offset]
  | m + 1 => by
    rw [List.range_succ, List.foldl_append, reduce_fold nd s m]
    simp only [List.foldl_cons, List.foldl_nil, reduce_axis, column_has_zero_map_reduce]
    by_cases hz : column_has_zero s m = true
    · rw [if_pos hz]
      congr 1
      · apply List.map_congr_left
        intro v _
        rw [reduce_vertex_succ, if_pos hz]
      · rw [reduce_offset_succ, if_pos hz]
    · rw [if_neg hz]
      congr 1
      · rw [List.map_map]
        apply List.map_congr_left
        intro v _
        rw [reduce_vertex_succ, if_neg hz]
        rfl
      · rw [reduce_offset_succ, if_neg hz]

theorem reduce_unit_simplex_eq (nd : Nat) (s : List (List Int)) :
    reduce_unit_simplex nd s = (s.map (reduce_vertex s nd), reduce_offset s nd nd) :=
  reduce_fold nd s nd

theorem column_has_zero_iff (s : List (List Int)) (j : Nat) :
    column_has_zero s j = true ↔ ∃ v ∈ s, v.getD j 0 = 0 := by
  simp [column_has_zero]

/-- The reduction re-encodes the simplex: the input is the reduced simplex translated by
the offset. -/
theorem reduce_unit_simplex_translate (nd : Nat) (s : List (List Int))
    (hu : ∀ v ∈ s, unit_vertex nd v) :
    (reduce_unit_simplex nd s).1.map (translate nd (reduce_unit_simplex nd s).2) = s := by
  rw [reduce_unit_simplex_eq, List.map_map]
  conv_rhs => rw [← List.map_id s]
  apply List.map_congr_left
  intro v hv
  simp only [Function.comp, id]
  apply ext_getD (by rw [length_translate, (hu v hv).1])
  intro j hj
  rw [length_translate] at hj
  rw [getD_translate, if_pos hj, getD_reduce_offset, getD_reduce_vertex]
  by_cases hz : column_has_zero s j = true
  · simp [hz]
  · have hz' : column_has_zero s j = false := by simpa using hz
    simp only [hj, hz', and_self, if_true]
    rcases getD_mem_unit (hu v hv) j with h0 | h1
    · exact absurd ((column_has_zero_iff s j).2 ⟨v, hv, h0⟩) hz
    · rw [h1]; rfl

theorem reduce_unit_simplex_offset_unit (nd : Nat) (s : List (List Int)) :
    unit_vertex nd (reduce_unit_simplex nd s).2 := by
  rw [reduce_unit_simplex_eq]
  apply unit_vertex_of_getD (length_reduce_offset s nd nd)
  intro j _
  rw [getD_reduce_offset]
  split <;> simp

theorem reduce_unit_simplex_unit (nd : Nat) (s : List (List Int))
    (hu : ∀ v ∈ s, unit_vertex nd v) : ∀ r ∈ (reduce_unit_simplex nd s).1, unit_vertex nd r := by
  rw [reduce_unit_simplex_eq]
  intro r hr
  rw [List.mem_map] at hr
  obtain ⟨v, hv, rfl⟩ := hr
  apply unit_vertex_of_getD (by rw [length_reduce_vertex, (hu v hv).1])
  intro j _
  rw [getD_reduce_vertex]
  split
  · exact Or.inl rfl
  · exact getD_mem_unit (hu v hv) j

theorem reduce_unit_simplex_length (nd : Nat) (s : List (List Int)) :
    (reduce_unit_simplex nd s).1.length = s.length := by
  rw [reduce_unit_simplex_eq]; simp

theorem reduce_unit_simplex_axis_zero (nd : Nat) (s : List (List Int)) (hs : s ≠ []) :
    ∀ j, j < nd → ∃ r ∈ (reduce_unit_simplex nd s).1, r.getD j 0 = 0 := by
  rw [reduce_unit_simplex_eq]
  intro j hj
  by_cases hz : column_has_zero s j = true
  · obtain ⟨v, hv, h0⟩ := (column_has_zero_iff s j).1 hz
    refine ⟨_, List.mem_map_of_mem _ hv, ?_⟩
    rw [getD_reduce_vertex]; simp [-List.getD_eq_getElem?_getD, hz, h0]
  · obtain ⟨v, hv⟩ := List.exists_mem_of_ne_nil _ hs
    refine ⟨_, List.mem_map_of_mem _ hv, ?_⟩
    rw [getD_reduce_vertex]; simp [hj, hz]

theorem reduce_unit_simplex_nodup (nd : Nat) (s : List (List Int))
    (hu : ∀ v ∈ s, unit_vertex nd v) (hn : s.Nodup) : (reduce_unit_simplex nd s).1.Nodup := by
  have := reduce_unit_simplex_translate nd s hu
  rw [← this] at hn
  exact List.Nodup.of_map _ hn

/-- Reducing the translate, by a 0/1 offset, of a simplex that has a zero on every axis
gives back that simplex and the offset. -/
theorem reduce_unit_simplex_of_translate (nd : Nat) (u : List (List Int)) (o : List Int)
    (hu : ∀ v ∈ u, unit_vertex nd v) (hz : ∀ j, j < nd → ∃ v ∈ u, v.getD j 0 = 0)
    (ho : o.length = nd) (hs : ∀ v ∈ u, unit_vertex nd (translate nd o v)) :
    reduce_unit_simplex nd (u.map (translate nd o)) = (u, o) := by
  have hcol : ∀ j, j < nd → (column_has_zero (u.map (translate nd o)) j = true ↔ o.getD j 0 = 0) := by
    intro j hj
    rw [column_has_zero_iff]
    constructor
    · rintro ⟨w, hw, h0⟩
      rw [List.mem_map] at hw
      obtain ⟨v, hv, rfl⟩ := hw
      rw [getD_translate, if_pos hj] at h0
      obtain ⟨v0, hv0, hv00⟩ := hz j hj
      have h1 := getD_mem_unit (hs v0 hv0) j
      rw [getD_translate, if_pos hj, hv00] at h1
      have h2 := getD_mem_unit (hu v hv) j
      omega
    · intro h0
      obtain ⟨v0, hv0, hv00⟩ := hz j hj
      refine ⟨_, List.mem_map_of_mem _ hv0, ?_⟩
      rw [getD_translate, if_pos hj, h0, hv00]; rfl
  rw [reduce_unit_simplex_eq]
  congr 1
  · rw [List.map_map]
    conv_rhs => rw [← List.map_id u]
    apply List.map_congr_left
    intro v hv
    simp only [Function.comp, id]
    apply ext_getD (by rw [length_reduce_vertex, length_translate, (hu v hv).1])
    intro j hj
    rw [length_reduce_vertex, length_translate] at hj
    rw [getD_reduce_vertex, getD_translate, if_pos hj]
    obtain ⟨v0, hv0, hv00⟩ := hz j hj
    have h1 := getD_mem_unit (hs v0 hv0) j
    rw [getD_translate, if_pos hj, hv00] at h1
    have h2 := getD_mem_unit (hs v hv) j
    rw [getD_translate, if_pos hj] at h2
    have h3 := getD_mem_unit (hu v hv) j
    by_cases hc : column_has_zero (u.map (translate nd o)) j = true
    · have := (hcol j hj).1 hc
      simp [-List.getD_eq_getElem?_getD, hc, this]
    · have hne : o.getD j 0 ≠ 0 := fun e => hc ((hcol j hj).2 e)
      have hc' : column_has_zero (u.map (translate nd o)) j = false := by simpa using hc
      simp only [hj, hc', and_self, if_true]
      omega
  · apply ext_getD (by rw [length_reduce_offset, ho])
    intro j hj
    rw [length_reduce_offset] at hj
    rw [getD_reduce_offset]
    obtain ⟨v0, hv0, hv00⟩ := hz j hj
    have h1 := getD_mem_unit (hs v0 hv0) j
    rw [getD_translate, if_pos hj, hv00] at h1
    by_cases hc : column_has_zero (u.map (translate nd o)) j = true
    · have := (hcol j hj).1 hc
      simp [-List.getD_eq_getElem?_getD, hc, this]
    · have hne : o.getD j 0 ≠ 0 := fun e => hc ((hcol j hj).2 e)
      have hc' : column_has_zero (u.map (translate nd o)) j = false := by simpa using hc
      simp only [hj, hc', and_self, if_true]
      omega



/-! ## The catalogue of simplex types -/

theorem mem_foldl_foldl_set_insert {α β γ : Type} {lt : α → α → Bool} (h : StrictTotal lt)
    (g : γ → List β) (f : β → α) (y : α) :
    ∀ (l : List γ) (init : List α),
      y ∈ l.foldl (fun acc c => (g c).foldl (fun acc1 b => set_insert lt (f b) acc1) acc) init ↔
        (∃ c ∈ l, ∃ b ∈ g c, y = f b) ∨ y ∈ init
  | [], init => by simp
  | c :: cs, init => by
    rw [List.foldl_cons, mem_foldl_foldl_set_insert h g f y cs, mem_foldl_set_insert h]
    simp only [List.mem_cons, exists_eq_or_imp]
    constructor
    · rintro (h1 | h1 | h1)
      · exact Or.inl (Or.inr h1)
      · exact Or.inl (Or.inl h1)
      · exact Or.inr h1
    · rintro ((h1 | h1) | h1)
      · exact Or.inr (Or.inl h1)
      · exact Or.inl h1
      · exact Or.inr (Or.inr h1)

theorem foldl_foldl_set_insert_sorted {α β γ : Type} {lt : α → α → Bool} (h : StrictTotal lt)
    (g : γ → List β) (f : β → α) :
    ∀ (l : List γ) (init : List α), strictly_sorted lt init →
      strictly_sorted lt
        (l.foldl (fun acc c => (g c).foldl (fun acc1 b => set_insert lt (f b) acc1) acc) init)
  | [], _, hi => hi
  | c :: cs, init, hi => by
    rw [List.foldl_cons]
    exact foldl_foldl_set_insert_sorted h g f cs _ (foldl_set_insert_sorted h f (g c) init hi)

theorem mem_enumerate_gap_zero (nd n : Nat) (s : List (List Int)) :
    s ∈ enumerate_unit_simplices_gap nd n 0 ↔
      ∃ s0 ∈ subdivide_unit_cube n, s = std_sort vec_lt s0 := by
  unfold enumerate_unit_simplices_gap
  rw [mem_foldl_set_insert simplex_lt_strictTotal (fun s0 => std_sort vec_lt s0)]
  simp

theorem mem_enumerate_gap_succ_raw (nd n gap : Nat) (s : List (List Int)) :
    s ∈ enumerate_unit_simplices_gap nd n (gap + 1) ↔
      ∃ hs ∈ enumerate_unit_simplices_gap nd n gap,
        ∃ p ∈ permutation_loop vec_lt hs.length.factorial hs, s = (reduced_side nd p).1 := by
  rw [enumerate_unit_simplices_gap]
  rw [mem_foldl_foldl_set_insert simplex_lt_strictTotal
    (fun hs => permutation_loop vec_lt hs.length.factorial hs) (fun p => (reduced_side nd p).1)]
  simp

theorem enumerate_gap_sorted (nd n : Nat) :
    ∀ gap, strictly_sorted simplex_lt (enumerate_unit_simplices_gap nd n gap)
  | 0 => by
    unfold enumerate_unit_simplices_gap
    exact foldl_set_insert_sorted simplex_lt_strictTotal _ _ _ List.Pairwise.nil
  | gap + 1 => by
    rw [enumerate_unit_simplices_gap]
    exact foldl_foldl_set_insert_sorted simplex_lt_strictTotal
      (fun hs => permutation_loop vec_lt hs.length.factorial hs)
      (fun p => (reduced_side nd p).1) _ _ List.Pairwise.nil

theorem wf_perm {n k : Nat} {s p : List (List Int)} (hs : unit_simplex_wf n k s)
    (hp : p.Perm s) : unit_simplex_wf n k p := by
  obtain ⟨h1, h2, h3, h4⟩ := hs
  refine ⟨by rw [hp.length_eq, h1], fun v hv => h2 v (hp.subset hv), hp.nodup_iff.2 h3, ?_⟩
  intro j hj
  obtain ⟨v, hv, h0⟩ := h4 j hj
  exact ⟨v, hp.symm.subset hv, h0⟩

/-- The body of the facet loops keeps simplices well formed: the sorted reduced facet of a
well-formed `(k+1)`-simplex is a well-formed, strictly sorted `k`-simplex. -/
theorem reduced_side_wf {n k : Nat} {p : List (List Int)} (hp : unit_simplex_wf n (k + 1) p) :
    unit_simplex_wf n k (reduced_side n p).1 ∧ strictly_sorted vec_lt (reduced_side n p).1 := by
  obtain ⟨h1, h2, h3, _⟩ := hp
  have hdl : p.dropLast.length = k + 1 := by rw [List.length_dropLast, h1]; rfl
  have hdu : ∀ v ∈ p.dropLast, unit_vertex n v := fun v hv => h2 v (List.mem_of_mem_dropLast hv)
  have hdn : p.dropLast.Nodup := h3.sublist (List.dropLast_sublist p)
  have hne : p.dropLast ≠ [] := by
    intro e; rw [e] at hdl; simp at hdl
  have hperm := std_sort_perm vec_lt (reduce_unit_simplex n p.dropLast).1
  have hwf : unit_simplex_wf n k (reduce_unit_simplex n p.dropLast).1 :=
    ⟨by rw [reduce_unit_simplex_length, hdl], reduce_unit_simplex_unit n _ hdu,
      reduce_unit_simplex_nodup n _ hdu hdn, reduce_unit_simplex_axis_zero n _ hne⟩
  have hwf2 := wf_perm hwf hperm
  exact ⟨hwf2, pairwise_strict_of_weak vec_lt_strictTotal
    (std_sort_sorted vec_lt_strictTotal _) hwf2.2.2.1⟩

/-- Every type enumerated at gap `gap` below the dimension is a well-formed, strictly
sorted simplex of dimension `n + 1 - gap`. -/
theorem enumerate_gap_wf (n : Nat) : ∀ (gap : Nat), gap ≤ n + 1 →
    ∀ s ∈ enumerate_unit_simplices_gap (n + 1) (n + 1) gap,
      unit_simplex_wf (n + 1) (n + 1 - gap) s ∧ strictly_sorted vec_lt s
  | 0, _, s, hs => by
    rw [mem_enumerate_gap_zero] at hs
    obtain ⟨s0, hs0, rfl⟩ := hs
    obtain ⟨hl, hu, hn, hz⟩ := subdivide_unit_cube_wf n s0 hs0
    have hwf := wf_perm (wf_of_zero_mem hl hu hn hz) (std_sort_perm vec_lt s0)
    exact ⟨hwf, pairwise_strict_of_weak vec_lt_strictTotal
      (std_sort_sorted vec_lt_strictTotal _) hwf.2.2.1⟩
  | gap + 1, hg, s, hs => by
    rw [mem_enumerate_gap_succ_raw] at hs
    obtain ⟨hs1, hh, p, hp, rfl⟩ := hs
    obtain ⟨hwf, _⟩ := enumerate_gap_wf n gap (by omega) hs1 hh
    have hpp := permutation_loop_sound vec_lt_strictTotal _ _ _ hp
    have hwfp := wf_perm hwf hpp
    have e : n + 1 - gap = (n + 1 - (gap + 1)) + 1 := by omega
    rw [e] at hwfp
    exact reduced_side_wf hwfp

theorem mem_enumerate_gap_succ (n gap : Nat) (hg : gap ≤ n + 1) (s : List (List Int)) :
    s ∈ enumerate_unit_simplices_gap (n + 1) (n + 1) (gap + 1) ↔
      ∃ hs ∈ enumerate_unit_simplices_gap (n + 1) (n + 1) gap,
        ∃ p, p.Perm hs ∧ s = (reduced_side (n + 1) p).1 := by
  rw [mem_enumerate_gap_succ_raw]
  constructor
  · rintro ⟨hs, hh, p, hp, rfl⟩
    exact ⟨hs, hh, p, permutation_loop_sound vec_lt_strictTotal _ _ _ hp, rfl⟩
  · rintro ⟨hs, hh, p, hp, rfl⟩
    have hsorted := (enumerate_gap_wf n gap hg hs hh).2
    exact ⟨hs, hh, p, (mem_permutation_loop vec_lt_strictTotal hs p
      (pairwise_weak_of_strict vec_lt_strictTotal hsorted)).2 hp, rfl⟩

theorem enumerate_gap_ne_nil (n : Nat) :
    ∀ gap, enumerate_unit_simplices_gap (n + 1) (n + 1) gap ≠ []
  | 0 => by
    obtain ⟨s0, hs0⟩ := List.exists_mem_of_ne_nil _ (subdivide_unit_cube_ne_nil n)
    exact List.ne_nil_of_mem ((mem_enumerate_gap_zero _ _ _).2 ⟨s0, hs0, rfl⟩)
  | gap + 1 => by
    obtain ⟨hs, hh⟩ := List.exists_mem_of_ne_nil _ (enumerate_gap_ne_nil n gap)
    have hp : hs ∈ permutation_loop vec_lt hs.length.factorial hs := by
      cases hf : hs.length.factorial with
      | zero => simp [permutation_loop]
      | succ f =>
        unfold permutation_loop
        cases next_permutation vec_lt hs <;> simp
    exact List.ne_nil_of_mem ((mem_enumerate_gap_succ_raw _ _ _ _).2 ⟨hs, hh, hs, hp, rfl⟩)



/-! ## The counter over a box of corners -/

theorem in_box_length (lo : Int) : ∀ (c hi : List Int), in_box lo c hi → c.length = hi.length
  | [], [], _ => rfl
  | [], _ :: _, h => by simp [in_box] at h
  | _ :: _, [], h => by simp [in_box] at h
  | _ :: cs, _ :: hi, h => by
    simp only [in_box] at h
    simp [in_box_length lo cs hi h.2.2]

theorem in_box_iff (lo : Int) : ∀ (c hi : List Int),
    in_box lo c hi ↔ c.length = hi.length ∧ ∀ j, j < c.length → lo ≤ c.getD j 0 ∧ c.getD j 0 ≤ hi.getD j 0
  | [], [] => by simp [in_box]
  | [], _ :: _ => by simp [in_box]
  | _ :: _, [] => by simp [in_box]
  | c :: cs, h :: hi => by
    simp only [in_box, in_box_iff lo cs hi, List.length_cons, Nat.add_right_cancel_iff]
    constructor
    · rintro ⟨h1, h2, h3, h4⟩
      refine ⟨h3, ?_⟩
      intro j hj
      cases j with
      | zero => exact ⟨h1, h2⟩
      | succ j => exact h4 j (by omega)
    · rintro ⟨h1, h2⟩
      refine ⟨(h2 0 (by omega)).1, (h2 0 (by omega)).2, h1, ?_⟩
      intro j hj
      exact h2 (j + 1) (by omega)

theorem counter_size_pos (lo : Int) : ∀ (c hi : List Int), in_box lo c hi → 0 < counter_size lo hi
  | [], [], _ => by simp [counter_size]
  | [], _ :: _, h => by simp [in_box] at h
  | _ :: _, [], h => by simp [in_box] at h
  | c :: cs, h :: hi, hb => by
    simp only [in_box] at hb
    simp only [counter_size]
    have := counter_size_pos lo cs hi hb.2.2
    have h1 : 0 < h - lo + 1 := by omega
    exact Int.mul_pos h1 this

theorem counter_rank_bounds (lo : Int) : ∀ (c hi : List Int), in_box lo c hi →
    0 ≤ counter_rank lo c hi ∧ counter_rank lo c hi < counter_size lo hi
  | [], [], _ => by simp [counter_rank, counter_size]
  | [], _ :: _, h => by simp [in_box] at h
  | _ :: _, [], h => by simp [in_box] at h
  | c :: cs, h :: hi, hb => by
    simp only [in_box] at hb
    simp only [counter_rank, counter_size]
    obtain ⟨ih1, ih2⟩ := counter_rank_bounds lo cs hi hb.2.2
    have hw : 0 < h - lo + 1 := by omega
    have h1 : 0 ≤ (h - lo + 1) * counter_rank lo cs hi := Int.mul_nonneg (by omega) ih1
    have h2 : (h - lo + 1) * (counter_rank lo cs hi + 1) ≤ (h - lo + 1) * counter_size lo hi :=
      Int.mul_le_mul_of_nonneg_left (by omega) (by omega)
    rw [Int.mul_add, Int.mul_one] at h2
    constructor <;> omega

theorem counter_rank_injective (lo : Int) : ∀ (c c1 hi : List Int), in_box lo c hi →
    in_box lo c1 hi → counter_rank lo c hi = counter_rank lo c1 hi → c = c1
  | [], [], [], _, _, _ => rfl
  | [], _ :: _, [], _, h, _ => by simp [in_box] at h
  | [], _, _ :: _, h, _, _ => by simp [in_box] at h
  | _ :: _, _, [], h, _, _ => by simp [in_box] at h
  | _ :: _, [], _ :: _, _, h, _ => by simp [in_box] at h
  | c :: cs, d :: ds, h :: hi, hb, hb1, he => by
    simp only [in_box] at hb hb1
    simp only [counter_rank] at he
    have hw : 0 < h - lo + 1 := by omega
    have e1 := congrArg (fun x => x % (h - lo + 1)) he
    simp only [Int.add_mul_emod_self_left] at e1
    rw [Int.emod_eq_of_lt (by omega) (by omega), Int.emod_eq_of_lt (by omega) (by omega)] at e1
    have e2 : c = d := by omega
    subst e2
    have e3 : (h - lo + 1) * counter_rank lo cs hi = (h - lo + 1) * counter_rank lo ds hi := by
      omega
    have e4 := Int.eq_of_mul_eq_mul_left (by omega) e3
    rw [counter_rank_injective lo cs ds hi hb.2.2 hb1.2.2 e4]

theorem counter_rank_lo (lo : Int) : ∀ (hi : List Int),
    counter_rank lo (List.replicate hi.length lo) hi = 0
  | [] => rfl
  | h :: hi => by
    simp [List.replicate_succ, counter_rank, counter_rank_lo lo hi]

theorem in_box_lo (lo : Int) : ∀ (hi : List Int), (∀ h ∈ hi, lo ≤ h) →
    in_box lo (List.replicate hi.length lo) hi
  | [], _ => by simp [in_box]
  | h :: hi, hh => by
    simp only [List.length_cons, List.replicate_succ, in_box]
    exact ⟨le_refl _, hh h (List.mem_cons_self _ _),
      in_box_lo lo hi (fun x hx => hh x (List.mem_cons_of_mem _ hx))⟩

theorem in_box_hi (lo : Int) : ∀ (hi : List Int), (∀ h ∈ hi, lo ≤ h) → in_box lo hi hi
  | [], _ => by simp [in_box]
  | h :: hi, hh => by
    simp only [in_box]
    exact ⟨hh h (List.mem_cons_self _ _), le_refl _,
      in_box_hi lo hi (fun x hx => hh x (List.mem_cons_of_mem _ hx))⟩

theorem counter_rank_hi (lo : Int) : ∀ (hi : List Int),
    counter_rank lo hi hi = counter_size lo hi - 1
  | [] => rfl
  | h :: hi => by
    simp only [counter_rank, counter_size, counter_rank_hi lo hi]
    ring

/-- Away from the last corner the successor exists, stays in the box and is next in rank. -/
theorem counter_succ_spec (lo : Int) : ∀ (c hi : List Int), in_box lo c hi → c ≠ hi →
    ∃ c1, counter_succ lo c hi = some c1 ∧ in_box lo c1 hi ∧
      counter_rank lo c1 hi = counter_rank lo c hi + 1
  | [], [], _, hne => absurd rfl hne
  | [], _ :: _, h, _ => by simp [in_box] at h
  | _ :: _, [], h, _ => by simp [in_box] at h
  | c :: cs, h :: hi, hb, hne => by
    simp only [in_box] at hb
    by_cases hc : c + 1 > h
    · have hch : c = h := by omega
      subst hch
      have hne1 : cs ≠ hi := fun e => hne (by rw [e])
      obtain ⟨cs1, h1, h2, h3⟩ := counter_succ_spec lo cs hi hb.2.2 hne1
      refine ⟨lo :: cs1, ?_, ?_, ?_⟩
      · simp [counter_succ, h1]
      · simp only [in_box]; exact ⟨le_refl _, hb.1, h2⟩
      · simp only [counter_rank, h3]; ring
    · refine ⟨(c + 1) :: cs, ?_, ?_, ?_⟩
      · simp [counter_succ, hc]
      · simp only [in_box]; exact ⟨by omega, by omega, hb.2.2⟩
      · simp only [counter_rank]; ring



open regular_simplex_mesh regular_simplex_mesh_element

/-! ## The element iterator -/

theorem getD_append_length (pre : List Int) (c : Int) (cs : List Int) :
    (pre ++ c :: cs).getD pre.length 0 = c := by
  induction pre with
  | nil => rfl
  | cons a pre ih => simpa using ih

theorem set_append_length (pre : List Int) (c x : Int) (cs : List Int) :
    (pre ++ c :: cs).set pre.length x = pre ++ x :: cs := by
  induction pre with
  | nil => rfl
  | cons a pre ih => simp

theorem increase_corner_eq (m : regular_simplex_mesh) :
    ∀ (suf pre hs hp : List Int) (fuel : Nat), pre.length = hp.length → m.ub_ = hp ++ hs →
      suf.length = hs.length → suf.length < fuel →
      increase_corner m fuel (pre ++ suf) pre.length =
        (counter_succ 0 suf hs).map (fun r => pre ++ r)
  | [], pre, hs, hp, fuel, _, _, _, hf => by
    cases fuel with
    | zero => omega
    | succ f => simp [increase_corner, counter_succ]
  | c :: cs, pre, [], hp, fuel, _, _, hl, _ => by simp at hl
  | c :: cs, pre, h :: hs, hp, fuel, hpl, hub, hl, hf => by
    cases fuel with
    | zero => omega
    | succ f =>
      have hd : pre.length < (pre ++ c :: cs).length := by simp
      have hubd : m.ub pre.length = h := by
        unfold regular_simplex_mesh.ub
        rw [hub, hpl, getD_append_length]
      rw [increase_corner, if_pos hd, getD_append_length, hubd, set_append_length,
        set_append_length]
      by_cases hc : c + 1 > h
      · rw [if_pos hc]
        have ih := increase_corner_eq m cs (pre ++ [0]) hs (hp ++ [h]) f (by simp [hpl])
          (by simp [hub]) (by simpa using hl) (by simp at hf; omega)
        simp only [List.length_append, List.length_singleton, List.append_assoc,
          List.singleton_append] at ih
        rw [ih]
        simp only [counter_succ, if_pos hc]
        cases counter_succ 0 cs hs <;> simp
      · rw [if_neg hc]
        simp [counter_succ, hc]

theorem increase_corner_zero (m : regular_simplex_mesh) (c : List Int)
    (hl : c.length = m.ub_.length) :
    increase_corner m (c.length + 1) c 0 = counter_succ 0 c m.ub_ := by
  have := increase_corner_eq m c [] m.ub_ [] (c.length + 1) rfl rfl hl (by omega)
  simp only [List.nil_append, List.length_nil] at this
  rw [this]
  cases counter_succ 0 c m.ub_ <;> simp

/-- One application of `operator++` inside the box: the last state goes to `element_end`,
every other state to the next state in rank. -/
theorem incr_spec (m : regular_simplex_mesh) (d : Nat) (c : List Int) (t : Int)
    (hb : in_box 0 c m.ub_) (ht0 : 0 ≤ t) (ht : t < m.ntypes d) :
    (c = m.ub_ ∧ t = m.ntypes d - 1 →
      incr m { corner := c, dim := d, type := t } = some (m.element_end d)) ∧
    (¬ (c = m.ub_ ∧ t = m.ntypes d - 1) →
      ∃ c1 t1, incr m { corner := c, dim := d, type := t } =
          some { corner := c1, dim := d, type := t1 } ∧
        in_box 0 c1 m.ub_ ∧ 0 ≤ t1 ∧ t1 < m.ntypes d ∧
        t1 + m.ntypes d * counter_rank 0 c1 m.ub_ =
          t + m.ntypes d * counter_rank 0 c m.ub_ + 1) := by
  constructor
  · rintro ⟨rfl, rfl⟩
    have h1 : m.ntypes d - 1 + 1 ≥ m.ntypes d := by omega
    simp only [incr, if_pos h1, if_true, element_end]
    simp
  · intro hne
    by_cases h1 : t + 1 ≥ m.ntypes d
    · have ht1 : t = m.ntypes d - 1 := by omega
      have hc : c ≠ m.ub_ := fun e => hne ⟨e, ht1⟩
      obtain ⟨c1, hs1, hb1, hr1⟩ := counter_succ_spec 0 c m.ub_ hb hc
      refine ⟨c1, 0, ?_, hb1, le_refl _, by omega, ?_⟩
      · simp only [incr, if_pos h1, if_neg hc]
        rw [increase_corner_zero m c (in_box_length 0 c _ hb), hs1]
      · rw [hr1, ht1]; ring
    · refine ⟨c, t + 1, ?_, hb, by omega, by omega, by ring⟩
      simp only [incr, if_neg h1]

/-- Shape of the run of the iterator through the box from its first corner. -/
theorem iterate_incr_spec (m : regular_simplex_mesh) (d : Nat) (hlb : m.lb_ = List.replicate m.ub_.length 0)
    (hub : ∀ h ∈ m.ub_, 0 ≤ h) (hT : 0 < m.ntypes d) :
    ∀ k : Nat, (k : Int) < m.ntypes d * counter_size 0 m.ub_ →
      ∃ c t, iterate_incr m k (m.element_begin d) = some { corner := c, dim := d, type := t } ∧
        in_box 0 c m.ub_ ∧ 0 ≤ t ∧ t < m.ntypes d ∧
        t + m.ntypes d * counter_rank 0 c m.ub_ = k
  | 0, _ => by
    refine ⟨m.lb_, 0, rfl, ?_, le_refl _, hT, ?_⟩
    · rw [hlb]; exact in_box_lo 0 _ hub
    · rw [hlb, counter_rank_lo]; simp
  | k + 1, hk => by
    obtain ⟨c, t, h1, h2, h3, h4, h5⟩ := iterate_incr_spec m d hlb hub hT k (by push_cast at hk; omega)
    have hne : ¬ (c = m.ub_ ∧ t = m.ntypes d - 1) := by
      rintro ⟨rfl, rfl⟩
      rw [counter_rank_hi] at h5
      have : m.ntypes d * counter_size 0 m.ub_ = (k : Int) + 1 := by
        rw [← h5]; ring
      push_cast at hk
      omega
    obtain ⟨c1, t1, e1, e2, e3, e4, e5⟩ := (incr_spec m d c t h2 h3 h4).2 hne
    refine ⟨c1, t1, ?_, e2, e3, e4, ?_⟩
    · simp only [iterate_incr, h1, Option.some_bind, e1]
    · rw [e5, h5]; push_cast; ring

theorem state_rank_injective (lo T : Int) (hi c c1 : List Int) (t t1 : Int)
    (hb : in_box lo c hi) (hb1 : in_box lo c1 hi) (ht0 : 0 ≤ t) (ht : t < T) (ht10 : 0 ≤ t1)
    (ht1 : t1 < T)
    (he : t + T * counter_rank lo c hi = t1 + T * counter_rank lo c1 hi) : c = c1 ∧ t = t1 := by
  have e1 := congrArg (fun x => x % T) he
  simp only [Int.add_mul_emod_self_left] at e1
  rw [Int.emod_eq_of_lt ht0 ht, Int.emod_eq_of_lt ht10 ht1] at e1
  subst e1
  have e3 : T * counter_rank lo c hi = T * counter_rank lo c1 hi := by omega
  have e4 := Int.eq_of_mul_eq_mul_left (by omega) e3
  exact ⟨counter_rank_injective lo c c1 hi hb hb1 e4, rfl⟩

theorem state_rank_lt (lo T : Int) (hi c : List Int) (t : Int) (hb : in_box lo c hi)
    (ht0 : 0 ≤ t) (ht : t < T) :
    0 ≤ t + T * counter_rank lo c hi ∧
      t + T * counter_rank lo c hi < T * counter_size lo hi := by
  obtain ⟨h1, h2⟩ := counter_rank_bounds lo c hi hb
  have h3 : 0 ≤ T * counter_rank lo c hi := Int.mul_nonneg (by omega) h1
  have h4 : T * (counter_rank lo c hi + 1) ≤ T * counter_size lo hi :=
    Int.mul_le_mul_of_nonneg_left (by omega) (by omega)
  rw [Int.mul_add, Int.mul_one] at h4
  constructor <;> omega

/-- The iterator reaches `element_end` after exactly `ntypes(d) * size` increments. -/
theorem iterate_incr_end (m : regular_simplex_mesh) (d : Nat)
    (hlb : m.lb_ = List.replicate m.ub_.length 0) (hub : ∀ h ∈ m.ub_, 0 ≤ h)
    (hT : 0 < m.ntypes d) :
    iterate_incr m (m.ntypes d * counter_size 0 m.ub_).toNat (m.element_begin d) =
      some (m.element_end d) := by
  have hsz := counter_size_pos 0 m.ub_ m.ub_ (in_box_hi 0 _ hub)
  have hN : 0 < m.ntypes d * counter_size 0 m.ub_ := Int.mul_pos hT hsz
  obtain ⟨k, hk⟩ : ∃ k : Nat, (m.ntypes d * counter_size 0 m.ub_).toNat = k + 1 :=
    ⟨(m.ntypes d * counter_size 0 m.ub_).toNat - 1, by omega⟩
  rw [hk]
  have hk' : ((k : Int) + 1) = m.ntypes d * counter_size 0 m.ub_ := by omega
  obtain ⟨c, t, h1, h2, h3, h4, h5⟩ := iterate_incr_spec m d hlb hub hT k (by omega)
  have hlast : (m.ntypes d - 1) + m.ntypes d * counter_rank 0 m.ub_ m.ub_ = k := by
    rw [counter_rank_hi]
    have : m.ntypes d * (counter_size 0 m.ub_ - 1) =
        m.ntypes d * counter_size 0 m.ub_ - m.ntypes d := by ring
    omega
  obtain ⟨rfl, rfl⟩ := state_rank_injective 0 (m.ntypes d) m.ub_ c m.ub_ t (m.ntypes d - 1) h2
    (in_box_hi 0 _ hub) h3 h4 (by omega) (by omega) (by rw [h5, hlast])
  simp only [iterate_incr, h1, Option.some_bind]
  exact (incr_spec m d m.ub_ (m.ntypes d - 1) h2 h3 h4).1 ⟨rfl, rfl⟩



open regular_simplex_mesh regular_simplex_mesh_element

/-! ## Inclusion of sorted ranges -/

theorem std_includes_iff {α : Type} {lt : α → α → Bool} (h : StrictTotal lt) :
    ∀ (l1 l2 : List α), strictly_sorted lt l1 → strictly_sorted lt l2 →
      (std_includes lt l1 l2 = true ↔ ∀ b ∈ l2, b ∈ l1)
  | l1, [], _, _ => by cases l1 <;> simp [std_includes]
  | [], b :: bs, _, _ => by
    simp only [std_includes, Bool.false_eq_true, false_iff]
    intro hall
    exact absurd (hall b (List.mem_cons_self _ _)) (List.not_mem_nil _)
  | a :: as, b :: bs, h1, h2 => by
    have h1' := List.pairwise_cons.1 h1
    have h2' := List.pairwise_cons.1 h2
    unfold std_includes
    by_cases hba : lt b a = true
    · rw [if_pos hba]
      simp only [Bool.false_eq_true, false_iff]
      intro hall
      have hb := hall b (List.mem_cons_self _ _)
      rcases List.mem_cons.1 hb with rfl | hb
      · rw [h.irrefl] at hba; exact absurd hba (by decide)
      · have := h.trans _ _ _ hba (h1'.1 b hb)
        rw [h.irrefl] at this; exact absurd this (by decide)
    · rw [if_neg hba]
      by_cases hab : lt a b = true
      · rw [if_pos hab, std_includes_iff h as (b :: bs) h1'.2 h2]
        constructor
        · intro hall x hx
          exact List.mem_cons_of_mem _ (hall x hx)
        · intro hall x hx
          rcases List.mem_cons.1 (hall x hx) with rfl | hx'
          · exfalso
            rcases List.mem_cons.1 hx with rfl | hx
            · rw [h.irrefl] at hab; exact absurd hab (by decide)
            · have := h.trans _ _ _ hab (h2'.1 x hx)
              rw [h.irrefl] at this; exact absurd this (by decide)
          · exact hx'
      · rw [if_neg hab]
        have e : a = b := h.tri a b (by simpa using hab) (by simpa using hba)
        subst e
        rw [std_includes_iff h as bs h1'.2 h2'.2]
        constructor
        · intro hall x hx
          rcases List.mem_cons.1 hx with rfl | hx
          · exact List.mem_cons_self _ _
          · exact List.mem_cons_of_mem _ (hall x hx)
        · intro hall x hx
          rcases List.mem_cons.1 (hall x (List.mem_cons_of_mem _ hx)) with rfl | hx'
          · exfalso
            have := h2'.1 x hx
            rw [h.irrefl] at this; exact absurd this (by decide)
          · exact hx'

/-! ## The scan of the neighbourhood -/

theorem counter_succ_carry (lo c h : Int) (cs hi : List Int) (hc : c + 1 > h) :
    counter_succ lo (c :: cs) (h :: hi) = (counter_succ lo cs hi).map (fun r => lo :: r) := by
  rw [counter_succ, if_pos hc]
  cases counter_succ lo cs hi <;> rfl

theorem counter_succ_step (lo c h : Int) (cs hi : List Int) (hc : ¬ c + 1 > h) :
    counter_succ lo (c :: cs) (h :: hi) = some ((c + 1) :: cs) := by
  rw [counter_succ, if_neg hc]

theorem scan_carry_eq : ∀ (cs pre : List Int) (c : Int) (fuel : Nat), cs.length < fuel →
    scan_carry fuel (pre ++ c :: cs) pre.length =
      (counter_succ (-1) ((c - 1) :: cs) (List.replicate (cs.length + 1) 1)).map
        (fun r => pre ++ r)
  | cs, pre, c, 0, hf => by omega
  | [], pre, c, f + 1, _ => by
    have hd : pre.length < (pre ++ [c]).length := by simp
    have hd2 : ¬ (pre.length + 1 < (pre ++ [c]).length) := by simp
    rw [scan_carry, if_pos hd, getD_append_length, List.replicate_succ]
    by_cases hc : c > 1
    · rw [if_pos hc, if_neg hd2]
      have hc' : c - 1 + 1 > 1 := by omega
      rw [counter_succ_carry _ _ _ _ _ hc']
      rfl
    · rw [if_neg hc]
      have hc' : ¬ (c - 1 + 1 > 1) := by omega
      rw [counter_succ_step _ _ _ _ _ hc']
      have e : c - 1 + 1 = c := by omega
      rw [e]
      rfl
  | c2 :: cs, pre, c, f + 1, hf => by
    have hd : pre.length < (pre ++ c :: c2 :: cs).length := by simp
    have hd2 : pre.length + 1 < (pre ++ c :: c2 :: cs).length := by simp
    rw [scan_carry, if_pos hd, getD_append_length, List.replicate_succ]
    by_cases hc : c > 1
    · rw [if_pos hc, if_pos hd2]
      have e1 : (pre ++ c :: c2 :: cs).getD (pre.length + 1) 0 = c2 := by
        have := getD_append_length (pre ++ [c]) c2 cs
        simpa using this
      have e2 : ((pre ++ c :: c2 :: cs).set pre.length (-1)).set (pre.length + 1) (c2 + 1) =
          (pre ++ [-1]) ++ (c2 + 1) :: cs := by
        rw [set_append_length]
        have := set_append_length (pre ++ [-1]) c2 (c2 + 1) cs
        simp
      rw [e1, e2]
      have ih := scan_carry_eq cs (pre ++ [-1]) (c2 + 1) f (by simp at hf; omega)
      simp only [List.length_append, List.length_singleton] at ih
      rw [ih]
      have hc' : c - 1 + 1 > 1 := by omega
      have e3 : c2 + 1 - 1 = c2 := by omega
      rw [e3, counter_succ_carry _ _ _ _ _ hc']
      simp only [List.length_cons]
      cases counter_succ (-1) (c2 :: cs) (List.replicate (cs.length + 1) 1) <;> simp
    · rw [if_neg hc]
      have hc' : ¬ (c - 1 + 1 > 1) := by omega
      rw [counter_succ_step _ _ _ _ _ hc']
      have e : c - 1 + 1 = c := by omega
      rw [e]
      rfl

theorem scan_carry_zero (c : Int) (cs : List Int) :
    scan_carry ((c :: cs).length + 1) ((c :: cs).set 0 ((c :: cs).getD 0 0 + 1)) 0 =
      counter_succ (-1) (c :: cs) (List.replicate (c :: cs).length 1) := by
  have := scan_carry_eq cs [] (c + 1) (cs.length + 2) (by omega)
  simp only [List.nil_append, List.length_nil] at this
  simp only [List.length_cons, List.set_cons_zero, List.getD_cons_zero]
  rw [this]
  have e : c + 1 - 1 = c := by omega
  rw [e]
  cases counter_succ (-1) (c :: cs) (List.replicate (cs.length + 1) 1) <;> simp

theorem all_one_iff (c : List Int) :
    c.all (fun i => i == 1) = true ↔ c = List.replicate c.length 1 := by
  rw [List.all_eq_true]
  constructor
  · intro h
    exact (List.eq_replicate_iff.2 ⟨rfl, fun x hx => by simpa using h x hx⟩)
  · intro h x hx
    rw [h] at hx
    simp [List.eq_of_mem_replicate hx]



open regular_simplex_mesh regular_simplex_mesh_element

/-- The scan visits every state of rank at least the rank of its starting state: it
comes to its `break`, and the resulting set holds the accumulated entries and exactly the
visited `(type, corner)` whose simplex includes the given vertices. -/
theorem side_of_scan_spec (m : regular_simplex_mesh) (k : Nat) (ksv : List (List Int))
    (n : Nat) :
    ∀ (fuel : Nat) (corner : List Int) (t : Int) (acc : List (Int × List Int)),
      in_box (-1) corner (List.replicate n 1) → 0 ≤ t → t < m.ntypes (k + 1) →
      m.ntypes (k + 1) * counter_size (-1) (List.replicate n 1) -
        (t + m.ntypes (k + 1) * counter_rank (-1) corner (List.replicate n 1)) ≤ fuel →
      ∃ res, side_of_scan m k ksv fuel corner t acc = some res ∧
        (strictly_sorted tuple_lt acc → strictly_sorted tuple_lt res) ∧
        ∀ x, x ∈ res ↔ x ∈ acc ∨
          ∃ c1 t1, x = (t1, c1) ∧ in_box (-1) c1 (List.replicate n 1) ∧ 0 ≤ t1 ∧
            t1 < m.ntypes (k + 1) ∧
            t + m.ntypes (k + 1) * counter_rank (-1) corner (List.replicate n 1) ≤
              t1 + m.ntypes (k + 1) * counter_rank (-1) c1 (List.replicate n 1) ∧
            std_includes vec_lt (vertices m { corner := c1, dim := k + 1, type := t1 }) ksv =
              true
  | 0, corner, t, acc, hb, ht0, ht, hf => by
    have := (state_rank_lt (-1) _ _ corner t hb ht0 ht).2
    simp only [Nat.cast_zero] at hf
    omega
  | fuel + 1, corner, t, acc, hb, ht0, ht, hf => by
    have hlen := in_box_length _ _ _ hb
    simp only [List.length_replicate] at hlen
    have hrk := state_rank_lt (-1) _ _ corner t hb ht0 ht
    -- the set after the body
    have hacc1 : ∀ x, x ∈ (if std_includes vec_lt
          (vertices m { corner := corner, dim := k + 1, type := t }) ksv = true
          then set_insert tuple_lt (t, corner) acc else acc) ↔
        x ∈ acc ∨ (x = (t, corner) ∧ std_includes vec_lt
          (vertices m { corner := corner, dim := k + 1, type := t }) ksv = true) := by
      intro x
      by_cases hP : std_includes vec_lt
          (vertices m { corner := corner, dim := k + 1, type := t }) ksv = true
      · rw [if_pos hP, mem_set_insert tuple_lt_strictTotal]
        constructor
        · rintro (h | h)
          · exact Or.inr ⟨h, hP⟩
          · exact Or.inl h
        · rintro (h | ⟨h, _⟩)
          · exact Or.inr h
          · exact Or.inl h
      · rw [if_neg hP]
        constructor
        · exact Or.inl
        · rintro (h | ⟨_, h⟩)
          · exact h
          · exact absurd h hP
    have hsort1 : strictly_sorted tuple_lt acc → strictly_sorted tuple_lt
        (if std_includes vec_lt
          (vertices m { corner := corner, dim := k + 1, type := t }) ksv = true
          then set_insert tuple_lt (t, corner) acc else acc) := by
      intro hs
      split
      · exact set_insert_sorted tuple_lt_strictTotal _ _ hs
      · exact hs
    -- states of rank at least the current one: the current one, or of larger rank
    have hsplit : ∀ (c1 : List Int) (t1 : Int), in_box (-1) c1 (List.replicate n 1) →
        0 ≤ t1 → t1 < m.ntypes (k + 1) →
        (t + m.ntypes (k + 1) * counter_rank (-1) corner (List.replicate n 1) ≤
            t1 + m.ntypes (k + 1) * counter_rank (-1) c1 (List.replicate n 1) ↔
          (c1 = corner ∧ t1 = t) ∨
          t + m.ntypes (k + 1) * counter_rank (-1) corner (List.replicate n 1) + 1 ≤
            t1 + m.ntypes (k + 1) * counter_rank (-1) c1 (List.replicate n 1)) := by
      intro c1 t1 hb1 h10 h1T
      constructor
      · intro hle
        by_cases he : t + m.ntypes (k + 1) * counter_rank (-1) corner (List.replicate n 1) =
            t1 + m.ntypes (k + 1) * counter_rank (-1) c1 (List.replicate n 1)
        · obtain ⟨e1, e2⟩ := state_rank_injective (-1) _ _ corner c1 t t1 hb hb1 ht0 ht h10 h1T he
          exact Or.inl ⟨e1.symm, e2.symm⟩
        · exact Or.inr (by omega)
      · rintro (⟨rfl, rfl⟩ | h)
        · exact le_refl _
        · omega
    rw [side_of_scan]
    by_cases hlast : t = m.ntypes (k + 1) - 1 ∧ corner.all (fun i => i == 1) = true
    · rw [if_pos hlast]
      refine ⟨_, rfl, hsort1, ?_⟩
      intro x
      rw [hacc1]
      have hc : corner = List.replicate n 1 := by
        have := (all_one_iff corner).1 hlast.2
        rwa [hlen] at this
      constructor
      · rintro (h | ⟨h, hP⟩)
        · exact Or.inl h
        · exact Or.inr ⟨corner, t, h, hb, ht0, ht, le_refl _, hP⟩
      · rintro (h | ⟨c1, t1, h, hb1, h10, h1T, hle, hP⟩)
        · exact Or.inl h
        · have hmax := state_rank_lt (-1) _ _ c1 t1 hb1 h10 h1T
          have hcur : t + m.ntypes (k + 1) * counter_rank (-1) corner (List.replicate n 1) =
              m.ntypes (k + 1) * counter_size (-1) (List.replicate n 1) - 1 := by
            rw [hc, counter_rank_hi, hlast.1]; ring
          obtain ⟨e1, e2⟩ := state_rank_injective (-1) _ _ corner c1 t t1 hb hb1 ht0 ht h10 h1T
            (by omega)
          subst e1 e2
          exact Or.inr ⟨h, hP⟩
    · rw [if_neg hlast]
      -- the run from the next state `(c2, t2)`
      have hfinish : ∀ (c2 : List Int) (t2 : Int), in_box (-1) c2 (List.replicate n 1) →
          0 ≤ t2 → t2 < m.ntypes (k + 1) →
          t2 + m.ntypes (k + 1) * counter_rank (-1) c2 (List.replicate n 1) =
            t + m.ntypes (k + 1) * counter_rank (-1) corner (List.replicate n 1) + 1 →
          ∃ res, side_of_scan m k ksv fuel c2 t2
              (if std_includes vec_lt
                (vertices m { corner := corner, dim := k + 1, type := t }) ksv = true
                then set_insert tuple_lt (t, corner) acc else acc) = some res ∧
            (strictly_sorted tuple_lt acc → strictly_sorted tuple_lt res) ∧
            ∀ x, x ∈ res ↔ x ∈ acc ∨
              ∃ c1 t1, x = (t1, c1) ∧ in_box (-1) c1 (List.replicate n 1) ∧ 0 ≤ t1 ∧
                t1 < m.ntypes (k + 1) ∧
                t + m.ntypes (k + 1) * counter_rank (-1) corner (List.replicate n 1) ≤
                  t1 + m.ntypes (k + 1) * counter_rank (-1) c1 (List.replicate n 1) ∧
                std_includes vec_lt
                  (vertices m { corner := c1, dim := k + 1, type := t1 }) ksv = true := by
        intro c2 t2 hb2 h20 h2T hr2
        obtain ⟨res, hres, hsorted, hmem⟩ := side_of_scan_spec m k ksv n fuel c2 t2
          (if std_includes vec_lt
            (vertices m { corner := corner, dim := k + 1, type := t }) ksv = true
            then set_insert tuple_lt (t, corner) acc else acc) hb2 h20 h2T
          (by push_cast at hf; omega)
        refine ⟨res, hres, fun hs => hsorted (hsort1 hs), ?_⟩
        intro x
        rw [hmem, hacc1, hr2]
        constructor
        · rintro ((h | ⟨h, hP⟩) | ⟨c1, t1, h, hb1, h10, h1T, hle, hP⟩)
          · exact Or.inl h
          · exact Or.inr ⟨corner, t, h, hb, ht0, ht, le_refl _, hP⟩
          · exact Or.inr ⟨c1, t1, h, hb1, h10, h1T, by omega, hP⟩
        · rintro (h | ⟨c1, t1, h, hb1, h10, h1T, hle, hP⟩)
          · exact Or.inl (Or.inl h)
          · rcases (hsplit c1 t1 hb1 h10 h1T).1 hle with ⟨rfl, rfl⟩ | hgt
            · exact Or.inl (Or.inr ⟨h, hP⟩)
            · exact Or.inr ⟨c1, t1, h, hb1, h10, h1T, hgt, hP⟩
      by_cases htl : t = m.ntypes (k + 1) - 1
      · have hne : corner ≠ List.replicate n 1 := by
          intro e
          apply hlast
          refine ⟨htl, (all_one_iff corner).2 ?_⟩
          rw [hlen]; exact e
        obtain ⟨c2, hs2, hb2, hr2⟩ := counter_succ_spec (-1) corner _ hb hne
        rw [if_pos htl]
        cases corner with
        | nil => simp [counter_succ] at hs2
        | cons c cs =>
          have hpos : 0 < (c :: cs).length := by simp
          rw [if_pos hpos, scan_carry_zero, hlen, hs2]
          exact hfinish c2 0 hb2 (le_refl _) (by omega) (by rw [hr2, htl]; ring)
      · rw [if_neg htl]
        exact hfinish corner (t + 1) hb (by omega) (by omega) (by ring)



open regular_simplex_mesh regular_simplex_mesh_element

/-! ## The constructor -/

theorem collect_map {α β : Type} (d : β) (f : α → Option β) :
    ∀ l : List α, (∀ x ∈ l, ∃ y, f x = some y) →
      collect (l.map f) = some (l.map fun x => (f x).getD d)
  | [], _ => rfl
  | a :: l, h => by
    obtain ⟨y, hy⟩ := h a (List.mem_cons_self _ _)
    have ih := collect_map d f l (fun x hx => h x (List.mem_cons_of_mem _ hx))
    simp only [List.map_cons, hy, collect, ih, Option.getD_some]

theorem getD_map_range {β : Type} (g : Nat → β) (d : β) (N k : Nat) (hk : k < N) :
    ((List.range N).map g).getD k d = g k := by
  rw [List.getD_eq_getElem _ _ (by simpa using hk)]
  simp

theorem counter_size_replicate (n : Nat) :
    counter_size (-1) (List.replicate n 1) = (3 : Int) ^ n := by
  induction n with
  | zero => rfl
  | succ n ih =>
    rw [List.replicate_succ, counter_size, ih, pow_succ]
    ring

theorem vertices_congr (m m1 : regular_simplex_mesh) (h1 : m.nd_ = m1.nd_)
    (h2 : m.unit_simplices = m1.unit_simplices) (e : regular_simplex_mesh_element) :
    vertices m e = vertices m1 e := by
  simp only [vertices, regular_simplex_mesh.unit_simplex, regular_simplex_mesh.nd, h1, h2]

theorem side_of_scan_congr (m m1 : regular_simplex_mesh) (h1 : m.nd_ = m1.nd_)
    (h2 : m.unit_simplices = m1.unit_simplices) (h3 : m.ntypes_ = m1.ntypes_) (k : Nat)
    (ksv : List (List Int)) :
    ∀ (fuel : Nat) (corner : List Int) (t : Int) (acc : List (Int × List Int)),
      side_of_scan m k ksv fuel corner t acc = side_of_scan m1 k ksv fuel corner t acc
  | 0, _, _, _ => rfl
  | fuel + 1, corner, t, acc => by
    have hnt : m.ntypes (k + 1) = m1.ntypes (k + 1) := by
      simp only [regular_simplex_mesh.ntypes, h3]
    rw [side_of_scan, side_of_scan, hnt, vertices_congr m m1 h1 h2]
    simp only [side_of_scan_congr m m1 h1 h2 h3 k ksv fuel]

theorem enumerate_unit_simplex_side_of_congr (m m1 : regular_simplex_mesh)
    (h1 : m.nd_ = m1.nd_) (h2 : m.unit_simplices = m1.unit_simplices)
    (h3 : m.ntypes_ = m1.ntypes_) (k t : Nat) :
    m.enumerate_unit_simplex_side_of k t = m1.enumerate_unit_simplex_side_of k t := by
  have hnt : m.ntypes (k + 1) = m1.ntypes (k + 1) := by
    simp only [regular_simplex_mesh.ntypes, h3]
  simp only [enumerate_unit_simplex_side_of, regular_simplex_mesh.nd, h1, hnt,
    vertices_congr m m1 h1 h2, side_of_scan_congr m m1 h1 h2 h3]

theorem enumerate_unit_simplex_sides_congr (m m1 : regular_simplex_mesh)
    (h1 : m.nd_ = m1.nd_) (h2 : m.unit_simplices = m1.unit_simplices) (k t : Nat) :
    m.enumerate_unit_simplex_sides k t = m1.enumerate_unit_simplex_sides k t := by
  simp only [enumerate_unit_simplex_sides, regular_simplex_mesh.nd, h1, h2]

theorem enumerate_unit_simplices_ne_nil (n k : Nat) (hk : k ≤ n + 1) :
    enumerate_unit_simplices (n + 1) (n + 1) k ≠ [] := by
  rw [enumerate_unit_simplices, if_pos hk]
  exact enumerate_gap_ne_nil n _

/-- The scan of `enumerate_unit_simplex_side_of` comes to its end on any mesh whose
`ntypes(k+1)` is positive. -/
theorem enumerate_unit_simplex_side_of_some (m : regular_simplex_mesh) (k t : Nat)
    (hT : k = m.nd ∨ 0 < m.ntypes (k + 1)) :
    ∃ res, m.enumerate_unit_simplex_side_of k t = some res := by
  unfold enumerate_unit_simplex_side_of
  by_cases hk : k = m.nd
  · exact ⟨[], by rw [if_pos hk]⟩
  · rw [if_neg hk]
    have hT' : 0 < m.ntypes (k + 1) := hT.resolve_left hk
    have hb : in_box (-1) (List.replicate m.nd (-1)) (List.replicate m.nd 1) := by
      have := in_box_lo (-1) (List.replicate m.nd 1) (by
        intro h hh; rw [List.eq_of_mem_replicate hh]; decide)
      simpa using this
    have hr : counter_rank (-1) (List.replicate m.nd (-1)) (List.replicate m.nd 1) = 0 := by
      have := counter_rank_lo (-1) (List.replicate m.nd 1)
      simpa using this
    obtain ⟨res, hres, _⟩ := side_of_scan_spec m k
      (vertices m { corner := List.replicate m.nd 0, dim := k, type := (t : Int) }) m.nd
      ((m.ntypes (k + 1)).toNat * 3 ^ m.nd) (List.replicate m.nd (-1)) 0 [] hb (le_refl _) hT'
      (by
        rw [hr, counter_size_replicate]
        push_cast
        rw [Int.toNat_of_nonneg (le_of_lt hT')]
        omega)
    exact ⟨res, hres⟩

theorem initialize_side_of_eq (m : regular_simplex_mesh)
    (h : ∀ dim, dim < m.nd + 1 → ∀ type, type < (m.ntypes dim).toNat →
      ∃ res, m.enumerate_unit_simplex_side_of dim type = some res) :
    initialize_side_of m = some { m with
      unit_simplex_side_of := (List.range (m.nd + 1)).map fun dim =>
        (List.range (m.ntypes dim).toNat).map fun type =>
          (m.enumerate_unit_simplex_side_of dim type).getD [] } := by
  unfold initialize_side_of
  have h1 : ∀ dim ∈ List.range (m.nd + 1),
      collect ((List.range (m.ntypes dim).toNat).map fun type =>
        m.enumerate_unit_simplex_side_of dim type) =
      some ((List.range (m.ntypes dim).toNat).map fun type =>
        (m.enumerate_unit_simplex_side_of dim type).getD []) := by
    intro dim hdim
    apply collect_map
    intro type htype
    exact h dim (List.mem_range.1 hdim) type (List.mem_range.1 htype)
  have h2 : (List.range (m.nd + 1)).map (fun dim =>
      collect ((List.range (m.ntypes dim).toNat).map fun type =>
        m.enumerate_unit_simplex_side_of dim type)) =
      (List.range (m.nd + 1)).map (fun dim => some
        ((List.range (m.ntypes dim).toNat).map fun type =>
          (m.enumerate_unit_simplex_side_of dim type).getD [])) :=
    List.map_congr_left h1
  rw [h2]
  have h3 := collect_map ([] : List (List (Int × List Int)))
    (fun dim => some ((List.range (m.ntypes dim).toNat).map fun type =>
          (m.enumerate_unit_simplex_side_of dim type).getD [])) (List.range (m.nd + 1))
    (fun x _ => ⟨_, rfl⟩)
  rw [h3]
  simp only [Option.getD_some]

theorem create_spec (n : Nat) : ∃ m, create (n + 1) = some m ∧ mesh_spec (n + 1) m := by
  let m0 : regular_simplex_mesh :=
    { nd_ := n + 1, lb_ := List.replicate (n + 1) 0, ub_ := List.replicate (n + 1) 0,
      ntypes_ := [], unit_simplices := [], unit_simplex_sides := [],
      unit_simplex_side_of := [] }
  let m2 := initialize_sides (initialize_simplices m0)
  have hnd : m2.nd = n + 1 := rfl
  have hcat : ∀ k, k ≤ n + 1 →
      m2.unit_simplices.getD k [] = enumerate_unit_simplices (n + 1) (n + 1) k :=
    fun k hk => getD_map_range _ _ (n + 1 + 1) k (by omega)
  have hnt : ∀ k, k ≤ n + 1 →
      m2.ntypes k = ((enumerate_unit_simplices (n + 1) (n + 1) k).length : Int) := by
    intro k hk
    show (((List.range (n + 1 + 1)).map fun k =>
      enumerate_unit_simplices (n + 1) (n + 1) k).map fun l => (l.length : Int)).getD k 0 = _
    rw [List.map_map]
    exact getD_map_range _ _ (n + 1 + 1) k (by omega)
  have hpos : ∀ k, k ≤ n + 1 → 0 < m2.ntypes k := by
    intro k hk
    rw [hnt k hk]
    have := List.length_pos.2 (enumerate_unit_simplices_ne_nil n k hk)
    omega
  have hsome : ∀ dim, dim < m2.nd + 1 → ∀ type, type < (m2.ntypes dim).toNat →
      ∃ res, m2.enumerate_unit_simplex_side_of dim type = some res := by
    intro dim hdim type _
    apply enumerate_unit_simplex_side_of_some
    by_cases hd : dim = m2.nd
    · exact Or.inl hd
    · exact Or.inr (hpos (dim + 1) (by rw [hnd] at hdim hd; omega))
  have hinit := initialize_side_of_eq m2 hsome
  let m3 : regular_simplex_mesh := { m2 with
      unit_simplex_side_of := (List.range (m2.nd + 1)).map fun dim =>
        (List.range (m2.ntypes dim).toNat).map fun type =>
          (m2.enumerate_unit_simplex_side_of dim type).getD [] }
  refine ⟨m3, ?_, ?_⟩
  · unfold create
    rw [if_neg (by omega)]
    exact hinit
  · refine ⟨rfl, rfl, rfl, hcat, hnt, ?_, ?_⟩
    · intro k t hk ht
      show (((List.range (n + 1 + 1)).map fun dim =>
        (List.range ((initialize_simplices m0).ntypes dim).toNat).map fun type =>
          (initialize_simplices m0).enumerate_unit_simplex_sides dim type).getD k []).getD t [] = _
      rw [getD_map_range _ _ (n + 1 + 1) k (by omega)]
      have hnt' : (initialize_simplices m0).ntypes k =
          ((enumerate_unit_simplices (n + 1) (n + 1) k).length : Int) := hnt k hk
      rw [getD_map_range _ _ _ _ (by rw [hnt']; simpa using ht)]
      exact enumerate_unit_simplex_sides_congr _ _ rfl rfl k t
    · intro k t hk ht
      have e := enumerate_unit_simplex_side_of_congr m3 m2 rfl rfl rfl k t
      show m3.enumerate_unit_simplex_side_of k t = _
      rw [e]
      show _ = some ((((List.range (m2.nd + 1)).map fun dim =>
        (List.range (m2.ntypes dim).toNat).map fun type =>
          (m2.enumerate_unit_simplex_side_of dim type).getD []).getD k []).getD t [])
      rw [getD_map_range _ _ _ _ (by rw [hnd]; omega)]
      rw [getD_map_range _ _ _ _ (by rw [hnt k hk]; simpa using ht)]
      obtain ⟨res, hres⟩ := hsome k (by rw [hnd]; omega) t (by rw [hnt k hk]; simpa using ht)
      rw [hres]
      rfl



open regular_simplex_mesh regular_simplex_mesh_element

/-! ## Membership in the adjacency tables -/

theorem mem_foldl_cond_set_insert {α β : Type} {lt : α → α → Bool} (h : StrictTotal lt)
    (P : β → Prop) [DecidablePred P] (f : β → α) (y : α) :
    ∀ (l : List β) (init : List α),
      y ∈ l.foldl (fun acc b => if P b then set_insert lt (f b) acc else acc) init ↔
        (∃ b ∈ l, P b ∧ y = f b) ∨ y ∈ init
  | [], init => by simp
  | b :: bs, init => by
    rw [List.foldl_cons, mem_foldl_cond_set_insert h P f y bs]
    by_cases hP : P b
    · rw [if_pos hP, mem_set_insert h]
      simp only [List.mem_cons, exists_eq_or_imp]
      constructor
      · rintro (h1 | h1 | h1)
        · exact Or.inl (Or.inr h1)
        · exact Or.inl (Or.inl ⟨hP, h1⟩)
        · exact Or.inr h1
      · rintro ((⟨_, h1⟩ | h1) | h1)
        · exact Or.inr (Or.inl h1)
        · exact Or.inl h1
        · exact Or.inr (Or.inr h1)
    · rw [if_neg hP]
      simp only [List.mem_cons, exists_eq_or_imp]
      constructor
      · rintro (h1 | h1)
        · exact Or.inl (Or.inr h1)
        · exact Or.inr h1
      · rintro ((⟨h0, _⟩ | h1) | h1)
        · exact absurd h0 hP
        · exact Or.inl h1
        · exact Or.inr h1

theorem foldl_cond_set_insert_sorted {α β : Type} {lt : α → α → Bool} (h : StrictTotal lt)
    (P : β → Prop) [DecidablePred P] (f : β → α) :
    ∀ (l : List β) (init : List α), strictly_sorted lt init →
      strictly_sorted lt
        (l.foldl (fun acc b => if P b then set_insert lt (f b) acc else acc) init)
  | [], _, hi => hi
  | b :: bs, init, hi => by
    rw [List.foldl_cons]
    apply foldl_cond_set_insert_sorted h P f bs
    split
    · exact set_insert_sorted h _ _ hi
    · exact hi

theorem mem_foldl_foldl_cond {α β γ : Type} {lt : α → α → Bool} (h : StrictTotal lt)
    (g : γ → List β) (P : γ → β → Prop) [∀ c, DecidablePred (P c)] (f : γ → β → α) (y : α) :
    ∀ (l : List γ) (init : List α),
      y ∈ l.foldl (fun acc c => (g c).foldl
          (fun acc1 b => if P c b then set_insert lt (f c b) acc1 else acc1) acc) init ↔
        (∃ c ∈ l, ∃ b ∈ g c, P c b ∧ y = f c b) ∨ y ∈ init
  | [], init => by simp
  | c :: cs, init => by
    rw [List.foldl_cons, mem_foldl_foldl_cond h g P f y cs,
      mem_foldl_cond_set_insert h (P c) (f c)]
    simp only [List.mem_cons, exists_eq_or_imp]
    constructor
    · rintro (h1 | h1 | h1)
      · exact Or.inl (Or.inr h1)
      · exact Or.inl (Or.inl h1)
      · exact Or.inr h1
    · rintro ((h1 | h1) | h1)
      · exact Or.inr (Or.inl h1)
      · exact Or.inl h1
      · exact Or.inr (Or.inr h1)

theorem foldl_foldl_cond_sorted {α β γ : Type} {lt : α → α → Bool} (h : StrictTotal lt)
    (g : γ → List β) (P : γ → β → Prop) [∀ c, DecidablePred (P c)] (f : γ → β → α) :
    ∀ (l : List γ) (init : List α), strictly_sorted lt init →
      strictly_sorted lt (l.foldl (fun acc c => (g c).foldl
          (fun acc1 b => if P c b then set_insert lt (f c b) acc1 else acc1) acc) init)
  | [], _, hi => hi
  | c :: cs, init, hi => by
    rw [List.foldl_cons]
    exact foldl_foldl_cond_sorted h g P f cs _
      (foldl_cond_set_insert_sorted h (P c) (f c) (g c) init hi)

/-- Entries of the sides table of type `t` of dimension `k ≥ 1`, as computed by the loop. -/
theorem mem_enumerate_unit_simplex_sides_raw (m : regular_simplex_mesh) (k t : Nat)
    (hk : k ≠ 0) (x : Int × List Int) :
    x ∈ m.enumerate_unit_simplex_sides k t ↔
      ∃ p ∈ permutation_loop vec_lt ((m.unit_simplices.getD k []).getD t []).length.factorial
          ((m.unit_simplices.getD k []).getD t []),
        ∃ t1, t1 < (m.unit_simplices.getD (k - 1) []).length ∧
          (reduced_side m.nd p).1 = (m.unit_simplices.getD (k - 1) []).getD t1 [] ∧
          x = ((t1 : Int), (reduced_side m.nd p).2) := by
  unfold enumerate_unit_simplex_sides
  rw [if_neg hk]
  simp only
  rw [mem_foldl_foldl_cond tuple_lt_strictTotal
    (fun _ => List.range (m.unit_simplices.getD (k - 1) []).length)
    (fun p t1 => (reduced_side m.nd p).1 = (m.unit_simplices.getD (k - 1) []).getD t1 [])
    (fun p t1 => ((t1 : Int), (reduced_side m.nd p).2))]
  simp only [List.mem_range, List.not_mem_nil, or_false]

theorem enumerate_unit_simplex_sides_sorted (m : regular_simplex_mesh) (k t : Nat) :
    strictly_sorted tuple_lt (m.enumerate_unit_simplex_sides k t) := by
  unfold enumerate_unit_simplex_sides
  by_cases hk : k = 0
  · rw [if_pos hk]; exact List.Pairwise.nil
  · rw [if_neg hk]
    exact foldl_foldl_cond_sorted tuple_lt_strictTotal
      (fun _ => List.range (m.unit_simplices.getD (k - 1) []).length)
      (fun p t1 => (reduced_side m.nd p).1 = (m.unit_simplices.getD (k - 1) []).getD t1 [])
      (fun p t1 => ((t1 : Int), (reduced_side m.nd p).2)) _ _ List.Pairwise.nil



open regular_simplex_mesh regular_simplex_mesh_element

/-! ## The catalogue inside a constructed mesh -/

theorem catalogue_wf (n k : Nat) (hk : k ≤ n + 1) :
    ∀ s ∈ enumerate_unit_simplices (n + 1) (n + 1) k,
      unit_simplex_wf (n + 1) k s ∧ strictly_sorted vec_lt s := by
  intro s hs
  rw [enumerate_unit_simplices, if_pos hk] at hs
  have := enumerate_gap_wf n (n + 1 - k) (by omega) s hs
  have e : n + 1 - (n + 1 - k) = k := by omega
  rwa [e] at this

theorem catalogue_closed (n k : Nat) (hk : k + 1 ≤ n + 1) (hs p : List (List Int))
    (hh : hs ∈ enumerate_unit_simplices (n + 1) (n + 1) (k + 1)) (hp : p.Perm hs) :
    (reduced_side (n + 1) p).1 ∈ enumerate_unit_simplices (n + 1) (n + 1) k := by
  rw [enumerate_unit_simplices, if_pos hk] at hh
  rw [enumerate_unit_simplices, if_pos (by omega)]
  have e : n + 1 - k = (n + 1 - (k + 1)) + 1 := by omega
  rw [e, mem_enumerate_gap_succ n _ (by omega)]
  exact ⟨hs, hh, p, hp, rfl⟩

theorem getD_mem_of_lt {β : Type} (l : List β) (d : β) (i : Nat) (hi : i < l.length) :
    l.getD i d ∈ l := by
  rw [List.getD_eq_getElem _ _ hi]
  exact List.getElem_mem _

theorem unit_simplex_eq {n : Nat} {m : regular_simplex_mesh} (hm : mesh_spec n m) (k : Nat)
    (hk : k ≤ n) (t : Int) (ht : 0 ≤ t) :
    m.unit_simplex k t = (enumerate_unit_simplices n n k).getD t.toNat [] := by
  unfold regular_simplex_mesh.unit_simplex
  rw [if_neg (by omega), hm.simplices_eq k hk]

theorem unit_simplex_mem {n : Nat} {m : regular_simplex_mesh} (hm : mesh_spec n m) (k : Nat)
    (hk : k ≤ n) (t : Int) (ht : 0 ≤ t) (htT : t < m.ntypes k) :
    m.unit_simplex k t ∈ enumerate_unit_simplices n n k := by
  rw [unit_simplex_eq hm k hk t ht]
  apply getD_mem_of_lt
  rw [hm.ntypes_eq k hk] at htT
  omega

theorem unit_simplex_wf_of_spec {n : Nat} {m : regular_simplex_mesh}
    (hm : mesh_spec (n + 1) m) (k : Nat) (hk : k ≤ n + 1) (t : Int) (ht : 0 ≤ t)
    (htT : t < m.ntypes k) :
    unit_simplex_wf (n + 1) k (m.unit_simplex k t) ∧
      strictly_sorted vec_lt (m.unit_simplex k t) :=
  catalogue_wf n k hk _ (unit_simplex_mem hm k hk t ht htT)

theorem vertices_eq (m : regular_simplex_mesh) (e : regular_simplex_mesh_element) :
    vertices m e = (m.unit_simplex e.dim e.type).map (translate m.nd e.corner) := rfl

theorem vertices_sorted {n : Nat} {m : regular_simplex_mesh} (hm : mesh_spec (n + 1) m)
    (k : Nat) (hk : k ≤ n + 1) (t : Int) (ht : 0 ≤ t) (htT : t < m.ntypes k) (c : List Int)
    (hc : c.length = n + 1) :
    strictly_sorted vec_lt (vertices m { corner := c, dim := k, type := t }) := by
  obtain ⟨hwf, hs⟩ := unit_simplex_wf_of_spec hm k hk t ht htT
  rw [vertices_eq]
  simp only [regular_simplex_mesh.nd, hm.nd_eq]
  unfold strictly_sorted
  rw [List.pairwise_map]
  refine List.Pairwise.imp_of_mem ?_ hs
  intro a b ha hb hab
  rw [vec_lt_translate (n + 1) c a b hc (hwf.2.1 a ha).1 (hwf.2.1 b hb).1]
  exact hab

theorem vertices_zero_corner {n : Nat} {m : regular_simplex_mesh} (hm : mesh_spec (n + 1) m)
    (k : Nat) (hk : k ≤ n + 1) (t : Int) (ht : 0 ≤ t) (htT : t < m.ntypes k) :
    vertices m { corner := List.replicate m.nd 0, dim := k, type := t } =
      m.unit_simplex k t := by
  obtain ⟨hwf, _⟩ := unit_simplex_wf_of_spec hm k hk t ht htT
  rw [vertices_eq]
  simp only [regular_simplex_mesh.nd, hm.nd_eq]
  conv_rhs => rw [← List.map_id (m.unit_simplex k t)]
  apply List.map_congr_left
  intro v hv
  exact translate_zero (n + 1) v (hwf.2.1 v hv).1

/-- Entries of the sides table: `(t1, o)` is a side of type `t` of dimension `k + 1`
exactly when type `t1` of dimension `k`, translated by `o`, lies inside the simplex of
type `t`. -/
theorem sides_mem_iff {n : Nat} {m : regular_simplex_mesh} (hm : mesh_spec (n + 1) m)
    (k : Nat) (hk : k + 1 ≤ n + 1) (t : Int) (ht : 0 ≤ t) (htT : t < m.ntypes (k + 1))
    (t1 : Int) (o : List Int) :
    (t1, o) ∈ (m.unit_simplex_sides.getD (k + 1) []).getD t.toNat [] ↔
      0 ≤ t1 ∧ t1 < m.ntypes k ∧ o.length = n + 1 ∧
        ∀ u ∈ m.unit_simplex k t1, translate (n + 1) o u ∈ m.unit_simplex (k + 1) t := by
  have htn : t.toNat < (enumerate_unit_simplices (n + 1) (n + 1) (k + 1)).length := by
    rw [hm.ntypes_eq (k + 1) hk] at htT; omega
  rw [hm.sides_eq (k + 1) t.toNat hk htn,
    mem_enumerate_unit_simplex_sides_raw m (k + 1) t.toNat (by omega)]
  simp only [Nat.add_sub_cancel, regular_simplex_mesh.nd, hm.nd_eq,
    hm.simplices_eq (k + 1) hk, hm.simplices_eq k (by omega)]
  have hS := unit_simplex_eq hm (k + 1) hk t ht
  obtain ⟨hSwf, hSs⟩ := unit_simplex_wf_of_spec hm (k + 1) hk t ht htT
  rw [← hS]
  constructor
  · rintro ⟨p, hp, t2, ht2, hred, hx⟩
    simp only [Prod.mk.injEq] at hx
    obtain ⟨rfl, rfl⟩ := hx
    have hpp := permutation_loop_sound vec_lt_strictTotal _ _ _ hp
    have hFu : ∀ v ∈ p.dropLast, unit_vertex (n + 1) v := fun v hv =>
      hSwf.2.1 v (hpp.subset (List.mem_of_mem_dropLast hv))
    have ht2T : (t2 : Int) < m.ntypes k := by
      rw [hm.ntypes_eq k (by omega)]; omega
    refine ⟨by omega, ht2T, (reduce_unit_simplex_offset_unit (n + 1) _).1, ?_⟩
    intro u hu
    rw [unit_simplex_eq hm k (by omega) _ (by omega), Int.toNat_ofNat, ← hred] at hu
    have hu2 : u ∈ (reduce_unit_simplex (n + 1) p.dropLast).1 :=
      (mem_std_sort vec_lt).1 hu
    have := List.mem_map_of_mem (translate (n + 1) (reduce_unit_simplex (n + 1) p.dropLast).2) hu2
    rw [reduce_unit_simplex_translate (n + 1) _ hFu] at this
    exact hpp.subset (List.mem_of_mem_dropLast this)
  · rintro ⟨h0, hT, ho, hsub⟩
    obtain ⟨hUwf, hUs⟩ := unit_simplex_wf_of_spec hm k (by omega) t1 h0 hT
    have hFsub : (m.unit_simplex k t1).map (translate (n + 1) o) ⊆ m.unit_simplex (k + 1) t := by
      intro v hv
      rw [List.mem_map] at hv
      obtain ⟨u, hu, rfl⟩ := hv
      exact hsub u hu
    have hFn : ((m.unit_simplex k t1).map (translate (n + 1) o)).Nodup :=
      List.Nodup.map_on (fun x hx y hy hxy =>
        translate_injective (n + 1) o (hUwf.2.1 x hx).1 (hUwf.2.1 y hy).1 hxy) hUwf.2.2.1
    obtain ⟨a, ha⟩ := (List.subperm_of_subset hFn hFsub).exists_of_length_lt
      (by rw [List.length_map, hUwf.1, hSwf.1]; omega)
    have hperm : (a :: (m.unit_simplex k t1).map (translate (n + 1) o)).Perm
        (m.unit_simplex (k + 1) t) :=
      ha.perm_of_length_le (by simp [hUwf.1, hSwf.1])
    have hp : ((m.unit_simplex k t1).map (translate (n + 1) o) ++ [a]).Perm
        (m.unit_simplex (k + 1) t) := (List.perm_append_singleton a _).trans hperm
    have hred : reduced_side (n + 1) ((m.unit_simplex k t1).map (translate (n + 1) o) ++ [a]) =
        (m.unit_simplex k t1, o) := by
      unfold reduced_side
      simp only [List.dropLast_concat]
      rw [reduce_unit_simplex_of_translate (n + 1) _ o hUwf.2.1 hUwf.2.2.2 ho
        (fun v hv => hSwf.2.1 _ (hsub v hv))]
      simp only
      rw [std_sort_eq_self vec_lt_strictTotal (pairwise_weak_of_strict vec_lt_strictTotal hUs)]
    refine ⟨_, (mem_permutation_loop vec_lt_strictTotal _ _
      (pairwise_weak_of_strict vec_lt_strictTotal hSs)).2 hp, t1.toNat, ?_, ?_, ?_⟩
    · rw [hm.ntypes_eq k (by omega)] at hT; omega
    · rw [hred, unit_simplex_eq hm k (by omega) t1 h0]
    · rw [hred, Int.toNat_of_nonneg h0]



open regular_simplex_mesh regular_simplex_mesh_element

theorem getD_replicate_lt (n j : Nat) (a : Int) (hj : j < n) :
    (List.replicate n a).getD j 0 = a := by
  rw [List.getD_eq_getElem _ _ (by simpa using hj)]
  simp

/-- Entries of the side-of table: `(P, c)` is listed for type `t` of dimension `k < n`
exactly when the simplex of type `P` of dimension `k + 1` at corner `c` contains the
simplex of type `t` at the origin. -/
theorem side_of_mem_iff {n : Nat} {m : regular_simplex_mesh} (hm : mesh_spec (n + 1) m)
    (k : Nat) (hk : k < n + 1) (t : Int) (ht : 0 ≤ t) (htT : t < m.ntypes k)
    (P : Int) (c : List Int) :
    (P, c) ∈ (m.unit_simplex_side_of.getD k []).getD t.toNat [] ↔
      0 ≤ P ∧ P < m.ntypes (k + 1) ∧ c.length = n + 1 ∧
        ∀ u ∈ m.unit_simplex k t, u ∈ (m.unit_simplex (k + 1) P).map (translate (n + 1) c) := by
  have htn : t.toNat < (enumerate_unit_simplices (n + 1) (n + 1) k).length := by
    rw [hm.ntypes_eq k (by omega)] at htT; omega
  have hso := hm.side_of_eq k t.toNat (by omega) htn
  have hnd : m.nd = n + 1 := hm.nd_eq
  have hT : 0 < m.ntypes (k + 1) := by
    rw [hm.ntypes_eq (k + 1) (by omega)]
    have := List.length_pos.2 (enumerate_unit_simplices_ne_nil n (k + 1) (by omega))
    omega
  unfold enumerate_unit_simplex_side_of at hso
  rw [if_neg (by omega), Int.toNat_of_nonneg ht] at hso
  dsimp only at hso
  rw [vertices_zero_corner hm k (by omega) t ht htT, hnd] at hso
  have hb : in_box (-1) (List.replicate (n + 1) (-1)) (List.replicate (n + 1) 1) := by
    have := in_box_lo (-1) (List.replicate (n + 1) 1) (by
      intro h hh; rw [List.eq_of_mem_replicate hh]; decide)
    simpa using this
  have hr : counter_rank (-1) (List.replicate (n + 1) (-1)) (List.replicate (n + 1) 1) = 0 := by
    have := counter_rank_lo (-1) (List.replicate (n + 1) 1)
    simpa using this
  obtain ⟨res, hres, _, hmem⟩ := side_of_scan_spec m k (m.unit_simplex k t) (n + 1)
    ((m.ntypes (k + 1)).toNat * 3 ^ (n + 1)) (List.replicate (n + 1) (-1)) 0 [] hb (le_refl _) hT
    (by
      rw [hr, counter_size_replicate]
      push_cast
      rw [Int.toNat_of_nonneg (le_of_lt hT)]
      omega)
  rw [hres] at hso
  simp only [Option.some.injEq] at hso
  rw [← hso, hmem]
  obtain ⟨hUwf, hUs⟩ := unit_simplex_wf_of_spec hm k (by omega) t ht htT
  simp only [List.not_mem_nil, false_or, Prod.mk.injEq]
  constructor
  · rintro ⟨c1, t1, ⟨rfl, rfl⟩, hb1, h0, h1, _, hinc⟩
    have hcl : c.length = n + 1 := by
      have := in_box_length _ _ _ hb1
      simpa using this
    refine ⟨h0, h1, hcl, ?_⟩
    have hvs := vertices_sorted hm (k + 1) (by omega) P h0 h1 c hcl
    have := (std_includes_iff vec_lt_strictTotal _ _ hvs hUs).1 hinc
    rw [vertices_eq] at this
    simpa only [regular_simplex_mesh.nd, hm.nd_eq] using this
  · rintro ⟨h0, h1, hcl, hsub⟩
    obtain ⟨hSwf, _⟩ := unit_simplex_wf_of_spec hm (k + 1) (by omega) P h0 h1
    have hbox : in_box (-1) c (List.replicate (n + 1) 1) := by
      rw [in_box_iff]
      refine ⟨by simp [hcl], ?_⟩
      intro j hj
      rw [hcl] at hj
      obtain ⟨u, hu, hu0⟩ := hUwf.2.2.2 j hj
      have := hsub u hu
      rw [List.mem_map] at this
      obtain ⟨s, hs, hsu⟩ := this
      have e := congrArg (fun l => l.getD j 0) hsu
      simp only [getD_translate, if_pos hj, hu0] at e
      have hs01 := getD_mem_unit (hSwf.2.1 s hs) j
      rw [getD_replicate_lt _ _ _ hj]
      omega
    refine ⟨c, P, ⟨rfl, rfl⟩, hbox, h0, h1, ?_, ?_⟩
    · rw [hr]
      have := (state_rank_lt (-1) (m.ntypes (k + 1)) _ c P hbox h0 h1).1
      omega
    · have hvs := vertices_sorted hm (k + 1) (by omega) P h0 h1 c hcl
      refine (std_includes_iff vec_lt_strictTotal _ _ hvs hUs).2 ?_
      rw [vertices_eq]
      simpa only [regular_simplex_mesh.nd, hm.nd_eq] using hsub

theorem side_of_top {n : Nat} {m : regular_simplex_mesh} (hm : mesh_spec (n + 1) m)
    (t : Int) (ht : 0 ≤ t) (htT : t < m.ntypes (n + 1)) :
    (m.unit_simplex_side_of.getD (n + 1) []).getD t.toNat [] = [] := by
  have htn : t.toNat < (enumerate_unit_simplices (n + 1) (n + 1) (n + 1)).length := by
    rw [hm.ntypes_eq (n + 1) (le_refl _)] at htT; omega
  have hso := hm.side_of_eq (n + 1) t.toNat (le_refl _) htn
  unfold enumerate_unit_simplex_side_of at hso
  rw [if_pos (by rw [regular_simplex_mesh.nd, hm.nd_eq])] at hso
  simp only [Option.some.injEq] at hso
  exact hso.symm

theorem sides_bottom {n : Nat} {m : regular_simplex_mesh} (hm : mesh_spec (n + 1) m)
    (t : Int) (ht : 0 ≤ t) (htT : t < m.ntypes 0) :
    (m.unit_simplex_sides.getD 0 []).getD t.toNat [] = [] := by
  have htn : t.toNat < (enumerate_unit_simplices (n + 1) (n + 1) 0).length := by
    rw [hm.ntypes_eq 0 (by omega)] at htT; omega
  rw [hm.sides_eq 0 t.toNat (by omega) htn]
  simp [enumerate_unit_simplex_sides]



open regular_simplex_mesh regular_simplex_mesh_element

/-! ## Concrete meshes -/

set_option maxRecDepth 100000 in
theorem create_one : create 1 = some mesh_one := by decide

set_option maxRecDepth 100000 in
theorem create_two : create 2 = some mesh_two := by decide



open regular_simplex_mesh regular_simplex_mesh_element

/-! ## Offsets and bounds -/

theorem add_offset_fold (corner offset : List Int) :
    ∀ k, ((List.range k).foldl
        (fun c i => c.set i (c.getD i 0 + offset.getD i 0)) corner).length = corner.length ∧
      ∀ j, ((List.range k).foldl
        (fun c i => c.set i (c.getD i 0 + offset.getD i 0)) corner).getD j 0 =
        if j < k ∧ j < corner.length then corner.getD j 0 + offset.getD j 0
        else corner.getD j 0
  | 0 => by simp
  | k + 1 => by
    obtain ⟨ih1, ih2⟩ := add_offset_fold corner offset k
    rw [List.range_succ, List.foldl_append]
    simp only [List.foldl_cons, List.foldl_nil, List.length_set]
    refine ⟨ih1, ?_⟩
    intro j
    rw [getD_set, ih1, ih2 k, ih2 j]
    by_cases hjk : k = j
    · subst hjk
      by_cases hl : k < corner.length
      · simp [hl]
      · simp [hl]
    · have : j < k + 1 ↔ j < k := by omega
      simp [hjk, this]

theorem add_offset_eq_translate (nd : Nat) (corner offset : List Int)
    (hc : corner.length = nd) : add_offset nd corner offset = translate nd corner offset := by
  obtain ⟨h1, h2⟩ := add_offset_fold corner offset nd
  apply ext_getD
  · rw [length_translate]; unfold add_offset; rw [h1, hc]
  · intro j hj
    unfold add_offset at hj ⊢
    rw [h1, hc] at hj
    rw [h2 j, getD_translate, if_pos hj, if_pos ⟨hj, by rw [hc]; exact hj⟩]

theorem set_bound_fold (b v : List Int) :
    ∀ k, ((List.range k).foldl (fun v1 i => v1.set i (b.getD i 0)) v).length = v.length ∧
      ∀ j, ((List.range k).foldl (fun v1 i => v1.set i (b.getD i 0)) v).getD j 0 =
        if j < k ∧ j < v.length then b.getD j 0 else v.getD j 0
  | 0 => by simp
  | k + 1 => by
    obtain ⟨ih1, ih2⟩ := set_bound_fold b v k
    rw [List.range_succ, List.foldl_append]
    simp only [List.foldl_cons, List.foldl_nil, List.length_set]
    refine ⟨ih1, ?_⟩
    intro j
    rw [getD_set, ih1, ih2 j]
    by_cases hjk : k = j
    · subst hjk
      by_cases hl : k < v.length
      · simp [hl]
      · simp [hl]
    · have : j < k + 1 ↔ j < k := by omega
      simp [hjk, this]

theorem length_resize (v : List Int) (n : Nat) : (resize v n).length = n := by
  simp only [resize, List.length_append, List.length_take, List.length_replicate]
  omega

theorem length_set_bound (nd : Nat) (old b : List Int) : (set_bound nd old b).length = nd := by
  unfold set_bound
  simp only
  rw [(set_bound_fold b (resize old nd) _).1, length_resize]

theorem set_bound_full (nd : Nat) (old b : List Int) (hb : b.length = nd) :
    set_bound nd old b = b := by
  apply ext_getD (by rw [length_set_bound, hb])
  intro j hj
  rw [length_set_bound] at hj
  unfold set_bound
  simp only
  rw [(set_bound_fold b (resize old nd) _).2 j, length_resize, hb, Nat.min_self,
    if_pos ⟨hj, hj⟩]

theorem vec_lt_iff_lex : ∀ a b : List Int,
    vec_lt a b = true ↔ List.Lex (fun x y : Int => x < y) a b
  | [], [] => by simp [vec_lt, lex_lt]
  | [], _ :: _ => by simp [vec_lt, lex_lt, List.Lex.nil]
  | _ :: _, [] => by simp [vec_lt, lex_lt]
  | a :: as, b :: bs => by
    have ih := vec_lt_iff_lex as bs
    unfold vec_lt at ih ⊢
    rw [lex_lt_cons int_lt_strictTotal, ih]
    constructor
    · rintro (h | ⟨rfl, h⟩)
      · exact List.Lex.rel (by simpa [int_lt] using h)
      · exact List.Lex.cons h
    · intro h
      cases h with
      | rel h => exact Or.inl (by simpa [int_lt] using h)
      | cons h => exact Or.inr ⟨rfl, h⟩



open regular_simplex_mesh regular_simplex_mesh_element

/-! ## The order of elements -/

theorem element_lt_iff (a b : regular_simplex_mesh_element) :
    lt a b = true ↔
      vec_lt a.corner b.corner = true ∨ (a.corner = b.corner ∧ a.type < b.type) := by
  unfold regular_simplex_mesh_element.lt
  by_cases h1 : vec_lt a.corner b.corner = true
  · simp [h1]
  · by_cases h2 : a.corner = b.corner
    · simp [h1, h2]
    · simp [h1, h2]

theorem element_incomparable_iff (a b : regular_simplex_mesh_element) :
    (lt a b = false ∧ lt b a = false) ↔ (a.corner = b.corner ∧ a.type = b.type) := by
  have hab := element_lt_iff a b
  have hba := element_lt_iff b a
  constructor
  · rintro ⟨h1, h2⟩
    rw [h1] at hab
    rw [h2] at hba
    have h3 : ¬ (vec_lt a.corner b.corner = true ∨ (a.corner = b.corner ∧ a.type < b.type)) :=
      fun h => absurd (hab.2 h) (by decide)
    have h4 : ¬ (vec_lt b.corner a.corner = true ∨ (b.corner = a.corner ∧ b.type < a.type)) :=
      fun h => absurd (hba.2 h) (by decide)
    push_neg at h3 h4
    have e : a.corner = b.corner :=
      vec_lt_strictTotal.tri _ _ (by simpa using h3.1) (by simpa using h4.1)
    have := h3.2 e
    have := h4.2 e.symm
    exact ⟨e, by omega⟩
  · rintro ⟨h1, h2⟩
    have hirr := vec_lt_strictTotal.irrefl b.corner
    constructor
    · cases h : lt a b with
      | false => rfl
      | true =>
        rcases hab.1 h with h3 | ⟨_, h3⟩
        · rw [h1, hirr] at h3; exact absurd h3 (by decide)
        · omega
    · cases h : lt b a with
      | false => rfl
      | true =>
        rcases hba.1 h with h3 | ⟨_, h3⟩
        · rw [h1, hirr] at h3; exact absurd h3 (by decide)
        · omega

theorem element_lt_irrefl (a : regular_simplex_mesh_element) : lt a a = false := by
  cases h : lt a a with
  | false => rfl
  | true =>
    rcases (element_lt_iff a a).1 h with h1 | ⟨_, h1⟩
    · rw [vec_lt_strictTotal.irrefl] at h1; exact absurd h1 (by decide)
    · omega

theorem element_lt_trans (a b c : regular_simplex_mesh_element) (hab : lt a b = true)
    (hbc : lt b c = true) : lt a c = true := by
  rw [element_lt_iff] at hab hbc ⊢
  rcases hab with h1 | ⟨h1, h2⟩
  · rcases hbc with h3 | ⟨h3, _⟩
    · exact Or.inl (vec_lt_strictTotal.trans _ _ _ h1 h3)
    · exact Or.inl (h3 ▸ h1)
  · rcases hbc with h3 | ⟨h3, h4⟩
    · exact Or.inl (h1 ▸ h3)
    · exact Or.inr ⟨h1.trans h3, by omega⟩

/-- C9: `operator<` of elements compares the corners lexicographically and then the
types, and it is a strict weak order: irreflexive, transitive, with a transitive
incomparability relation. -/
theorem C9_element_lt_strict_weak_order (a b c : regular_simplex_mesh_element) :
    (lt a b = true ↔
      (List.Lex (fun x y : Int => x < y) a.corner b.corner ∨
        (a.corner = b.corner ∧ a.type < b.type))) ∧
    lt a a = false ∧
    (lt a b = true → lt b c = true → lt a c = true) ∧
    ((lt a b = false ∧ lt b a = false) → (lt b c = false ∧ lt c b = false) →
      (lt a c = false ∧ lt c a = false)) := by
  refine ⟨?_, element_lt_irrefl a, element_lt_trans a b c, ?_⟩
  · rw [element_lt_iff, vec_lt_iff_lex]
  · intro h1 h2
    rw [element_incomparable_iff] at h1 h2 ⊢
    exact ⟨h1.1.trans h2.1, h1.2.trans h2.2⟩

/-- C9 at three concrete elements of increasing order. -/
theorem C9_element_lt_witness :
    lt { corner := [0, 1], dim := 1, type := 2 } { corner := [0, 2], dim := 1, type := 0 } =
        true ∧
      lt { corner := [0, 2], dim := 1, type := 0 } { corner := [0, 2], dim := 2, type := 1 } =
        true ∧
      lt { corner := [0, 1], dim := 1, type := 2 } { corner := [0, 2], dim := 2, type := 1 } =
        true :=
  ⟨by decide, by decide,
    (C9_element_lt_strict_weak_order { corner := [0, 1], dim := 1, type := 2 }
      { corner := [0, 2], dim := 1, type := 0 }
      { corner := [0, 2], dim := 2, type := 1 }).2.2.1 (by decide) (by decide)⟩

theorem element_eq_iff (a b : regular_simplex_mesh_element) :
    regular_simplex_mesh_element.eq a b = true ↔
      a.dim = b.dim ∧ a.type = b.type ∧ a.corner = b.corner := by
  simp [regular_simplex_mesh_element.eq, and_assoc]

/-- C10 fails as stated: two elements of the mesh of dimension 1 with the same corner and
type but different dimensions are neither `<`-related nor `==`. -/
theorem C10_counterexample :
    create 1 = some mesh_one ∧
      (0 : Int) < mesh_one.ntypes 0 ∧ (0 : Int) < mesh_one.ntypes 1 ∧
      lt { corner := [0], dim := 0, type := 0 } { corner := [0], dim := 1, type := 0 } = false ∧
      lt { corner := [0], dim := 1, type := 0 } { corner := [0], dim := 0, type := 0 } = false ∧
      regular_simplex_mesh_element.eq { corner := [0], dim := 0, type := 0 }
        { corner := [0], dim := 1, type := 0 } = false :=
  ⟨create_one, by decide, by decide, by decide, by decide, by decide⟩

/-- C10 (amended): among elements of one dimension exactly one of `a < b`, `a == b`,
`b < a` holds; for elements of any dimensions `a == b` implies that neither `a < b` nor
`b < a` holds, and neither holds exactly when the corners and the types are equal. -/
theorem C10_element_trichotomy (a b : regular_simplex_mesh_element) :
    (a.dim = b.dim →
      ((lt a b = true ∧ regular_simplex_mesh_element.eq a b = false ∧ lt b a = false) ∨
        (lt a b = false ∧ regular_simplex_mesh_element.eq a b = true ∧ lt b a = false) ∨
        (lt a b = false ∧ regular_simplex_mesh_element.eq a b = false ∧ lt b a = true))) ∧
    (regular_simplex_mesh_element.eq a b = true → lt a b = false ∧ lt b a = false) ∧
    ((lt a b = false ∧ lt b a = false) ↔ (a.corner = b.corner ∧ a.type = b.type)) := by
  have hinc := element_incomparable_iff a b
  have heq := element_eq_iff a b
  refine ⟨?_, ?_, hinc⟩
  · intro hd
    cases hab : lt a b with
    | true =>
      have hba : lt b a = false := by
        cases hba : lt b a with
        | false => rfl
        | true =>
          have := element_lt_trans a b a hab hba
          rw [element_lt_irrefl] at this
          exact absurd this (by decide)
      refine Or.inl ⟨rfl, ?_, hba⟩
      cases he : regular_simplex_mesh_element.eq a b with
      | false => rfl
      | true =>
        have h1 := heq.1 he
        have := hinc.2 ⟨h1.2.2, h1.2.1⟩
        rw [hab] at this
        exact absurd this.1 (by decide)
    | false =>
      cases hba : lt b a with
      | true =>
        refine Or.inr (Or.inr ⟨rfl, ?_, rfl⟩)
        cases he : regular_simplex_mesh_element.eq a b with
        | false => rfl
        | true =>
          have h1 := heq.1 he
          have := hinc.2 ⟨h1.2.2, h1.2.1⟩
          rw [hba] at this
          exact absurd this.2 (by decide)
      | false =>
        have h1 := hinc.1 ⟨hab, hba⟩
        exact Or.inr (Or.inl ⟨rfl, heq.2 ⟨hd, h1.2, h1.1⟩, rfl⟩)
  · intro he
    have h1 := heq.1 he
    exact hinc.2 ⟨h1.2.2, h1.2.1⟩

/-- C10 (amended) at two concrete elements of the same dimension. -/
theorem C10_element_trichotomy_witness :
    (lt { corner := [0, 1], dim := 1, type := 2 } { corner := [0, 2], dim := 1, type := 0 } =
        true ∧
      regular_simplex_mesh_element.eq { corner := [0, 1], dim := 1, type := 2 }
        { corner := [0, 2], dim := 1, type := 0 } = false ∧
      lt { corner := [0, 2], dim := 1, type := 0 } { corner := [0, 1], dim := 1, type := 2 } =
        false) ∨
    (lt { corner := [0, 1], dim := 1, type := 2 } { corner := [0, 2], dim := 1, type := 0 } =
        false ∧
      regular_simplex_mesh_element.eq { corner := [0, 1], dim := 1, type := 2 }
        { corner := [0, 2], dim := 1, type := 0 } = true ∧
      lt { corner := [0, 2], dim := 1, type := 0 } { corner := [0, 1], dim := 1, type := 2 } =
        false) ∨
    (lt { corner := [0, 1], dim := 1, type := 2 } { corner := [0, 2], dim := 1, type := 0 } =
        false ∧
      regular_simplex_mesh_element.eq { corner := [0, 1], dim := 1, type := 2 }
        { corner := [0, 2], dim := 1, type := 0 } = false ∧
      lt { corner := [0, 2], dim := 1, type := 0 } { corner := [0, 1], dim := 1, type := 2 } =
        true) :=
  (C10_element_trichotomy { corner := [0, 1], dim := 1, type := 2 }
    { corner := [0, 2], dim := 1, type := 0 }).1 rfl



open regular_simplex_mesh regular_simplex_mesh_element

/-! ## Vertices and validity -/

theorem create_spec_of_pos (n : Nat) (hn : 1 ≤ n) : ∃ m, create n = some m ∧ mesh_spec n m := by
  obtain ⟨k, rfl⟩ : ∃ k, n = k + 1 := ⟨n - 1, by omega⟩
  exact create_spec k

theorem vertices_set_bounds (m : regular_simplex_mesh) (lb ub : List Int)
    (e : regular_simplex_mesh_element) :
    vertices ((m.set_lb lb).set_ub ub) e = vertices m e := rfl

theorem length_of_mem_vertices (m : regular_simplex_mesh) (e : regular_simplex_mesh_element)
    (v : List Int) (hv : v ∈ vertices m e) : v.length = m.nd := by
  rw [vertices_eq, List.mem_map] at hv
  obtain ⟨u, _, rfl⟩ := hv
  exact length_translate _ _ _

theorem getD_map_lt {α β : Type} (f : α → β) (l : List α) (d1 : α) (d2 : β) (i : Nat)
    (hi : i < l.length) : (l.map f).getD i d2 = f (l.getD i d1) := by
  rw [List.getD_eq_getElem _ _ (by simpa using hi), List.getElem_map,
    List.getD_eq_getElem _ _ hi]

/-- C8: in a mesh of dimension `n ≥ 1` (with any bounds) the element `(d, t, c)` with
`d ≤ n`, `0 ≤ t < ntypes(d)` and a corner of length `n` has exactly `d + 1` vertices, each
of length `n`, and vertex `i` has coordinate `j` equal to `c[j] + unit_simplex(d, t)[i][j]`. -/
theorem C8_vertices_shape (n : Nat) (hn : 1 ≤ n) :
    ∃ m, create n = some m ∧
      ∀ (lb ub : List Int) (d : Nat) (t : Int) (c : List Int), d ≤ n → 0 ≤ t →
        t < ((m.set_lb lb).set_ub ub).ntypes d → c.length = n →
        (vertices ((m.set_lb lb).set_ub ub) { corner := c, dim := d, type := t }).length =
            d + 1 ∧
          (∀ v ∈ vertices ((m.set_lb lb).set_ub ub) { corner := c, dim := d, type := t },
            v.length = n) ∧
          ∀ i j, i < d + 1 → j < n →
            ((vertices ((m.set_lb lb).set_ub ub)
                { corner := c, dim := d, type := t }).getD i []).getD j 0 =
              c.getD j 0 + ((((m.set_lb lb).set_ub ub).unit_simplex d t).getD i []).getD j 0 := by
  obtain ⟨k, rfl⟩ : ∃ k, n = k + 1 := ⟨n - 1, by omega⟩
  obtain ⟨m, hm, hs⟩ := create_spec k
  refine ⟨m, hm, ?_⟩
  intro lb ub d t c hd ht0 htT _
  have hwf := (unit_simplex_wf_of_spec hs d hd t ht0 htT).1
  rw [vertices_set_bounds]
  refine ⟨?_, ?_, ?_⟩
  · rw [vertices_eq, List.length_map]
    exact hwf.1
  · intro v hv
    rw [length_of_mem_vertices m _ v hv]
    exact hs.nd_eq
  · intro i j hi hj
    have hi' : i < (m.unit_simplex d t).length := by rw [hwf.1]; exact hi
    show ((vertices m { corner := c, dim := d, type := t }).getD i []).getD j 0 =
      c.getD j 0 + ((m.unit_simplex d t).getD i []).getD j 0
    rw [vertices_eq]
    simp only [regular_simplex_mesh.nd, hs.nd_eq]
    rw [getD_map_lt _ _ [] [] i hi', getD_translate, if_pos hj]

/-- C8 at the segment of type 0 at corner `(5)` of the mesh of dimension 1. -/
theorem C8_vertices_shape_witness :
    (vertices ((mesh_one.set_lb [0]).set_ub [3]) { corner := [5], dim := 1, type := 0 }).length =
        1 + 1 ∧
      ((vertices ((mesh_one.set_lb [0]).set_ub [3])
          { corner := [5], dim := 1, type := 0 }).getD 1 []).getD 0 0 =
        ([5] : List Int).getD 0 0 +
          ((((mesh_one.set_lb [0]).set_ub [3]).unit_simplex 1 0).getD 1 []).getD 0 0 := by
  obtain ⟨m, hm, h⟩ := C8_vertices_shape 1 (le_refl 1)
  rw [create_one] at hm
  cases hm
  have h1 := h [0] [3] 1 0 [5] (le_refl 1) (le_refl 0) (by decide) rfl
  exact ⟨h1.1, h1.2.2 1 0 (by decide) (by decide)⟩

theorem ntypes_set_bounds (m : regular_simplex_mesh) (lb ub : List Int) (d : Nat) :
    ((m.set_lb lb).set_ub ub).ntypes d = m.ntypes d := rfl

/-- C7: in a mesh of dimension `n ≥ 1` with any bounds, `valid()` is false for a type
outside `[0, ntypes(dim))`, in particular for `element_end(d)`, and for a type inside the
range it is true exactly when every coordinate of every vertex is within the bounds of
its axis. -/
theorem C7_valid_iff_vertices_in_bounds (n : Nat) (hn : 1 ≤ n) :
    ∃ m, create n = some m ∧
      ∀ (lb ub : List Int) (e : regular_simplex_mesh_element), e.dim ≤ n →
        e.corner.length = n →
        ((e.type < 0 ∨ ((m.set_lb lb).set_ub ub).ntypes e.dim ≤ e.type) →
          valid ((m.set_lb lb).set_ub ub) e = false) ∧
        valid ((m.set_lb lb).set_ub ub) (((m.set_lb lb).set_ub ub).element_end e.dim) = false ∧
        (0 ≤ e.type → e.type < ((m.set_lb lb).set_ub ub).ntypes e.dim →
          (valid ((m.set_lb lb).set_ub ub) e = true ↔
            ∀ v ∈ vertices ((m.set_lb lb).set_ub ub) e, ∀ j, j < n →
              ((m.set_lb lb).set_ub ub).lb j ≤ v.getD j 0 ∧
                v.getD j 0 ≤ ((m.set_lb lb).set_ub ub).ub j)) := by
  obtain ⟨m, hm, hs⟩ := create_spec_of_pos n hn
  refine ⟨m, hm, ?_⟩
  intro lb ub e _ _
  refine ⟨?_, ?_, ?_⟩
  · intro h
    unfold valid
    rw [if_pos (by rcases h with h | h; exact Or.inl h; exact Or.inr h)]
  · have h1 : (((m.set_lb lb).set_ub ub).element_end e.dim).type ≥
        ((m.set_lb lb).set_ub ub).ntypes (((m.set_lb lb).set_ub ub).element_end e.dim).dim :=
      le_refl _
    unfold valid
    rw [if_pos (Or.inr h1)]
  · intro h0 hT
    unfold valid
    rw [if_neg (by omega)]
    simp only [List.all_eq_true, List.mem_range, Bool.not_eq_true', Bool.or_eq_false_iff,
      decide_eq_false_iff_not, not_lt]
    constructor
    · intro h v hv j hj
      have hl : v.length = n := by
        rw [length_of_mem_vertices _ _ v hv]; exact hs.nd_eq
      have := h v hv j (by rw [hl]; exact hj)
      exact ⟨this.1, this.2⟩
    · intro h v hv j hj
      have hl : v.length = n := by
        rw [length_of_mem_vertices _ _ v hv]; exact hs.nd_eq
      have := h v hv j (by rw [← hl]; exact hj)
      exact ⟨this.1, this.2⟩

/-- C7 at the mesh of dimension 1 with bounds `[0, 3]`: the segment at corner 2 is valid,
the segment at corner 3 (its second vertex is 4) is not. -/
theorem C7_valid_witness :
    valid ((mesh_one.set_lb [0]).set_ub [3]) { corner := [2], dim := 1, type := 0 } = true ∧
      valid ((mesh_one.set_lb [0]).set_ub [3]) { corner := [3], dim := 1, type := 1 } = false := by
  obtain ⟨m, hm, h⟩ := C7_valid_iff_vertices_in_bounds 1 (le_refl 1)
  rw [create_one] at hm
  cases hm
  refine ⟨?_, ?_⟩
  · refine ((h [0] [3] { corner := [2], dim := 1, type := 0 } (le_refl 1) rfl).2.2
      (by decide) (by decide)).2 ?_
    decide
  · exact (h [0] [3] { corner := [3], dim := 1, type := 1 } (le_refl 1) rfl).1
      (Or.inr (by decide))



open regular_simplex_mesh regular_simplex_mesh_element

/-! ## Faces and cofaces -/

theorem getD_map_neg (c : List Int) (j : Nat) :
    (c.map fun x => -x).getD j 0 = -c.getD j 0 := by
  by_cases hj : j < c.length
  · rw [getD_map_lt _ _ 0 0 j hj]
  · rw [getD_of_length_le _ _ (by simpa using hj), getD_of_length_le _ _ (by omega)]
    rfl

theorem translate_neg_translate (n : Nat) (c v : List Int) (hv : v.length = n) :
    translate n (c.map fun x => -x) (translate n c v) = v := by
  apply ext_getD (by rw [length_translate, hv])
  intro j hj
  rw [length_translate] at hj
  simp only [getD_translate, if_pos hj, getD_map_neg]
  omega

theorem translate_translate_neg (n : Nat) (c v : List Int) (hv : v.length = n) :
    translate n c (translate n (c.map fun x => -x) v) = v := by
  apply ext_getD (by rw [length_translate, hv])
  intro j hj
  rw [length_translate] at hj
  simp only [getD_translate, if_pos hj, getD_map_neg]
  omega

theorem translate_diff (n : Nat) (a b : List Int) (ha : a.length = n) :
    translate n b (translate n a (b.map fun x => -x)) = a := by
  apply ext_getD (by rw [length_translate, ha])
  intro j hj
  rw [length_translate] at hj
  simp only [getD_translate, if_pos hj, getD_map_neg]
  omega

theorem translate_assoc (n : Nat) (a b v : List Int) :
    translate n (translate n a b) v = translate n a (translate n b v) := by
  apply ext_getD (by simp [length_translate])
  intro j hj
  rw [length_translate] at hj
  simp only [getD_translate, if_pos hj]
  omega

/-- C1: in a mesh of dimension `n ≥ 1`, for `d < n`, a type `t` of dimension `d`, a type
`P` of dimension `d + 1` and an offset `c` of length `n`: the scan
`enumerate_unit_simplex_side_of(d, t)` comes to its end, and `(P, c)` is an entry of its
table if and only if `(t, -c)` is an entry of `enumerate_unit_simplex_sides(d+1, P)`. -/
theorem C1_sides_side_of_inverse (n : Nat) (hn : 1 ≤ n) :
    ∃ m, create n = some m ∧
      ∀ (d t P : Nat) (c : List Int), d < n → (t : Int) < m.ntypes d →
        (P : Int) < m.ntypes (d + 1) → c.length = n →
        ∃ table, m.enumerate_unit_simplex_side_of d t = some table ∧
          (((P : Int), c) ∈ table ↔
            ((t : Int), c.map fun x => -x) ∈ m.enumerate_unit_simplex_sides (d + 1) P) := by
  obtain ⟨k, rfl⟩ : ∃ k, n = k + 1 := ⟨n - 1, by omega⟩
  obtain ⟨m, hm, hs⟩ := create_spec k
  refine ⟨m, hm, ?_⟩
  intro d t P c hd ht hP hc
  have htn : t < (enumerate_unit_simplices (k + 1) (k + 1) d).length := by
    rw [hs.ntypes_eq d (by omega)] at ht; omega
  have hPn : P < (enumerate_unit_simplices (k + 1) (k + 1) (d + 1)).length := by
    rw [hs.ntypes_eq (d + 1) (by omega)] at hP; omega
  refine ⟨_, hs.side_of_eq d t (by omega) htn, ?_⟩
  have h1 := side_of_mem_iff hs d hd (t : Int) (by omega) ht (P : Int) c
  have h2 := sides_mem_iff hs d (by omega) (P : Int) (by omega) hP (t : Int)
    (c.map fun x => -x)
  rw [Int.toNat_ofNat] at h1 h2
  rw [hs.sides_eq (d + 1) P (by omega) hPn] at h2
  rw [h1, h2]
  obtain ⟨hUwf, _⟩ := unit_simplex_wf_of_spec hs d (by omega) (t : Int) (by omega) ht
  obtain ⟨hSwf, _⟩ := unit_simplex_wf_of_spec hs (d + 1) (by omega) (P : Int) (by omega) hP
  constructor
  · rintro ⟨_, _, _, hsub⟩
    refine ⟨by omega, ht, by simpa using hc, ?_⟩
    intro u hu
    have := hsub u hu
    rw [List.mem_map] at this
    obtain ⟨s, hs1, rfl⟩ := this
    rw [translate_neg_translate (k + 1) c s (hSwf.2.1 s hs1).1]
    exact hs1
  · rintro ⟨_, _, _, hsub⟩
    refine ⟨by omega, hP, hc, ?_⟩
    intro u hu
    rw [List.mem_map]
    exact ⟨_, hsub u hu, translate_translate_neg (k + 1) c u (hUwf.2.1 u hu).1⟩

/-- C1 in the mesh of dimension 2: the edge of type 1 is a side of the triangle of type 0
at offset `(0, 1)`, and the triangle is listed as its coface at corner `(0, -1)`. -/
theorem C1_sides_side_of_inverse_witness :
    ∃ table, mesh_two.enumerate_unit_simplex_side_of 1 1 = some table ∧
      (((0 : Nat) : Int), [0, -1]) ∈ table ∧
      (((1 : Nat) : Int), ([0, -1] : List Int).map fun x => -x) ∈
        mesh_two.enumerate_unit_simplex_sides (1 + 1) 0 := by
  obtain ⟨m, hm, h⟩ := C1_sides_side_of_inverse 2 (by decide)
  rw [create_two] at hm
  cases hm
  obtain ⟨table, h1, h2⟩ := h 1 1 0 [0, -1] (by decide) (by decide) (by decide) rfl
  have h3 : (((1 : Nat) : Int), ([0, -1] : List Int).map fun x => -x) ∈
      mesh_two.enumerate_unit_simplex_sides (1 + 1) 0 := by decide
  exact ⟨table, h1, h2.2 h3, h3⟩

theorem mem_sides_iff (m : regular_simplex_mesh) (e f : regular_simplex_mesh_element)
    (h0 : 0 ≤ e.type) :
    f ∈ sides m e ↔
      ∃ o, (f.type, o) ∈ (m.unit_simplex_sides.getD e.dim []).getD e.type.toNat [] ∧
        f.corner = add_offset m.nd e.corner o ∧ f.dim = e.dim - 1 := by
  unfold sides
  rw [if_neg (by omega), List.mem_map]
  constructor
  · rintro ⟨⟨t1, o⟩, hs, rfl⟩
    exact ⟨o, hs, rfl, rfl⟩
  · rintro ⟨o, hs, hc, hd⟩
    refine ⟨(f.type, o), hs, ?_⟩
    cases f
    simp only at hc hd
    simp only [hc, hd]

theorem mem_side_of_iff (m : regular_simplex_mesh) (e f : regular_simplex_mesh_element)
    (h0 : 0 ≤ e.type) :
    f ∈ side_of m e ↔
      ∃ o, (f.type, o) ∈ (m.unit_simplex_side_of.getD e.dim []).getD e.type.toNat [] ∧
        f.corner = add_offset m.nd e.corner o ∧ f.dim = e.dim + 1 := by
  unfold side_of
  rw [if_neg (by omega), List.mem_map]
  constructor
  · rintro ⟨⟨t1, o⟩, hs, rfl⟩
    exact ⟨o, hs, rfl, rfl⟩
  · rintro ⟨o, hs, hc, hd⟩
    refine ⟨(f.type, o), hs, ?_⟩
    cases f
    simp only at hc hd
    simp only [hc, hd]

/-- The loop of `sides` and `side_of` that adds an offset keeps the length of the corner. -/
theorem length_add_offset (nd : Nat) (corner offset : List Int) :
    (add_offset nd corner offset).length = corner.length := by
  unfold add_offset
  exact (add_offset_fold corner offset nd).1

set_option maxRecDepth 100000 in
/-- C5 fails as stated: in the mesh of dimension 2, take the triangle `e` of type 0 at the
corner `(3, 4)` and the edge `f` of type 1 with the corner `(3, 5, 99)` of length 3. Both
types are in range and every vertex of `f` is a vertex of `e` (the vertices read the
first two coordinates of a corner only), but `f` is not an element of `e.sides()`, whose
corners are copies of the corner of `e` and have length 2. -/
theorem C5_counterexample :
    create 2 = some mesh_two ∧
      (0 : Int) < mesh_two.ntypes 2 ∧ (1 : Int) < mesh_two.ntypes 1 ∧
      (∀ v ∈ vertices mesh_two { corner := [3, 5, 99], dim := 1, type := 1 },
        v ∈ vertices mesh_two { corner := [3, 4], dim := 2, type := 0 }) ∧
      ({ corner := [3, 5, 99], dim := 1, type := 1 } : regular_simplex_mesh_element) ∉
        sides mesh_two { corner := [3, 4], dim := 2, type := 0 } :=
  ⟨create_two, by decide, by decide, by decide, by decide⟩

/-- C5 (amended): in a mesh of dimension `n ≥ 1`, for an element `e` of dimension
`1 ≤ k ≤ n` with a type in range and a corner of length `n`: an element `f` of dimension
`k - 1` with a type in range and any corner occurs in `e.sides()` if and only if the
corner of `f` has length `n` and every vertex of `f` is a vertex of `e`; and every element
of `e.sides()` has dimension `k - 1`, a type in range and the corner of `e` plus the offset
of its table entry. -/
theorem C5_sides_are_faces (n : Nat) (hn : 1 ≤ n) :
    ∃ m, create n = some m ∧
      ∀ e : regular_simplex_mesh_element, 1 ≤ e.dim → e.dim ≤ n → 0 ≤ e.type →
        e.type < m.ntypes e.dim → e.corner.length = n →
        (∀ f : regular_simplex_mesh_element, f.dim = e.dim - 1 → 0 ≤ f.type →
          f.type < m.ntypes f.dim →
          (f ∈ sides m e ↔
            f.corner.length = n ∧ ∀ v ∈ vertices m f, v ∈ vertices m e)) ∧
        ∀ g ∈ sides m e, g.dim = e.dim - 1 ∧ 0 ≤ g.type ∧ g.type < m.ntypes (e.dim - 1) ∧
          ∃ s ∈ (m.unit_simplex_sides.getD e.dim []).getD e.type.toNat [],
            g.type = s.1 ∧ g.corner.length = n ∧
              ∀ j, j < n → g.corner.getD j 0 = e.corner.getD j 0 + s.2.getD j 0 := by
  obtain ⟨k, rfl⟩ : ∃ k, n = k + 1 := ⟨n - 1, by omega⟩
  obtain ⟨m, hm, hs⟩ := create_spec k
  refine ⟨m, hm, ?_⟩
  intro e hd1 hd h0 hT hc
  obtain ⟨d, hde⟩ : ∃ d, e.dim = d + 1 := ⟨e.dim - 1, by omega⟩
  have hnd : m.nd = k + 1 := hs.nd_eq
  rw [hde] at hT hd
  obtain ⟨hSwf, _⟩ := unit_simplex_wf_of_spec hs (d + 1) hd e.type h0 hT
  constructor
  · intro f hfd hf0 hfT
    have hfd' : f.dim = d := by rw [hfd, hde]; rfl
    rw [hfd'] at hfT
    obtain ⟨hUwf, _⟩ := unit_simplex_wf_of_spec hs d (by omega) f.type hf0 hfT
    rw [mem_sides_iff m e f h0, vertices_eq, vertices_eq, hnd, hde, hfd']
    constructor
    · rintro ⟨o, hmem, hcor, _⟩
      obtain ⟨_, _, ho, hsub⟩ := (sides_mem_iff hs d hd e.type h0 hT f.type o).1 hmem
      refine ⟨by rw [hcor, length_add_offset, hc], ?_⟩
      rw [add_offset_eq_translate (k + 1) e.corner o hc] at hcor
      intro v hv
      rw [List.mem_map] at hv ⊢
      obtain ⟨u, hu, rfl⟩ := hv
      exact ⟨_, hsub u hu, by rw [hcor, translate_assoc]⟩
    · rintro ⟨hfc, hsub⟩
      refine ⟨translate (k + 1) f.corner (e.corner.map fun x => -x), ?_, ?_, rfl⟩
      · refine (sides_mem_iff hs d hd e.type h0 hT f.type _).2
          ⟨hf0, hfT, length_translate _ _ _, ?_⟩
        intro u hu
        have := hsub _ (List.mem_map_of_mem (translate (k + 1) f.corner) hu)
        rw [List.mem_map] at this
        obtain ⟨s, hs1, hs2⟩ := this
        have e1 : translate (k + 1) e.corner
            (translate (k + 1) (translate (k + 1) f.corner (e.corner.map fun x => -x)) u) =
            translate (k + 1) e.corner s := by
          rw [← translate_assoc, translate_diff (k + 1) f.corner e.corner hfc, hs2]
        have e2 := translate_injective (k + 1) e.corner (length_translate _ _ _)
          (hSwf.2.1 s hs1).1 e1
        rw [e2]
        exact hs1
      · rw [add_offset_eq_translate (k + 1) e.corner _ hc,
          translate_diff (k + 1) f.corner e.corner hfc]
  · intro g hg
    rw [mem_sides_iff m e g h0, hde] at hg
    obtain ⟨o, hmem, hcor, hgd⟩ := hg
    obtain ⟨hg0, hgT, _, _⟩ := (sides_mem_iff hs d hd e.type h0 hT g.type o).1 hmem
    rw [hnd, add_offset_eq_translate (k + 1) e.corner o hc] at hcor
    rw [hde]
    refine ⟨hgd, hg0, hgT, (g.type, o), hmem, rfl, ?_, ?_⟩
    · rw [hcor, length_translate]
    · intro j hj
      rw [hcor, getD_translate, if_pos hj]

/-- C5 (amended) in the mesh of dimension 2: the edge of type 1 at corner `(3, 5)` is a
side of the triangle of type 0 at corner `(3, 4)` and its vertices are vertices of the
triangle; the edge of type 1 with the corner `(3, 5, 99)` of length 3 is not a side. -/
theorem C5_sides_are_faces_witness :
    (({ corner := [3, 5], dim := 1, type := 1 } : regular_simplex_mesh_element) ∈
        sides mesh_two { corner := [3, 4], dim := 2, type := 0 } ∧
      ∀ v ∈ vertices mesh_two { corner := [3, 5], dim := 1, type := 1 },
        v ∈ vertices mesh_two { corner := [3, 4], dim := 2, type := 0 }) ∧
      ({ corner := [3, 5, 99], dim := 1, type := 1 } : regular_simplex_mesh_element) ∉
        sides mesh_two { corner := [3, 4], dim := 2, type := 0 } := by
  obtain ⟨m, hm, h⟩ := C5_sides_are_faces 2 (by decide)
  rw [create_two] at hm
  cases hm
  have h0 := (h { corner := [3, 4], dim := 2, type := 0 } (by decide) (by decide)
    (by decide) (by decide) rfl).1
  have h1 := h0 { corner := [3, 5], dim := 1, type := 1 } rfl (by decide) (by decide)
  have h2 : ({ corner := [3, 5], dim := 1, type := 1 } : regular_simplex_mesh_element) ∈
      sides mesh_two { corner := [3, 4], dim := 2, type := 0 } := by decide
  have h3 := h0 { corner := [3, 5, 99], dim := 1, type := 1 } rfl (by decide) (by decide)
  exact ⟨⟨h2, (h1.1 h2).2⟩, fun hmem => absurd (h3.1 hmem).1 (by decide)⟩

set_option maxRecDepth 100000 in
/-- C6 fails as stated: in the mesh of dimension 2, take the edge `e` of type 1 with the
corner `(3, 5, 99)` of length 3 and the triangle `f` of type 0 at the corner `(3, 4)` of
length 2. Both types are in range and every vertex of `e` is a vertex of `f` (the vertices
read the first two coordinates of a corner only), but `f` is not an element of
`e.side_of()`, whose corners are copies of the corner of `e` and have length 3. -/
theorem C6_counterexample :
    create 2 = some mesh_two ∧
      (1 : Int) < mesh_two.ntypes 1 ∧ (0 : Int) < mesh_two.ntypes 2 ∧
      (∀ v ∈ vertices mesh_two { corner := [3, 5, 99], dim := 1, type := 1 },
        v ∈ vertices mesh_two { corner := [3, 4], dim := 2, type := 0 }) ∧
      ({ corner := [3, 4], dim := 2, type := 0 } : regular_simplex_mesh_element) ∉
        side_of mesh_two { corner := [3, 5, 99], dim := 1, type := 1 } :=
  ⟨create_two, by decide, by decide, by decide, by decide⟩

/-- C6 (amended): in a mesh of dimension `n ≥ 1`, for an element `e` of dimension `k < n`
with a type in range and any corner: an element `f` of dimension `k + 1` with a type in
range and any corner of length `n` occurs in `e.side_of()` if and only if the corner of
`e` has length `n` and every vertex of `e` is a vertex of `f`. -/
theorem C6_side_of_are_cofaces (n : Nat) (hn : 1 ≤ n) :
    ∃ m, create n = some m ∧
      ∀ e f : regular_simplex_mesh_element, e.dim < n → 0 ≤ e.type →
        e.type < m.ntypes e.dim → f.dim = e.dim + 1 → 0 ≤ f.type →
        f.type < m.ntypes f.dim → f.corner.length = n →
        (f ∈ side_of m e ↔
          e.corner.length = n ∧ ∀ v ∈ vertices m e, v ∈ vertices m f) := by
  obtain ⟨k, rfl⟩ : ∃ k, n = k + 1 := ⟨n - 1, by omega⟩
  obtain ⟨m, hm, hs⟩ := create_spec k
  refine ⟨m, hm, ?_⟩
  intro e f hd h0 hT hfd hf0 hfT hfc
  have hnd : m.nd = k + 1 := hs.nd_eq
  rw [hfd] at hfT
  obtain ⟨hUwf, _⟩ := unit_simplex_wf_of_spec hs e.dim (by omega) e.type h0 hT
  obtain ⟨hSwf, _⟩ := unit_simplex_wf_of_spec hs (e.dim + 1) (by omega) f.type hf0 hfT
  rw [mem_side_of_iff m e f h0, vertices_eq, vertices_eq, hnd, hfd]
  constructor
  · rintro ⟨o, hmem, hcor, _⟩
    have hc : e.corner.length = k + 1 := by
      rw [← hfc, hcor, length_add_offset]
    obtain ⟨_, _, ho, hsub⟩ := (side_of_mem_iff hs e.dim hd e.type h0 hT f.type o).1 hmem
    refine ⟨hc, ?_⟩
    rw [add_offset_eq_translate (k + 1) e.corner o hc] at hcor
    intro v hv
    rw [List.mem_map] at hv ⊢
    obtain ⟨u, hu, rfl⟩ := hv
    have := hsub u hu
    rw [List.mem_map] at this
    obtain ⟨s, hs1, rfl⟩ := this
    exact ⟨s, hs1, by rw [hcor, translate_assoc]⟩
  · rintro ⟨hc, hsub⟩
    refine ⟨translate (k + 1) f.corner (e.corner.map fun x => -x), ?_, ?_, rfl⟩
    · refine (side_of_mem_iff hs e.dim hd e.type h0 hT f.type _).2
        ⟨hf0, hfT, length_translate _ _ _, ?_⟩
      intro u hu
      have := hsub _ (List.mem_map_of_mem (translate (k + 1) e.corner) hu)
      rw [List.mem_map] at this ⊢
      obtain ⟨s, hs1, hs2⟩ := this
      refine ⟨s, hs1, ?_⟩
      have e1 : translate (k + 1) e.corner
          (translate (k + 1) (translate (k + 1) f.corner (e.corner.map fun x => -x)) s) =
          translate (k + 1) e.corner u := by
        rw [← translate_assoc, translate_diff (k + 1) f.corner e.corner hfc, hs2]
      exact translate_injective (k + 1) e.corner (length_translate _ _ _)
        (hUwf.2.1 u hu).1 e1
    · rw [add_offset_eq_translate (k + 1) e.corner _ hc,
        translate_diff (k + 1) f.corner e.corner hfc]

/-- C6 (amended) in the mesh of dimension 2: the triangle of type 0 at corner `(3, 4)` is
a coface of the edge of type 1 at corner `(3, 5)`, whose vertices are vertices of the
triangle; it is not a coface of the edge of type 1 with the corner `(3, 5, 99)` of
length 3. -/
theorem C6_side_of_are_cofaces_witness :
    (({ corner := [3, 4], dim := 2, type := 0 } : regular_simplex_mesh_element) ∈
        side_of mesh_two { corner := [3, 5], dim := 1, type := 1 } ∧
      ∀ v ∈ vertices mesh_two { corner := [3, 5], dim := 1, type := 1 },
        v ∈ vertices mesh_two { corner := [3, 4], dim := 2, type := 0 }) ∧
      ({ corner := [3, 4], dim := 2, type := 0 } : regular_simplex_mesh_element) ∉
        side_of mesh_two { corner := [3, 5, 99], dim := 1, type := 1 } := by
  obtain ⟨m, hm, h⟩ := C6_side_of_are_cofaces 2 (by decide)
  rw [create_two] at hm
  cases hm
  have h1 := h { corner := [3, 5], dim := 1, type := 1 }
    { corner := [3, 4], dim := 2, type := 0 } (by decide) (by decide) (by decide) rfl
    (by decide) (by decide) rfl
  have h2 : ({ corner := [3, 4], dim := 2, type := 0 } : regular_simplex_mesh_element) ∈
      side_of mesh_two { corner := [3, 5], dim := 1, type := 1 } := by decide
  have h3 := h { corner := [3, 5, 99], dim := 1, type := 1 }
    { corner := [3, 4], dim := 2, type := 0 } (by decide) (by decide) (by decide) rfl
    (by decide) (by decide) rfl
  exact ⟨⟨h2, (h1.1 h2).2⟩, fun hmem => absurd (h3.1 hmem).1 (by decide)⟩


open regular_simplex_mesh regular_simplex_mesh_element

/-! ## The iteration over the elements -/

theorem counter_size_zero_eq_prod : ∀ ub : List Int,
    counter_size 0 ub = (ub.map fun u => u + 1).prod
  | [] => rfl
  | h :: hi => by
    simp only [counter_size, List.map_cons, List.prod_cons, counter_size_zero_eq_prod hi]
    ring

theorem ub_set_bounds (m : regular_simplex_mesh) (lb ub : List Int) (hub : ub.length = m.nd) :
    ((m.set_lb lb).set_ub ub).ub_ = ub :=
  set_bound_full m.nd _ ub hub

theorem lb_set_bounds (m : regular_simplex_mesh) (lb ub : List Int) (hlb : lb.length = m.nd) :
    ((m.set_lb lb).set_ub ub).lb_ = lb :=
  set_bound_full m.nd _ lb hlb

theorem ntypes_pos {n : Nat} {m : regular_simplex_mesh} (hs : mesh_spec n m) (hn : 1 ≤ n)
    (d : Nat) (hd : d ≤ n) : 0 < m.ntypes d := by
  obtain ⟨k, rfl⟩ : ∃ k, n = k + 1 := ⟨n - 1, by omega⟩
  rw [hs.ntypes_eq d hd]
  have := List.length_pos.2 (enumerate_unit_simplices_ne_nil k d hd)
  omega

/-- The run of the iterator over a mesh with lower bound zero: every state before the
`N`-th is an element of the box, every element of the box is passed exactly once, and the
`N`-th state is `element_end`, for `N = ntypes(d) * prod (ub[i] + 1)`. -/
theorem iteration_run {n : Nat} {m0 : regular_simplex_mesh} (hs : mesh_spec n m0)
    (hn : 1 ≤ n) (ub : List Int) (hub : ub.length = n) (hpos : ∀ x ∈ ub, 0 ≤ x) (d : Nat)
    (hd : d ≤ n) (m : regular_simplex_mesh)
    (hm : m = (m0.set_lb (List.replicate n 0)).set_ub ub) :
    (((m.ntypes d * (ub.map fun u => u + 1).prod).toNat : Nat) : Int) =
        m.ntypes d * (ub.map fun u => u + 1).prod ∧
    (∀ k, k < (m.ntypes d * (ub.map fun u => u + 1).prod).toNat →
      ∃ e, iterate_incr m k (m.element_begin d) = some e ∧ e ≠ m.element_end d ∧
        e.dim = d ∧ in_box 0 e.corner ub ∧ 0 ≤ e.type ∧ e.type < m.ntypes d) ∧
    (∀ (corner : List Int) (type : Int), in_box 0 corner ub → 0 ≤ type →
      type < m.ntypes d →
      ∃ k, k < (m.ntypes d * (ub.map fun u => u + 1).prod).toNat ∧
        iterate_incr m k (m.element_begin d) =
          some { corner := corner, dim := d, type := type } ∧
        ∀ k1, k1 < (m.ntypes d * (ub.map fun u => u + 1).prod).toNat →
          iterate_incr m k1 (m.element_begin d) =
            some { corner := corner, dim := d, type := type } → k1 = k) ∧
    iterate_incr m (m.ntypes d * (ub.map fun u => u + 1).prod).toNat (m.element_begin d) =
      some (m.element_end d) := by
  have hnd : m0.nd = n := hs.nd_eq
  have hubm : m.ub_ = ub := by rw [hm]; exact ub_set_bounds m0 _ ub (by rw [hnd, hub])
  have hlbm : m.lb_ = List.replicate m.ub_.length 0 := by
    rw [hubm, hub, hm]; exact lb_set_bounds m0 _ ub (by rw [hnd]; simp)
  have hT : 0 < m.ntypes d := by rw [hm]; exact ntypes_pos hs hn d hd
  have hpos' : ∀ h ∈ m.ub_, 0 ≤ h := by rw [hubm]; exact hpos
  have hspec := iterate_incr_spec m d hlbm hpos' hT
  have hend := iterate_incr_end m d hlbm hpos' hT
  rw [hubm] at hspec hend
  rw [← counter_size_zero_eq_prod]
  have hsz := counter_size_pos 0 ub ub (in_box_hi 0 _ hpos)
  have hN : 0 < m.ntypes d * counter_size 0 ub := Int.mul_pos hT hsz
  refine ⟨Int.toNat_of_nonneg (le_of_lt hN), ?_, ?_, hend⟩
  · intro k hk
    obtain ⟨c, t, h1, h2, h3, h4, _⟩ := hspec k (by omega)
    refine ⟨_, h1, ?_, rfl, h2, h3, h4⟩
    intro e
    have := congrArg regular_simplex_mesh_element.type e
    simp only [element_end] at this
    omega
  · intro corner type hb h0 h1
    have hr := state_rank_lt 0 (m.ntypes d) ub corner type hb h0 h1
    refine ⟨(type + m.ntypes d * counter_rank 0 corner ub).toNat, by omega, ?_, ?_⟩
    · obtain ⟨c, t, e1, e2, e3, e4, e5⟩ := hspec
        (type + m.ntypes d * counter_rank 0 corner ub).toNat (by omega)
      obtain ⟨rfl, rfl⟩ := state_rank_injective 0 (m.ntypes d) ub c corner t type e2 hb e3 e4
        h0 h1 (by omega)
      exact e1
    · intro k1 hk1 he
      obtain ⟨c, t, e1, e2, e3, e4, e5⟩ := hspec k1 (by omega)
      rw [e1] at he
      simp only [Option.some.injEq, regular_simplex_mesh_element.mk.injEq] at he
      obtain ⟨rfl, _, rfl⟩ := he
      omega

/-- C2: in a mesh of dimension `n ≥ 1` with `lb = (0,...,0)` and `ub ≥ 0`, for `d ≤ n`
and `N = ntypes(d) * prod (ub[i] + 1)`: each of the first `N` states of the iteration
from `element_begin(d)` is a pair `(corner, type)` of the box, different from
`element_end(d)`; every pair of the box is visited at exactly one step before `N`; and the
state after exactly `N` increments is `element_end(d)`. -/
theorem C2_iteration_visits_box_once (n : Nat) (hn : 1 ≤ n) (ub : List Int)
    (hub : ub.length = n) (hpos : ∀ x ∈ ub, 0 ≤ x) (d : Nat) (hd : d ≤ n) :
    ∃ (m0 m : regular_simplex_mesh) (N : Nat), create n = some m0 ∧ m = (m0.set_lb (List.replicate n 0)).set_ub ub ∧
      (N : Int) = m.ntypes d * (ub.map fun u => u + 1).prod ∧
      (∀ k, k < N →
        ∃ e, iterate_incr m k (m.element_begin d) = some e ∧ e ≠ m.element_end d ∧
          e.dim = d ∧ e.corner.length = n ∧
          (∀ i, i < n → 0 ≤ e.corner.getD i 0 ∧ e.corner.getD i 0 ≤ ub.getD i 0) ∧
          0 ≤ e.type ∧ e.type < m.ntypes d) ∧
      (∀ (corner : List Int) (type : Int), corner.length = n →
        (∀ i, i < n → 0 ≤ corner.getD i 0 ∧ corner.getD i 0 ≤ ub.getD i 0) → 0 ≤ type →
        type < m.ntypes d →
        ∃ k, k < N ∧
          iterate_incr m k (m.element_begin d) =
            some { corner := corner, dim := d, type := type } ∧
          ∀ k1, k1 < N →
            iterate_incr m k1 (m.element_begin d) =
              some { corner := corner, dim := d, type := type } → k1 = k) ∧
      iterate_incr m N (m.element_begin d) = some (m.element_end d) := by
  obtain ⟨m0, hc, hs⟩ := create_spec_of_pos n hn
  obtain ⟨h1, h2, h3, h4⟩ := iteration_run hs hn ub hub hpos d hd _ rfl
  refine ⟨m0, _, _, hc, rfl, h1, ?_, ?_, h4⟩
  · intro k hk
    obtain ⟨e, e1, e2, e3, e4, e5, e6⟩ := h2 k hk
    have hb := (in_box_iff 0 e.corner ub).1 e4
    refine ⟨e, e1, e2, e3, by rw [hb.1, hub], ?_, e5, e6⟩
    intro i hi
    exact hb.2 i (by rw [hb.1, hub]; exact hi)
  · intro corner type hl hb h0 hT
    exact h3 corner type ((in_box_iff 0 corner ub).2
      ⟨by rw [hl, hub], fun j hj => hb j (by rw [← hl]; exact hj)⟩) h0 hT

/-- C2 at the mesh of dimension 1 with `ub = (1)` and `d = 1`: two increments lead from
`element_begin(1)` to `element_end(1)`. -/
theorem C2_iteration_witness :
    ∃ (m0 m : regular_simplex_mesh) (N : Nat), create 1 = some m0 ∧ m = (m0.set_lb (List.replicate 1 0)).set_ub [1] ∧
      (N : Int) = m.ntypes 1 * (([1] : List Int).map fun u => u + 1).prod ∧
      iterate_incr m N (m.element_begin 1) = some (m.element_end 1) := by
  obtain ⟨m0, m, N, h1, h2, h3, _, _, h6⟩ :=
    C2_iteration_visits_box_once 1 (le_refl 1) [1] rfl (by decide) 1 (le_refl 1)
  exact ⟨m0, m, N, h1, h2, h3, h6⟩



open regular_simplex_mesh regular_simplex_mesh_element

theorem length_elements_between (m : regular_simplex_mesh)
    (stop : regular_simplex_mesh_element) :
    ∀ (fuel : Nat) (e : regular_simplex_mesh_element),
      (elements_between m stop fuel e).length ≤ fuel
  | 0, _ => by simp [elements_between]
  | fuel + 1, e => by
    unfold elements_between
    split
    · simp
    · cases h : incr m e with
      | none => simp
      | some e1 =>
        have := length_elements_between m stop fuel e1
        simp only [List.length_cons]
        omega

/-- A valid element of a mesh with lower bound zero has its type in range and its corner
in the box `[0, ub]`: every axis carries a vertex of the unit simplex with coordinate 0. -/
theorem valid_in_box {n : Nat} {m0 : regular_simplex_mesh} (hs : mesh_spec n m0)
    (hn : 1 ≤ n) (ub : List Int) (hub : ub.length = n) (m : regular_simplex_mesh)
    (hm : m = (m0.set_lb (List.replicate n 0)).set_ub ub)
    (e : regular_simplex_mesh_element) (hd : e.dim ≤ n) (hc : e.corner.length = n)
    (hv : valid m e = true) :
    0 ≤ e.type ∧ e.type < m.ntypes e.dim ∧ in_box 0 e.corner ub := by
  obtain ⟨k, rfl⟩ : ∃ k, n = k + 1 := ⟨n - 1, by omega⟩
  have hnd : m0.nd = k + 1 := hs.nd_eq
  have hubm : m.ub_ = ub := by rw [hm]; exact ub_set_bounds m0 _ ub (by rw [hnd, hub])
  have hlbm : m.lb_ = List.replicate (k + 1) 0 := by
    rw [hm]; exact lb_set_bounds m0 _ ub (by rw [hnd]; simp)
  have hnt : m.ntypes e.dim = m0.ntypes e.dim := by rw [hm]; rfl
  have hvert : vertices m e = vertices m0 e := by rw [hm]; rfl
  unfold valid at hv
  by_cases hty : e.type < 0 ∨ e.type ≥ m.ntypes e.dim
  · rw [if_pos hty] at hv; exact absurd hv (by decide)
  · rw [if_neg hty] at hv
    have h0 : 0 ≤ e.type := by omega
    have hT : e.type < m.ntypes e.dim := by omega
    refine ⟨h0, hT, ?_⟩
    rw [hnt] at hT
    obtain ⟨hwf, _⟩ := unit_simplex_wf_of_spec hs e.dim hd e.type h0 hT
    simp only [List.all_eq_true, List.mem_range, Bool.not_eq_true', Bool.or_eq_false_iff,
      decide_eq_false_iff_not, not_lt] at hv
    rw [in_box_iff]
    refine ⟨by rw [hc, hub], ?_⟩
    intro j hj
    rw [hc] at hj
    obtain ⟨u, hu, hu0⟩ := hwf.2.2.2 j hj
    have hvm : translate (k + 1) e.corner u ∈ vertices m e := by
      rw [hvert, vertices_eq, hnd]
      exact List.mem_map_of_mem _ hu
    have := hv _ hvm j (by rw [length_translate]; exact hj)
    rw [getD_translate, if_pos hj, hu0] at this
    have hlbj : m.lb j = 0 := by
      unfold regular_simplex_mesh.lb
      rw [hlbm, getD_replicate_lt _ _ _ hj]
    have hubj : m.ub j = ub.getD j 0 := by
      unfold regular_simplex_mesh.ub
      rw [hubm]
    rw [hlbj, hubj] at this
    omega

/-- The loop `for (e = first; e != stop; ++e)` along a run `f 0, f 1, ...` of the
iterator that does not meet `stop` before step `K`: it passes `f k0, ..., f (k0+fuel-1)`. -/
theorem elements_between_run (m : regular_simplex_mesh) (stop : regular_simplex_mesh_element)
    (f : Nat → regular_simplex_mesh_element) (K : Nat)
    (hf : ∀ k, k < K → f k ≠ stop ∧ incr m (f k) = some (f (k + 1))) :
    ∀ (fuel k0 : Nat), k0 + fuel ≤ K →
      elements_between m stop fuel (f k0) = (List.range fuel).map fun i => f (k0 + i)
  | 0, _, _ => rfl
  | fuel + 1, k0, h => by
    obtain ⟨h1, h2⟩ := hf k0 (by omega)
    rw [elements_between, if_neg h1, h2]
    simp only
    rw [elements_between_run m stop f K hf fuel (k0 + 1) (by omega), List.range_succ_eq_map]
    simp only [List.map_cons, List.map_map, Nat.add_zero]
    congr 1
    apply List.map_congr_left
    intro i _
    simp only [Function.comp]
    congr 1
    omega

/-- The elements passed by the loop from `element_begin(d)` to `element_end(d)` in a mesh
with lower bound zero: the first `N = ntypes(d) * prod (ub[i] + 1)` iterates, without
repetition; `n(d)` is the number of valid ones among them. -/
theorem passed_elements {n : Nat} {m0 : regular_simplex_mesh} (hs : mesh_spec n m0)
    (hn : 1 ≤ n) (ub : List Int) (hub : ub.length = n) (hpos : ∀ x ∈ ub, 0 ≤ x) (d : Nat)
    (hd : d ≤ n) (m : regular_simplex_mesh)
    (hm : m = (m0.set_lb (List.replicate n 0)).set_ub ub) :
    ∃ passed : List regular_simplex_mesh_element,
      passed = elements_between m (m.element_end d)
        (m.ntypes d * (ub.map fun u => u + 1).prod).toNat (m.element_begin d) ∧
      passed.length = (m.ntypes d * (ub.map fun u => u + 1).prod).toNat ∧
      passed.Nodup ∧
      (∀ k, k < (m.ntypes d * (ub.map fun u => u + 1).prod).toNat →
        iterate_incr m k (m.element_begin d) = some (passed.getD k (m.element_end d))) ∧
      m.n d = (passed.filter fun e => valid m e).length := by
  obtain ⟨_, h2, h3, h4⟩ := iteration_run hs hn ub hub hpos d hd m hm
  have hubm : m.ub_ = ub := by
    rw [hm]; exact ub_set_bounds m0 _ ub (by rw [regular_simplex_mesh.nd, hs.nd_eq, hub])
  -- the run as a function of the step
  have hrun : ∀ k, k < (m.ntypes d * (ub.map fun u => u + 1).prod).toNat →
      iterate_incr m k (m.element_begin d) =
        some ((iterate_incr m k (m.element_begin d)).getD (m.element_end d)) := by
    intro k hk
    obtain ⟨e, he, _⟩ := h2 k hk
    rw [he]; rfl
  have hstep : ∀ k, k < (m.ntypes d * (ub.map fun u => u + 1).prod).toNat →
      (iterate_incr m k (m.element_begin d)).getD (m.element_end d) ≠ m.element_end d ∧
      incr m ((iterate_incr m k (m.element_begin d)).getD (m.element_end d)) =
        some ((iterate_incr m (k + 1) (m.element_begin d)).getD (m.element_end d)) := by
    intro k hk
    obtain ⟨e, he, hne, _⟩ := h2 k hk
    have hnext : iterate_incr m (k + 1) (m.element_begin d) = incr m e := by
      simp only [iterate_incr, he, Option.some_bind]
    have hsome : ∃ e1, iterate_incr m (k + 1) (m.element_begin d) = some e1 := by
      by_cases hk1 : k + 1 < (m.ntypes d * (ub.map fun u => u + 1).prod).toNat
      · obtain ⟨e1, he1, _⟩ := h2 (k + 1) hk1
        exact ⟨e1, he1⟩
      · have : k + 1 = (m.ntypes d * (ub.map fun u => u + 1).prod).toNat := by omega
        rw [this]
        exact ⟨_, h4⟩
    obtain ⟨e1, he1⟩ := hsome
    rw [he, he1]
    simp only [Option.getD_some]
    exact ⟨hne, by rw [← hnext, he1]⟩
  have hlist := elements_between_run m (m.element_end d)
    (fun k => (iterate_incr m k (m.element_begin d)).getD (m.element_end d)) _ hstep
    (m.ntypes d * (ub.map fun u => u + 1).prod).toNat 0 (by omega)
  simp only [Nat.zero_add] at hlist
  have h0 : (iterate_incr m 0 (m.element_begin d)).getD (m.element_end d) =
      m.element_begin d := rfl
  rw [h0] at hlist
  have hnodup : ((List.range (m.ntypes d * (ub.map fun u => u + 1).prod).toNat).map fun k =>
      (iterate_incr m k (m.element_begin d)).getD (m.element_end d)).Nodup := by
    refine List.Nodup.map_on ?_ (List.nodup_range _)
    intro k1 hk1 k2 hk2 he
    rw [List.mem_range] at hk1 hk2
    obtain ⟨e1, he1, _, hd1, hb1, h10, h1T⟩ := h2 k1 hk1
    obtain ⟨k, _, _, huniq⟩ := h3 e1.corner e1.type hb1 h10 h1T
    have hee : ({ corner := e1.corner, dim := d, type := e1.type } :
        regular_simplex_mesh_element) = e1 := by
      cases e1; simp only at hd1; simp [hd1]
    rw [hee] at huniq
    have hk2e : iterate_incr m k2 (m.element_begin d) = some e1 := by
      rw [hrun k2 hk2, ← he, he1]; rfl
    rw [huniq k1 hk1 he1, huniq k2 hk2 hk2e]
  refine ⟨_, hlist.symm, by simp, hnodup, ?_, ?_⟩
  · intro k hk
    rw [getD_map_range _ _ _ _ hk]
    exact hrun k hk
  · unfold regular_simplex_mesh.n
    rw [hubm, hlist, (hnodup.filter _).dedup]

set_option maxRecDepth 100000 in
/-- C3 fails as stated: in the mesh of dimension 1 with `lb = (0)` and `ub = (1)` the only
valid segment is the one at corner 0, so `n(1) = 1`, but one increment from
`element_begin(1)` gives the segment at corner 1, not `element_end(1)` (which is reached
after two increments). -/
theorem C3_counterexample :
    create 1 = some mesh_one ∧
      ((mesh_one.set_lb [0]).set_ub [1]).n 1 = 1 ∧
      iterate_incr ((mesh_one.set_lb [0]).set_ub [1]) (((mesh_one.set_lb [0]).set_ub [1]).n 1)
          (((mesh_one.set_lb [0]).set_ub [1]).element_begin 1) ≠
        some (((mesh_one.set_lb [0]).set_ub [1]).element_end 1) ∧
      iterate_incr ((mesh_one.set_lb [0]).set_ub [1]) 2
          (((mesh_one.set_lb [0]).set_ub [1]).element_begin 1) =
        some (((mesh_one.set_lb [0]).set_ub [1]).element_end 1) :=
  ⟨create_one, by decide, by decide, by decide⟩

/-- C3 (amended): in a mesh of dimension `n ≥ 1` with `lb = (0,...,0)` and `ub ≥ 0`, for
`d ≤ n` and `N = ntypes(d) * prod (ub[i] + 1)`: applying `operator++` to
`element_begin(d)` exactly `N` times yields `element_end(d)`, and fewer increments do not;
the loop from `element_begin(d)` to `element_end(d)` passes `N` pairwise distinct
elements, the iterates `0, ..., N - 1`; `n(d)` is the number of valid elements among them,
so `n(d) ≤ N`, with `n(d) < N` exactly when an invalid element is passed; and every valid
element of dimension `d` with a corner of length `n` is passed at exactly one step. -/
theorem C3_iteration_covers_valid_elements (n : Nat) (hn : 1 ≤ n) (ub : List Int)
    (hub : ub.length = n) (hpos : ∀ x ∈ ub, 0 ≤ x) (d : Nat) (hd : d ≤ n) :
    ∃ (m0 m : regular_simplex_mesh) (N : Nat) (passed : List regular_simplex_mesh_element),
      create n = some m0 ∧
      m = (m0.set_lb (List.replicate n 0)).set_ub ub ∧
      (N : Int) = m.ntypes d * (ub.map fun u => u + 1).prod ∧
      iterate_incr m N (m.element_begin d) = some (m.element_end d) ∧
      (∀ k, k < N → iterate_incr m k (m.element_begin d) ≠ some (m.element_end d)) ∧
      passed = elements_between m (m.element_end d) N (m.element_begin d) ∧
      passed.length = N ∧ passed.Nodup ∧
      (∀ k, k < N → iterate_incr m k (m.element_begin d) = passed[k]?) ∧
      m.n d = (passed.filter fun e => valid m e).length ∧
      m.n d ≤ N ∧
      (m.n d < N ↔ ∃ e ∈ passed, valid m e = false) ∧
      ∀ e : regular_simplex_mesh_element, e.dim = d → e.corner.length = n →
        valid m e = true →
        ∃ k, k < N ∧ iterate_incr m k (m.element_begin d) = some e ∧
          ∀ k1, k1 < N → iterate_incr m k1 (m.element_begin d) = some e → k1 = k := by
  obtain ⟨m0, hc, hs⟩ := create_spec_of_pos n hn
  obtain ⟨h1, h2, h3, h4⟩ := iteration_run hs hn ub hub hpos d hd _ rfl
  obtain ⟨passed, p0, p1, p2, p3, p4⟩ := passed_elements hs hn ub hub hpos d hd _ rfl
  refine ⟨m0, _, _, passed, hc, rfl, h1, h4, ?_, p0, p1, p2, ?_, p4, ?_, ?_, ?_⟩
  · intro k hk hend
    obtain ⟨e, he, hne, _⟩ := h2 k hk
    rw [he] at hend
    exact hne (Option.some.inj hend)
  · intro k hk
    rw [p3 k hk, List.getD_eq_getElem?_getD, List.getElem?_eq_getElem (by rw [p1]; exact hk)]
    rfl
  · rw [p4, ← p1]
    exact List.length_filter_le _ _
  · rw [p4, ← p1, List.length_filter_lt_length_iff_exists]
    simp
  · intro e hed hel hv
    obtain ⟨e0, eT, eb⟩ := valid_in_box hs hn ub hub _ rfl e (by rw [hed]; exact hd) hel hv
    rw [hed] at eT
    obtain ⟨k, hk, hit, huniq⟩ := h3 e.corner e.type eb e0 eT
    have he : ({ corner := e.corner, dim := d, type := e.type } :
        regular_simplex_mesh_element) = e := by
      cases e; simp only at hed; simp [hed]
    rw [he] at hit huniq
    exact ⟨k, hk, hit, huniq⟩

/-- C3 (amended) at the mesh of dimension 1 with `ub = (1)` and `d = 1`. -/
theorem C3_iteration_witness :
    ∃ (m0 m : regular_simplex_mesh) (N : Nat) (passed : List regular_simplex_mesh_element),
      create 1 = some m0 ∧
      m = (m0.set_lb (List.replicate 1 0)).set_ub [1] ∧
      (N : Int) = m.ntypes 1 * (([1] : List Int).map fun u => u + 1).prod ∧
      iterate_incr m N (m.element_begin 1) = some (m.element_end 1) ∧
      passed = elements_between m (m.element_end 1) N (m.element_begin 1) ∧
      passed.length = N ∧
      m.n 1 = (passed.filter fun e => valid m e).length ∧ m.n 1 ≤ N := by
  obtain ⟨m0, m, N, passed, h1, h2, h3, h4, _, h6, h7, _, _, h10, h11, _⟩ :=
    C3_iteration_covers_valid_elements 1 (le_refl 1) [1] rfl (by decide) 1 (le_refl 1)
  exact ⟨m0, m, N, passed, h1, h2, h3, h4, h6, h7, h10, h11⟩

set_option maxRecDepth 100000 in
/-- C4: for `n = 1, 2, 3, 4` the mesh of dimension `n` has `ntypes(n) = n!`:
`subdivide_unit_cube(n)` returns `n!` simplices and they remain pairwise distinct after
their vertex lists are sorted. -/
theorem C4_ntypes_top_is_factorial (n : Nat) (hn : n = 1 ∨ n = 2 ∨ n = 3 ∨ n = 4) :
    ∃ m, create n = some m ∧ m.ntypes n = (n.factorial : Int) ∧
      (subdivide_unit_cube n).length = n.factorial ∧
      ((subdivide_unit_cube n).map fun s => std_sort vec_lt s).Nodup ∧
      (enumerate_unit_simplices n n n).length = n.factorial := by
  obtain ⟨m, hc, hs⟩ := create_spec_of_pos n (by omega)
  refine ⟨m, hc, ?_⟩
  rw [hs.ntypes_eq n (le_refl n)]
  rcases hn with rfl | rfl | rfl | rfl
  · exact ⟨by decide, by decide, by decide, by decide⟩
  · exact ⟨by decide, by decide, by decide, by decide⟩
  · exact ⟨by decide, by decide, by decide, by decide⟩
  · exact ⟨by decide, by decide, by decide, by decide⟩

/-- C4 at `n = 3`: six types of tetrahedra. -/
theorem C4_ntypes_top_witness :
    ∃ m, create 3 = some m ∧ m.ntypes 3 = ((3 : Nat).factorial : Int) := by
  obtain ⟨m, h1, h2, _⟩ := C4_ntypes_top_is_factorial 3 (Or.inr (Or.inr (Or.inl rfl)))
  exact ⟨m, h1, h2⟩



open regular_simplex_mesh regular_simplex_mesh_element

/-! ## The reduction: idempotence and re-encoding -/

theorem map_translate_zero (nd : Nat) (r : List (List Int)) (hr : ∀ v ∈ r, v.length = nd) :
    r.map (translate nd (List.replicate nd 0)) = r := by
  conv_rhs => rw [← List.map_id r]
  apply List.map_congr_left
  intro v hv
  exact translate_zero nd v (hr v hv)

/-- C11: `reduce_unit_simplex` is idempotent: for a simplex `s` of `k + 1` vertices that
are 0/1 vectors of length `nd`, reducing the reduced simplex gives it back unchanged, with
the all-zero offset. -/
theorem C11_reduce_idempotent (nd k : Nat) (s : List (List Int)) (hl : s.length = k + 1)
    (hs : ∀ v ∈ s, unit_vertex nd v) :
    reduce_unit_simplex nd (reduce_unit_simplex nd s).1 =
      ((reduce_unit_simplex nd s).1, List.replicate nd 0) := by
  have hne : s ≠ [] := by
    intro e; rw [e] at hl; simp at hl
  have hu := reduce_unit_simplex_unit nd s hs
  have hz := reduce_unit_simplex_axis_zero nd s hne
  have hm := map_translate_zero nd (reduce_unit_simplex nd s).1 (fun v hv => (hu v hv).1)
  have := reduce_unit_simplex_of_translate nd (reduce_unit_simplex nd s).1
    (List.replicate nd 0) hu hz (by simp)
    (fun v hv => by rw [translate_zero nd v (hu v hv).1]; exact hu v hv)
  rw [hm] at this
  exact this

/-- C11 at the edge `(01, 11)` of the unit square. -/
theorem C11_reduce_idempotent_witness :
    reduce_unit_simplex 2 (reduce_unit_simplex 2 [[0, 1], [1, 1]]).1 =
      ((reduce_unit_simplex 2 [[0, 1], [1, 1]]).1, List.replicate 2 0) :=
  C11_reduce_idempotent 2 1 [[0, 1], [1, 1]] rfl (by
    intro v hv
    simp only [List.mem_cons, List.mem_singleton, List.not_mem_nil, or_false] at hv
    rcases hv with rfl | rfl <;> exact ⟨rfl, by decide⟩)

/-- C19: `reduce_unit_simplex` re-encodes the simplex: for a simplex `s` of 0/1 vectors of
length `nd`, the reduced simplex has as many vertices as `s`, the offset is a 0/1 vector
of length `nd` which is 1 exactly on the axes where every vertex of `s` has coordinate 1,
and `s[j][i] = r[j][i] + o[i]` for every vertex `j` and axis `i`. -/
theorem C19_reduce_re_encodes (nd : Nat) (s : List (List Int))
    (hs : ∀ v ∈ s, unit_vertex nd v) :
    (reduce_unit_simplex nd s).1.length = s.length ∧
      unit_vertex nd (reduce_unit_simplex nd s).2 ∧
      (∀ i, i < nd →
        ((reduce_unit_simplex nd s).2.getD i 0 = 1 ↔ ∀ v ∈ s, v.getD i 0 = 1)) ∧
      ∀ j i, j < s.length → i < nd →
        (s.getD j []).getD i 0 =
          ((reduce_unit_simplex nd s).1.getD j []).getD i 0 +
            (reduce_unit_simplex nd s).2.getD i 0 := by
  refine ⟨reduce_unit_simplex_length nd s, reduce_unit_simplex_offset_unit nd s, ?_, ?_⟩
  · intro i hi
    rw [reduce_unit_simplex_eq]
    simp only
    rw [getD_reduce_offset]
    constructor
    · intro h v hv
      by_cases hz : column_has_zero s i = true
      · simp [hz] at h
      · rcases getD_mem_unit (hs v hv) i with h0 | h1
        · exact absurd ((column_has_zero_iff s i).2 ⟨v, hv, h0⟩) hz
        · exact h1
    · intro h
      have hz : column_has_zero s i = false := by
        cases hc : column_has_zero s i with
        | false => rfl
        | true =>
          obtain ⟨v, hv, h0⟩ := (column_has_zero_iff s i).1 hc
          have := h v hv
          omega
      rw [if_pos ⟨hi, hi, hz⟩]
  · intro j i hj hi
    have h1 := reduce_unit_simplex_translate nd s hs
    have h2 : (s.getD j []) = translate nd (reduce_unit_simplex nd s).2
        ((reduce_unit_simplex nd s).1.getD j []) := by
      conv_lhs => rw [← h1]
      rw [getD_map_lt _ _ [] [] j (by rw [reduce_unit_simplex_length]; exact hj)]
    rw [h2, getD_translate, if_pos hi]
    ring

/-- C19 at the edge `(01, 11)` of the unit square: it reduces to `(00, 10)` with offset
`(0, 1)`. -/
theorem C19_reduce_re_encodes_witness :
    reduce_unit_simplex 2 [[0, 1], [1, 1]] = ([[0, 0], [1, 0]], [0, 1]) ∧
      (reduce_unit_simplex 2 [[0, 1], [1, 1]]).1.length = ([[0, 1], [1, 1]] : List (List Int)).length :=
  ⟨by decide, (C19_reduce_re_encodes 2 [[0, 1], [1, 1]] (by
    intro v hv
    simp only [List.mem_cons, List.mem_singleton, List.not_mem_nil, or_false] at hv
    rcases hv with rfl | rfl <;> exact ⟨rfl, by decide⟩)).1⟩

/-! ## The canonical types -/

/-- C12: in a mesh of dimension `n ≥ 1`, for `d ≤ n`, a type `t` in `[0, ntypes(d))` and
an axis `j < n`, the vertex list `unit_simplex(d, t)` contains a vertex whose coordinate
`j` is 0, and every vertex is a 0/1 vector of length `n`. -/
theorem C12_canonical_type_has_zero (n : Nat) (hn : 1 ≤ n) :
    ∃ m, create n = some m ∧
      ∀ (d : Nat) (t : Int), d ≤ n → 0 ≤ t → t < m.ntypes d →
        (∀ j, j < n → ∃ v ∈ m.unit_simplex d t, v.getD j 0 = 0) ∧
        ∀ v ∈ m.unit_simplex d t, v.length = n ∧ ∀ x ∈ v, x = 0 ∨ x = 1 := by
  obtain ⟨k, rfl⟩ : ∃ k, n = k + 1 := ⟨n - 1, by omega⟩
  obtain ⟨m, hm, hs⟩ := create_spec k
  refine ⟨m, hm, ?_⟩
  intro d t hd h0 hT
  obtain ⟨hwf, _⟩ := unit_simplex_wf_of_spec hs d hd t h0 hT
  exact ⟨hwf.2.2.2, hwf.2.1⟩

/-- C12 at the mesh of dimension 2, edge type 2 (the diagonal `(00, 11)`), axis 1. -/
theorem C12_canonical_type_witness :
    ∃ v ∈ mesh_two.unit_simplex 1 2, v.getD 1 0 = 0 := by
  obtain ⟨m, hm, h⟩ := C12_canonical_type_has_zero 2 (by decide)
  rw [create_two] at hm
  cases hm
  exact (h 1 2 (by decide) (by decide) (by decide)).1 1 (by decide)


open regular_simplex_mesh regular_simplex_mesh_element

/-! ## The bound setters -/

theorem resize_of_length (v : List Int) (n : Nat) (h : v.length = n) : resize v n = v := by
  unfold resize
  rw [← h, List.take_length, Nat.sub_self]
  simp

theorem set_bound_spec (nd : Nat) (old b : List Int) (hold : old.length = nd) :
    (set_bound nd old b).length = nd ∧
      (∀ i, i < min nd b.length → (set_bound nd old b).getD i 0 = b.getD i 0) ∧
      ∀ i, b.length ≤ i → i < nd → (set_bound nd old b).getD i 0 = old.getD i 0 := by
  refine ⟨length_set_bound nd old b, ?_, ?_⟩
  · intro i hi
    unfold set_bound
    simp only
    rw [(set_bound_fold b (resize old nd) _).2 i, length_resize,
      if_pos ⟨hi, by omega⟩]
  · intro i hb hi
    unfold set_bound
    simp only
    rw [(set_bound_fold b (resize old nd) _).2 i, length_resize,
      if_neg (by omega), resize_of_length old nd hold]

/-- C14: the bound setters are a partial update of their own bound: on a mesh whose bounds
have length `nd()`, after `set_lb(b)` the lower bound has length `nd()`, takes the entries
of `b` on the common prefix and keeps its prior entries from `|b|` on, and the upper
bound, `nd`, `ntypes`, the catalogue and both adjacency tables are unchanged; the same
holds for `set_ub(b)` and the upper bound. -/
theorem C14_bound_setters_partial_update (m : regular_simplex_mesh) (b : List Int)
    (hlb : m.lb_.length = m.nd) (hub : m.ub_.length = m.nd) :
    ((m.set_lb b).lb_.length = m.nd ∧
      (∀ i, i < min m.nd b.length → (m.set_lb b).lb i = b.getD i 0) ∧
      (∀ i, b.length ≤ i → i < m.nd → (m.set_lb b).lb i = m.lb i) ∧
      (m.set_lb b).ub_ = m.ub_ ∧ (m.set_lb b).nd_ = m.nd_ ∧
      (m.set_lb b).ntypes_ = m.ntypes_ ∧
      (m.set_lb b).unit_simplices = m.unit_simplices ∧
      (m.set_lb b).unit_simplex_sides = m.unit_simplex_sides ∧
      (m.set_lb b).unit_simplex_side_of = m.unit_simplex_side_of) ∧
    ((m.set_ub b).ub_.length = m.nd ∧
      (∀ i, i < min m.nd b.length → (m.set_ub b).ub i = b.getD i 0) ∧
      (∀ i, b.length ≤ i → i < m.nd → (m.set_ub b).ub i = m.ub i) ∧
      (m.set_ub b).lb_ = m.lb_ ∧ (m.set_ub b).nd_ = m.nd_ ∧
      (m.set_ub b).ntypes_ = m.ntypes_ ∧
      (m.set_ub b).unit_simplices = m.unit_simplices ∧
      (m.set_ub b).unit_simplex_sides = m.unit_simplex_sides ∧
      (m.set_ub b).unit_simplex_side_of = m.unit_simplex_side_of) := by
  obtain ⟨h1, h2, h3⟩ := set_bound_spec m.nd m.lb_ b hlb
  obtain ⟨h4, h5, h6⟩ := set_bound_spec m.nd m.ub_ b hub
  exact ⟨⟨h1, h2, h3, rfl, rfl, rfl, rfl, rfl, rfl⟩, ⟨h4, h5, h6, rfl, rfl, rfl, rfl, rfl, rfl⟩⟩

/-- C14 at the mesh of dimension 2 with lower bound `(3, 4)`: `set_lb((7))` gives the
lower bound `(7, 4)` and leaves the upper bound alone. -/
theorem C14_bound_setters_witness :
    ((mesh_two.set_lb [3, 4]).set_lb [7]).lb_ = [7, 4] ∧
      ((mesh_two.set_lb [3, 4]).set_lb [7]).lb 0 = ([7] : List Int).getD 0 0 ∧
      ((mesh_two.set_lb [3, 4]).set_lb [7]).lb 1 = (mesh_two.set_lb [3, 4]).lb 1 ∧
      ((mesh_two.set_lb [3, 4]).set_lb [7]).ub_ = (mesh_two.set_lb [3, 4]).ub_ := by
  have h := (C14_bound_setters_partial_update (mesh_two.set_lb [3, 4]) [7]
    (by decide) (by decide)).1
  exact ⟨by decide, h.2.1 0 (by decide), h.2.2.1 1 (by decide) (by decide), h.2.2.2.1⟩

/-! ## The examples of the specification -/

/-- C15 (Example A): in the mesh of dimension 2 with `lb = (0,0)` and `ub = (1,1)`,
`ntypes(2) = 2`, the two triangles at corner `(0,0)` are valid, each has 3 vertices, and
a point is a vertex of one of them exactly when it is one of the four corners of the unit
square. -/
theorem C15_example_A :
    create 2 = some mesh_two ∧
      ((mesh_two.set_lb [0, 0]).set_ub [1, 1]).ntypes 2 = 2 ∧
      valid ((mesh_two.set_lb [0, 0]).set_ub [1, 1])
        { corner := [0, 0], dim := 2, type := 0 } = true ∧
      valid ((mesh_two.set_lb [0, 0]).set_ub [1, 1])
        { corner := [0, 0], dim := 2, type := 1 } = true ∧
      (vertices ((mesh_two.set_lb [0, 0]).set_ub [1, 1])
        { corner := [0, 0], dim := 2, type := 0 }).length = 3 ∧
      (vertices ((mesh_two.set_lb [0, 0]).set_ub [1, 1])
        { corner := [0, 0], dim := 2, type := 1 }).length = 3 ∧
      ∀ v : List Int,
        (v ∈ vertices ((mesh_two.set_lb [0, 0]).set_ub [1, 1])
            { corner := [0, 0], dim := 2, type := 0 } ∨
          v ∈ vertices ((mesh_two.set_lb [0, 0]).set_ub [1, 1])
            { corner := [0, 0], dim := 2, type := 1 }) ↔
        v ∈ ([[0, 0], [0, 1], [1, 0], [1, 1]] : List (List Int)) := by
  have h0 : vertices ((mesh_two.set_lb [0, 0]).set_ub [1, 1])
      { corner := [0, 0], dim := 2, type := 0 } = [[0, 0], [0, 1], [1, 1]] := by decide
  have h1 : vertices ((mesh_two.set_lb [0, 0]).set_ub [1, 1])
      { corner := [0, 0], dim := 2, type := 1 } = [[0, 0], [1, 0], [1, 1]] := by decide
  refine ⟨create_two, by decide, by decide, by decide, by decide, by decide, ?_⟩
  intro v
  rw [h0, h1]
  simp only [List.mem_cons, List.mem_singleton, List.not_mem_nil, or_false]
  constructor
  · rintro ((h | h | h) | (h | h | h)) <;> simp [h]
  · rintro (h | h | h | h) <;> simp [h]

/-- C16 (Example B): in the mesh of dimension 1, `ntypes(1) = 1`, `ntypes(0) = 1`, the
sides table of the segment (dim 1, type 0) is exactly `(0, (0))`, `(0, (1))`, and `sides()`
of the segment at corner `c` returns the points at corners `c` and `c + 1`. -/
theorem C16_example_B :
    create 1 = some mesh_one ∧ mesh_one.ntypes 1 = 1 ∧ mesh_one.ntypes 0 = 1 ∧
      mesh_one.enumerate_unit_simplex_sides 1 0 = [(0, [0]), (0, [1])] ∧
      (mesh_one.unit_simplex_sides.getD 1 []).getD 0 [] = [(0, [0]), (0, [1])] ∧
      ∀ c : Int,
        sides mesh_one { corner := [c], dim := 1, type := 0 } =
          [{ corner := [c], dim := 0, type := 0 }, { corner := [c + 1], dim := 0, type := 0 }] := by
  refine ⟨create_one, by decide, by decide, by decide, by decide, ?_⟩
  intro c
  have h0 : add_offset 1 [c] [0] = [c] := by
    rw [add_offset_eq_translate 1 [c] [0] rfl]
    simp [translate, List.range_succ]
  have h1 : add_offset 1 [c] [1] = [c + 1] := by
    rw [add_offset_eq_translate 1 [c] [1] rfl]
    simp [translate, List.range_succ]
  show [({ corner := add_offset 1 [c] [0], dim := 0, type := 0 } :
      regular_simplex_mesh_element),
    { corner := add_offset 1 [c] [1], dim := 0, type := 0 }] = _
  rw [h0, h1]

/-- C17: the carry of `increase_corner` resets an axis to 0, not to `lb`: in the mesh of
dimension 2 with `lb = (1,1)` and `ub = (2,2)`, the second increment from
`element_begin(0)` leads to the corner `(0,2)`, below `lb` on axis 0, and `element_end(0)`
has not been reached by then. -/
theorem C17_carry_resets_to_zero :
    ∃ (n : Nat) (lb ub : List Int) (d k i : Nat) (m0 m : regular_simplex_mesh)
      (e : regular_simplex_mesh_element),
      create n = some m0 ∧ m = (m0.set_lb lb).set_ub ub ∧ lb.length = n ∧ ub.length = n ∧
        (∀ j, j < n → lb.getD j 0 ≤ ub.getD j 0) ∧ lb ≠ List.replicate n 0 ∧ d ≤ n ∧
        iterate_incr m k (m.element_begin d) = some e ∧
        (∀ k1, k1 ≤ k → iterate_incr m k1 (m.element_begin d) ≠ some (m.element_end d)) ∧
        e.corner = [0, 2] ∧ i < n ∧ e.corner.getD i 0 < lb.getD i 0 := by
  refine ⟨2, [1, 1], [2, 2], 0, 2, 0, mesh_two, _, { corner := [0, 2], dim := 0, type := 0 },
    create_two, rfl, rfl, rfl, by decide, by decide, by decide, by decide, ?_, rfl,
    by decide, by decide⟩
  intro k1 hk1
  have : k1 = 0 ∨ k1 = 1 ∨ k1 = 2 := by omega
  rcases this with rfl | rfl | rfl <;> decide



open regular_simplex_mesh regular_simplex_mesh_element

/-! ## The subdivision: count and shape of the simplices -/

theorem length_flatMap_range_map {α β : Type} (l : List α) (f : Nat → α → β) :
    ∀ k, ((List.range k).flatMap fun i => l.map (f i)).length = k * l.length
  | 0 => by simp
  | k + 1 => by
    rw [List.range_succ, List.flatMap_append, List.length_append,
      length_flatMap_range_map l f k]
    simp [Nat.succ_mul]

theorem length_subdivide_unit_cube : ∀ n : Nat,
    (subdivide_unit_cube (n + 1)).length = (n + 1).factorial
  | 0 => rfl
  | n + 1 => by
    rw [subdivide_unit_cube]
    rw [length_flatMap_range_map, length_subdivide_unit_cube n, Nat.factorial_succ (n + 1)]

/-- C13: for `n ≥ 1`, `subdivide_unit_cube(n)` returns exactly `n!` simplices, each a
list of `n + 1` vertices, each vertex a vector of length `n` with entries 0 or 1. -/
theorem C13_subdivide_count_and_shape (n : Nat) (hn : 1 ≤ n) :
    (subdivide_unit_cube n).length = n.factorial ∧
      ∀ s ∈ subdivide_unit_cube n, s.length = n + 1 ∧
        ∀ v ∈ s, v.length = n ∧ ∀ x ∈ v, x = 0 ∨ x = 1 := by
  obtain ⟨k, rfl⟩ : ∃ k, n = k + 1 := ⟨n - 1, by omega⟩
  refine ⟨length_subdivide_unit_cube k, ?_⟩
  intro s hs
  obtain ⟨h1, h2, _, _⟩ := subdivide_unit_cube_wf k s hs
  exact ⟨h1, h2⟩

/-- C13 at `n = 3`: six tetrahedra. -/
theorem C13_subdivide_witness : (subdivide_unit_cube 3).length = (3 : Nat).factorial :=
  (C13_subdivide_count_and_shape 3 (by decide)).1

theorem getD_insert_zero (i : Nat) (v : List Int) (hi : i ≤ v.length) (j : Nat) :
    (insert_zero i v).getD j 0 =
      if j < i then v.getD j 0 else if j = i then 0 else v.getD (j - 1) 0 := by
  unfold insert_zero
  simp only [List.getD_eq_getElem?_getD]
  have hl : (v.take i).length = i := by rw [List.length_take]; omega
  by_cases h1 : j < i
  · rw [if_pos h1, List.getElem?_append_left (by rw [hl]; exact h1), List.getElem?_take_of_lt h1]
  · rw [if_neg h1, List.getElem?_append_right (by rw [hl]; omega), hl]
    by_cases h2 : j = i
    · subst h2
      simp
    · rw [if_neg h2]
      obtain ⟨a, ha⟩ : ∃ a, j - i = a + 1 := ⟨j - i - 1, by omega⟩
      rw [ha, List.getElem?_cons_succ, List.getElem?_drop]
      have : i + a = j - 1 := by omega
      rw [this]

theorem kuhn_step_insert_zero (n i : Nat) (hi : i ≤ n) (v w : List Int) (hv : v.length = n)
    (hw : w.length = n) (h : kuhn_step n v w) :
    kuhn_step (n + 1) (insert_zero i v) (insert_zero i w) := by
  obtain ⟨j, hj, h0, h1, hrest⟩ := h
  by_cases hji : j < i
  · refine ⟨j, by omega, ?_, ?_, ?_⟩
    · rw [getD_insert_zero i v (by omega), if_pos hji, h0]
    · rw [getD_insert_zero i w (by omega), if_pos hji, h1]
    · intro a ha hne
      rw [getD_insert_zero i v (by omega), getD_insert_zero i w (by omega)]
      by_cases h2 : a < i
      · rw [if_pos h2, if_pos h2]
        exact hrest a (by omega) hne
      · rw [if_neg h2, if_neg h2]
        by_cases h3 : a = i
        · rw [if_pos h3, if_pos h3]
        · rw [if_neg h3, if_neg h3]
          exact hrest (a - 1) (by omega) (by omega)
  · refine ⟨j + 1, by omega, ?_, ?_, ?_⟩
    · rw [getD_insert_zero i v (by omega), if_neg (by omega), if_neg (by omega)]
      exact h0
    · rw [getD_insert_zero i w (by omega), if_neg (by omega), if_neg (by omega)]
      exact h1
    · intro a ha hne
      rw [getD_insert_zero i v (by omega), getD_insert_zero i w (by omega)]
      by_cases h2 : a < i
      · rw [if_pos h2, if_pos h2]
        exact hrest a (by omega) (by omega)
      · rw [if_neg h2, if_neg h2]
        by_cases h3 : a = i
        · rw [if_pos h3, if_pos h3]
        · rw [if_neg h3, if_neg h3]
          exact hrest (a - 1) (by omega) (by omega)

theorem kuhn_step_last (n i : Nat) (hi : i ≤ n) :
    kuhn_step (n + 1) (insert_zero i (List.replicate n 1)) (List.replicate (n + 1) 1) := by
  refine ⟨i, by omega, ?_, ?_, ?_⟩
  · rw [getD_insert_zero i _ (by simpa using hi), if_neg (by omega), if_pos rfl]
  · exact getD_replicate_lt _ _ _ (by omega)
  · intro a ha hne
    rw [getD_insert_zero i _ (by simpa using hi), getD_replicate_lt (n + 1) a 1 ha]
    by_cases h2 : a < i
    · rw [if_pos h2]
      exact getD_replicate_lt _ _ _ (by omega)
    · rw [if_neg h2, if_neg hne]
      exact getD_replicate_lt _ _ _ (by omega)

/-- Shape of the simplices of the subdivision: a chain from the origin to the all-ones
vertex, each vertex changing one coordinate of the previous one from 0 to 1. -/
theorem subdivide_unit_cube_chain : ∀ (n : Nat) (s : List (List Int)),
    s ∈ subdivide_unit_cube (n + 1) →
      s.head? = some (List.replicate (n + 1) 0) ∧
        s.getLast? = some (List.replicate (n + 1) 1) ∧ List.Chain' (kuhn_step (n + 1)) s
  | 0, s, hs => by
    simp only [subdivide_unit_cube, List.mem_singleton] at hs
    subst hs
    refine ⟨rfl, rfl, ?_⟩
    simp only [List.chain'_cons, List.chain'_singleton, and_true]
    exact ⟨0, by decide, rfl, rfl, fun i hi hne => absurd (by omega) hne⟩
  | n + 1, s, hs => by
    have ihwf := subdivide_unit_cube_wf n
    rw [subdivide_unit_cube_succ n s (fun s0 h0 => (ihwf s0 h0).1)] at hs
    obtain ⟨i, hi, s0, hs0, rfl⟩ := hs
    obtain ⟨hhead, hlast, hchain⟩ := subdivide_unit_cube_chain n s0 hs0
    obtain ⟨hlen, hunit, _, _⟩ := ihwf s0 hs0
    have hne : s0 ≠ [] := by intro e; rw [e] at hlen; simp at hlen
    refine ⟨?_, ?_, ?_⟩
    · cases s0 with
      | nil => exact absurd rfl hne
      | cons a l =>
        simp only [List.head?_cons, Option.some.injEq] at hhead
        simp only [List.map_cons, List.cons_append, List.head?_cons, hhead,
          insert_zero_replicate]
    · simp
    · rw [List.chain'_append]
      refine ⟨?_, List.chain'_singleton _, ?_⟩
      · rw [List.chain'_map]
        refine List.Chain'.imp ?_ (List.Chain'.iff_mem.1 hchain)
        rintro v w ⟨hv, hw, hstep⟩
        exact kuhn_step_insert_zero (n + 1) i (by omega) v w (hunit v hv).1 (hunit w hw).1 hstep
      · intro x hx y hy
        simp only [List.head?_cons, Option.mem_def, Option.some.injEq] at hy
        subst hy
        rw [Option.mem_def, List.getLast?_map, hlast] at hx
        simp only [Option.map_some', Option.some.injEq] at hx
        subst hx
        exact kuhn_step_last (n + 1) i (by omega)

/-- C18: for `n ≥ 1`, every simplex returned by `subdivide_unit_cube(n)` starts at the
all-zero vertex, ends at the all-ones vertex, and each vertex is obtained from the one
before by changing exactly one coordinate from 0 to 1. -/
theorem C18_subdivide_is_kuhn (n : Nat) (hn : 1 ≤ n) :
    ∀ s ∈ subdivide_unit_cube n,
      s.head? = some (List.replicate n 0) ∧ s.getLast? = some (List.replicate n 1) ∧
        s.length = n + 1 ∧
        ∀ i, i < n →
          ∃ j, j < n ∧ (s.getD i []).getD j 0 = 0 ∧ (s.getD (i + 1) []).getD j 0 = 1 ∧
            ∀ a, a < n → a ≠ j → (s.getD i []).getD a 0 = (s.getD (i + 1) []).getD a 0 := by
  obtain ⟨k, rfl⟩ : ∃ k, n = k + 1 := ⟨n - 1, by omega⟩
  intro s hs
  obtain ⟨h1, h2, h3⟩ := subdivide_unit_cube_chain k s hs
  have hl := (subdivide_unit_cube_wf k s hs).1
  refine ⟨h1, h2, hl, ?_⟩
  intro i hi
  have := (List.chain'_iff_get.1 h3) i (by omega)
  simp only [List.get_eq_getElem] at this
  rw [List.getD_eq_getElem _ _ (by omega), List.getD_eq_getElem _ _ (by omega)]
  exact this

/-- C18 at `n = 2`: the triangle `(00, 01, 11)` of the subdivision runs from `(0,0)` to
`(1,1)`. -/
theorem C18_subdivide_is_kuhn_witness :
    ([[0, 0], [0, 1], [1, 1]] : List (List Int)) ∈ subdivide_unit_cube 2 ∧
      ([[0, 0], [0, 1], [1, 1]] : List (List Int)).head? = some (List.replicate 2 0) ∧
      ([[0, 0], [0, 1], [1, 1]] : List (List Int)).getLast? = some (List.replicate 2 1) :=
  ⟨by decide, (C18_subdivide_is_kuhn 2 (by decide) [[0, 0], [0, 1], [1, 1]] (by decide)).1,
    (C18_subdivide_is_kuhn 2 (by decide) [[0, 0], [0, 1], [1, 1]] (by decide)).2.1⟩


open regular_simplex_mesh regular_simplex_mesh_element

/-! ## The number of sides of a type -/

theorem enumerate_unit_simplices_sorted (n k : Nat) :
    strictly_sorted simplex_lt (enumerate_unit_simplices n n k) := by
  unfold enumerate_unit_simplices
  split
  · exact enumerate_gap_sorted n n _
  · exact List.Pairwise.nil

theorem map_translate_sorted (n : Nat) (o : List Int) (ho : o.length = n)
    (u : List (List Int)) (hu : ∀ v ∈ u, v.length = n) (hs : strictly_sorted vec_lt u) :
    strictly_sorted vec_lt (u.map (translate n o)) := by
  unfold strictly_sorted at hs ⊢
  rw [List.pairwise_map]
  refine List.Pairwise.imp_of_mem ?_ hs
  intro a b ha hb hab
  rw [vec_lt_translate n o a b ho (hu a ha) (hu b hb)]
  exact hab

/-- The facet of a table entry: the side's unit simplex translated by the offset. -/
theorem sides_facets_perm {n : Nat} {m : regular_simplex_mesh} (hm : mesh_spec (n + 1) m)
    (k : Nat) (hk : k + 1 ≤ n + 1) (t : Int) (ht : 0 ≤ t) (htT : t < m.ntypes (k + 1)) :
    (((m.unit_simplex_sides.getD (k + 1) []).getD t.toNat []).map fun x =>
      (m.unit_simplex k x.1).map (translate (n + 1) x.2)).Perm
      (List.sublistsLen (k + 1) (m.unit_simplex (k + 1) t)) := by
  have htn : t.toNat < (enumerate_unit_simplices (n + 1) (n + 1) (k + 1)).length := by
    rw [hm.ntypes_eq (k + 1) hk] at htT; omega
  obtain ⟨hSwf, hSs⟩ := unit_simplex_wf_of_spec hm (k + 1) hk t ht htT
  have hSn : (m.unit_simplex (k + 1) t).Nodup := hSwf.2.2.1
  have htab_sorted : strictly_sorted tuple_lt
      ((m.unit_simplex_sides.getD (k + 1) []).getD t.toNat []) := by
    rw [hm.sides_eq (k + 1) t.toNat hk htn]
    exact enumerate_unit_simplex_sides_sorted m (k + 1) t.toNat
  have htab_nodup := nodup_of_strict tuple_lt_strictTotal htab_sorted
  have hcat_nodup : (enumerate_unit_simplices (n + 1) (n + 1) k).Nodup :=
    nodup_of_strict simplex_lt_strictTotal (enumerate_unit_simplices_sorted (n + 1) k)
  haveI : IsAntisymm (List Int) (fun a b => vec_lt a b = true) :=
    ⟨fun a b hab hba => by
      rw [vec_lt_strictTotal.asymm hab] at hba; exact absurd hba (by decide)⟩
  rw [List.perm_ext_iff_of_nodup ?_ (List.nodup_sublistsLen _ hSn)]
  · intro F
    rw [List.mem_map, List.mem_sublistsLen]
    constructor
    · rintro ⟨⟨t1, o⟩, hmem, rfl⟩
      obtain ⟨h0, hT, ho, hsub⟩ := (sides_mem_iff hm k hk t ht htT t1 o).1 hmem
      obtain ⟨hUwf, hUs⟩ := unit_simplex_wf_of_spec hm k (by omega) t1 h0 hT
      have hFs := map_translate_sorted (n + 1) o ho _ (fun v hv => (hUwf.2.1 v hv).1) hUs
      have hFsub : (m.unit_simplex k t1).map (translate (n + 1) o) ⊆
          m.unit_simplex (k + 1) t := by
        intro v hv
        rw [List.mem_map] at hv
        obtain ⟨u, hu, rfl⟩ := hv
        exact hsub u hu
      refine ⟨?_, by simp [hUwf.1]⟩
      exact List.sublist_of_subperm_of_sorted
        (List.subperm_of_subset (nodup_of_strict vec_lt_strictTotal hFs) hFsub) hFs hSs
    · rintro ⟨hsubl, hlen⟩
      have hFn : F.Nodup := hSn.sublist hsubl
      have hFu : ∀ v ∈ F, unit_vertex (n + 1) v := fun v hv => hSwf.2.1 v (hsubl.subset hv)
      have hFs : strictly_sorted vec_lt F := List.Pairwise.sublist hsubl hSs
      obtain ⟨a, ha⟩ := (List.subperm_of_subset hFn hsubl.subset).exists_of_length_lt
        (by rw [hlen, hSwf.1]; omega)
      have hperm : (a :: F).Perm (m.unit_simplex (k + 1) t) :=
        ha.perm_of_length_le (by simp [hlen, hSwf.1])
      have hp : (F ++ [a]).Perm (m.unit_simplex (k + 1) t) :=
        (List.perm_append_singleton a _).trans hperm
      have hcat := catalogue_closed n k hk _ (F ++ [a])
        (unit_simplex_mem hm (k + 1) hk t ht htT) hp
      have hred : reduced_side (n + 1) (F ++ [a]) =
          (std_sort vec_lt (reduce_unit_simplex (n + 1) F).1,
            (reduce_unit_simplex (n + 1) F).2) := by
        unfold reduced_side
        simp only [List.dropLast_concat]
      rw [hred] at hcat
      simp only at hcat
      obtain ⟨i, hi, hget⟩ := List.getElem_of_mem hcat
      have hiT : (i : Int) < m.ntypes k := by
        rw [hm.ntypes_eq k (by omega)]; omega
      have hU : m.unit_simplex k (i : Int) =
          std_sort vec_lt (reduce_unit_simplex (n + 1) F).1 := by
        rw [unit_simplex_eq hm k (by omega) _ (by omega), Int.toNat_ofNat,
          List.getD_eq_getElem _ _ hi, hget]
      have htr := reduce_unit_simplex_translate (n + 1) F hFu
      refine ⟨((i : Int), (reduce_unit_simplex (n + 1) F).2), ?_, ?_⟩
      · refine (sides_mem_iff hm k hk t ht htT _ _).2
          ⟨by omega, hiT, (reduce_unit_simplex_offset_unit (n + 1) F).1, ?_⟩
        intro u hu
        rw [hU] at hu
        have hu2 := (mem_std_sort vec_lt).1 hu
        have := List.mem_map_of_mem (translate (n + 1) (reduce_unit_simplex (n + 1) F).2) hu2
        rw [htr] at this
        exact hsubl.subset this
      · simp only
        rw [hU]
        have hRu := reduce_unit_simplex_unit (n + 1) F hFu
        have hRn := reduce_unit_simplex_nodup (n + 1) F hFu hFn
        have hsort_strict : strictly_sorted vec_lt
            (std_sort vec_lt (reduce_unit_simplex (n + 1) F).1) :=
          pairwise_strict_of_weak vec_lt_strictTotal (std_sort_sorted vec_lt_strictTotal _)
            ((std_sort_perm vec_lt _).nodup_iff.2 hRn)
        have hms := map_translate_sorted (n + 1) (reduce_unit_simplex (n + 1) F).2
          (reduce_unit_simplex_offset_unit (n + 1) F).1 _
          (fun v hv => (hRu v ((mem_std_sort vec_lt).1 hv)).1) hsort_strict
        apply sorted_unique vec_lt_strictTotal _
          (pairwise_weak_of_strict vec_lt_strictTotal hms)
          (pairwise_weak_of_strict vec_lt_strictTotal hFs)
        have := (std_sort_perm vec_lt (reduce_unit_simplex (n + 1) F).1).map
          (translate (n + 1) (reduce_unit_simplex (n + 1) F).2)
        rwa [htr] at this
  · refine List.Nodup.map_on ?_ htab_nodup
    rintro ⟨t1, o1⟩ h1 ⟨t2, o2⟩ h2 he
    simp only at he
    obtain ⟨h10, h1T, ho1, hsub1⟩ := (sides_mem_iff hm k hk t ht htT t1 o1).1 h1
    obtain ⟨h20, h2T, ho2, hsub2⟩ := (sides_mem_iff hm k hk t ht htT t2 o2).1 h2
    obtain ⟨hU1, _⟩ := unit_simplex_wf_of_spec hm k (by omega) t1 h10 h1T
    obtain ⟨hU2, _⟩ := unit_simplex_wf_of_spec hm k (by omega) t2 h20 h2T
    have e1 := reduce_unit_simplex_of_translate (n + 1) _ o1 hU1.2.1 hU1.2.2.2 ho1
      (fun v hv => hSwf.2.1 _ (hsub1 v hv))
    have e2 := reduce_unit_simplex_of_translate (n + 1) _ o2 hU2.2.1 hU2.2.2.2 ho2
      (fun v hv => hSwf.2.1 _ (hsub2 v hv))
    rw [he, e2] at e1
    simp only [Prod.mk.injEq] at e1
    obtain ⟨eU, eo⟩ := e1
    rw [unit_simplex_eq hm k (by omega) t1 h10, unit_simplex_eq hm k (by omega) t2 h20] at eU
    have hl1 : t1.toNat < (enumerate_unit_simplices (n + 1) (n + 1) k).length := by
      rw [hm.ntypes_eq k (by omega)] at h1T; omega
    have hl2 : t2.toNat < (enumerate_unit_simplices (n + 1) (n + 1) k).length := by
      rw [hm.ntypes_eq k (by omega)] at h2T; omega
    rw [List.getD_eq_getElem _ _ hl1, List.getD_eq_getElem _ _ hl2] at eU
    have := (hcat_nodup.getElem_inj_iff).1 eU
    have et : t1 = t2 := by omega
    rw [et, eo]

/-- C20: in a mesh of dimension `n ≥ 1`, for `1 ≤ k ≤ n` and a type `t` of dimension `k`,
the sides table computed by `enumerate_unit_simplex_sides(k, t)` (and stored in the mesh)
has exactly `k + 1` entries; for `k = 0` it is empty. -/
theorem C20_sides_count (n : Nat) (hn : 1 ≤ n) :
    ∃ m, create n = some m ∧
      (∀ k t : Nat, 1 ≤ k → k ≤ n → (t : Int) < m.ntypes k →
        (m.enumerate_unit_simplex_sides k t).length = k + 1 ∧
          ((m.unit_simplex_sides.getD k []).getD t []).length = k + 1) ∧
      ∀ t : Nat, m.enumerate_unit_simplex_sides 0 t = [] := by
  obtain ⟨j, rfl⟩ : ∃ j, n = j + 1 := ⟨n - 1, by omega⟩
  obtain ⟨m, hm, hs⟩ := create_spec j
  refine ⟨m, hm, ?_, ?_⟩
  · intro k t hk1 hk ht
    obtain ⟨d, rfl⟩ : ∃ d, k = d + 1 := ⟨k - 1, by omega⟩
    have htn : t < (enumerate_unit_simplices (j + 1) (j + 1) (d + 1)).length := by
      rw [hs.ntypes_eq (d + 1) hk] at ht; omega
    have hperm := sides_facets_perm hs d hk (t : Int) (by omega) ht
    rw [Int.toNat_ofNat] at hperm
    have hlen := hperm.length_eq
    have hSwf := (unit_simplex_wf_of_spec hs (d + 1) hk (t : Int) (by omega) ht).1
    rw [List.length_map, List.length_sublistsLen, hSwf.1, Nat.choose_succ_self_right] at hlen
    rw [← hs.sides_eq (d + 1) t hk htn]
    exact ⟨hlen, hlen⟩
  · intro t
    simp [enumerate_unit_simplex_sides]

/-- C20 at the mesh of dimension 2: the triangle of type 1 has three sides. -/
theorem C20_sides_count_witness :
    (mesh_two.enumerate_unit_simplex_sides 2 1).length = 2 + 1 := by
  obtain ⟨m, hm, h, _⟩ := C20_sides_count 2 (by decide)
  rw [create_two] at hm
  cases hm
  exact (h 2 1 (by decide) (by decide) (by decide)).1



open regular_simplex_mesh regular_simplex_mesh_element

/-! ## Elements are determined by their vertices -/

/-- The corner is the coordinate-wise minimum of the vertices: if every vertex of `a` is a
vertex of `b`, the corner of `b` is at most the corner of `a` on every axis. -/
theorem corner_le_of_vertices_subset (n : Nat) (ua ub : List (List Int)) (ca cb : List Int)
    (hza : ∀ j, j < n → ∃ v ∈ ua, v.getD j 0 = 0) (hub : ∀ v ∈ ub, unit_vertex n v)
    (hsub : ∀ v ∈ ua.map (translate n ca), v ∈ ub.map (translate n cb)) :
    ∀ j, j < n → cb.getD j 0 ≤ ca.getD j 0 := by
  intro j hj
  obtain ⟨u, hu, hu0⟩ := hza j hj
  have := hsub _ (List.mem_map_of_mem (translate n ca) hu)
  rw [List.mem_map] at this
  obtain ⟨w, hw, hwe⟩ := this
  have e := congrArg (fun l => l.getD j 0) hwe
  simp only [getD_translate, if_pos hj, hu0] at e
  rcases getD_mem_unit (hub w hw) j with h | h <;> omega

theorem map_translate_injective (n : Nat) (c : List Int) (u w : List (List Int))
    (hu : ∀ v ∈ u, v.length = n) (hw : ∀ v ∈ w, v.length = n)
    (h : u.map (translate n c) = w.map (translate n c)) : u = w := by
  have h1 := congrArg (List.map (translate n (c.map fun x => -x))) h
  rw [List.map_map, List.map_map] at h1
  have e1 : u.map (translate n (c.map fun x => -x) ∘ translate n c) = u := by
    conv_rhs => rw [← List.map_id u]
    apply List.map_congr_left
    intro v hv
    exact translate_neg_translate n c v (hu v hv)
  have e2 : w.map (translate n (c.map fun x => -x) ∘ translate n c) = w := by
    conv_rhs => rw [← List.map_id w]
    apply List.map_congr_left
    intro v hv
    exact translate_neg_translate n c v (hw v hv)
  rw [e1, e2] at h1
  exact h1

/-- C21: in a mesh of dimension `n ≥ 1`, two elements of the same dimension `d ≤ n` with
types in `[0, ntypes(d))` and corners of length `n` that have the same `vertices()` are
equal for `operator==`: same type and same corner. -/
theorem C21_vertices_determine_element (n : Nat) (hn : 1 ≤ n) :
    ∃ m, create n = some m ∧
      ∀ a b : regular_simplex_mesh_element, a.dim ≤ n → b.dim = a.dim → 0 ≤ a.type →
        a.type < m.ntypes a.dim → 0 ≤ b.type → b.type < m.ntypes b.dim →
        a.corner.length = n → b.corner.length = n → vertices m a = vertices m b →
        regular_simplex_mesh_element.eq a b = true ∧ a.type = b.type ∧
          a.corner = b.corner := by
  obtain ⟨k, rfl⟩ : ∃ k, n = k + 1 := ⟨n - 1, by omega⟩
  obtain ⟨m, hm, hs⟩ := create_spec k
  refine ⟨m, hm, ?_⟩
  intro a b hd hbd ha0 haT hb0 hbT hca hcb hv
  rw [hbd] at hbT
  obtain ⟨hAwf, _⟩ := unit_simplex_wf_of_spec hs a.dim hd a.type ha0 haT
  obtain ⟨hBwf, _⟩ := unit_simplex_wf_of_spec hs a.dim hd b.type hb0 hbT
  rw [vertices_eq, vertices_eq, hbd] at hv
  simp only [regular_simplex_mesh.nd, hs.nd_eq] at hv
  have hle1 := corner_le_of_vertices_subset (k + 1) _ _ a.corner b.corner hAwf.2.2.2
    hBwf.2.1 (fun v h => hv ▸ h)
  have hle2 := corner_le_of_vertices_subset (k + 1) _ _ b.corner a.corner hBwf.2.2.2
    hAwf.2.1 (fun v h => hv.symm ▸ h)
  have hcorner : a.corner = b.corner := by
    apply ext_getD (by rw [hca, hcb])
    intro j hj
    rw [hca] at hj
    have := hle1 j hj
    have := hle2 j hj
    omega
  rw [hcorner] at hv
  have hU := map_translate_injective (k + 1) b.corner _ _ (fun v h => (hAwf.2.1 v h).1)
    (fun v h => (hBwf.2.1 v h).1) hv
  rw [unit_simplex_eq hs a.dim hd a.type ha0, unit_simplex_eq hs a.dim hd b.type hb0] at hU
  have hl1 : a.type.toNat < (enumerate_unit_simplices (k + 1) (k + 1) a.dim).length := by
    rw [hs.ntypes_eq a.dim hd] at haT; omega
  have hl2 : b.type.toNat < (enumerate_unit_simplices (k + 1) (k + 1) a.dim).length := by
    rw [hs.ntypes_eq a.dim hd] at hbT; omega
  rw [List.getD_eq_getElem _ _ hl1, List.getD_eq_getElem _ _ hl2] at hU
  have hcat_nodup : (enumerate_unit_simplices (k + 1) (k + 1) a.dim).Nodup :=
    nodup_of_strict simplex_lt_strictTotal (enumerate_unit_simplices_sorted (k + 1) a.dim)
  have hidx := (hcat_nodup.getElem_inj_iff).1 hU
  have htype : a.type = b.type := by omega
  exact ⟨(element_eq_iff a b).2 ⟨hbd.symm, htype, hcorner⟩, htype, hcorner⟩

/-- C21 in the mesh of dimension 2, at the triangle of type 1 at corner `(3, 4)`. -/
theorem C21_vertices_determine_element_witness :
    vertices mesh_two { corner := [3, 4], dim := 2, type := 1 } =
        [[3, 4], [4, 4], [4, 5]] ∧
      regular_simplex_mesh_element.eq { corner := [3, 4], dim := 2, type := 1 }
        { corner := [3, 4], dim := 2, type := 1 } = true := by
  obtain ⟨m, hm, h⟩ := C21_vertices_determine_element 2 (by decide)
  rw [create_two] at hm
  cases hm
  exact ⟨by decide, (h { corner := [3, 4], dim := 2, type := 1 }
    { corner := [3, 4], dim := 2, type := 1 } (by decide) rfl (by decide) (by decide)
    (by decide) (by decide) rfl rfl rfl).1⟩


end hypermesh
